import Mathlib

/-!
Galois/Counter Mode (GCM) and GMAC over a block cipher

A shallow embedding of `web_view_crypto/android/native/gcm.c` and of the
big-endian accessors of `helper.h`.

* A byte (`u8`) is a `Nat` below 256; a buffer is a `List Nat`; a block is a
  buffer of 16 bytes.
* A pointer into a buffer is the buffer together with an offset.
* An out-parameter that the callee fills completely (`z` of `gf_mult`, `J0`,
  `H`, `S`) is returned as a fresh block; a buffer of the caller that is only
  partly written (`y` of `aes_gctr`, `crypt`, `plain`, `tag`) is passed in and
  returned.
* A `(pointer, length)` pair of an input is a list, the length being its
  length; `key_len`, which the code never reads, stays a separate argument.
* `u32` arithmetic is taken modulo `2^32`, `u64` and `size_t` arithmetic
  modulo `2^64`.
* The process-wide `struct AES_ctx ctx` is explicit state, passed in and out.
-/

set_option linter.unusedVariables false

namespace GCM

/-! ## helper.h -/

/-- The block size, `AES_BLOCK_SIZE`. -/
def AES_BLOCK_SIZE : Nat := 16

/-- The macro `BIT(x)`, that is `1U << x`. -/
def BIT (x : Nat) : Nat := (1 <<< x) % 2 ^ 32

/-- The macro `WPA_GET_BE32(a + off)`. -/
def WPA_GET_BE32 (a : List Nat) (off : Nat) : Nat :=
  ((a.getD off 0 <<< 24) ||| (a.getD (off + 1) 0 <<< 16) |||
    (a.getD (off + 2) 0 <<< 8) ||| a.getD (off + 3) 0) % 2 ^ 32

/-- The bytes of `a` after `WPA_PUT_BE32(a + off, val)`. -/
def WPA_PUT_BE32 (a : List Nat) (off : Nat) (val : Nat) : List Nat :=
  let v := val % 2 ^ 32
  (((a.set off ((v >>> 24) &&& 0xff)).set (off + 1) ((v >>> 16) &&& 0xff)).set
    (off + 2) ((v >>> 8) &&& 0xff)).set (off + 3) (v &&& 0xff)

/-- The bytes of `a` after `WPA_PUT_BE64(a + off, val)`. -/
def WPA_PUT_BE64 (a : List Nat) (off : Nat) (val : Nat) : List Nat :=
  let v := val % 2 ^ 64
  (((((((a.set off ((v >>> 56) % 256)).set (off + 1) ((v >>> 48) % 256)).set
    (off + 2) ((v >>> 40) % 256)).set (off + 3) ((v >>> 32) % 256)).set
    (off + 4) ((v >>> 24) % 256)).set (off + 5) ((v >>> 16) % 256)).set
    (off + 6) ((v >>> 8) % 256)).set (off + 7) (v &&& 0xff)

/-! ## libc -/

/-- The bytes of `dst` after `memcpy(dst + off, src, n)`. -/
def memcpy (dst : List Nat) (off : Nat) (src : List Nat) (n : Nat) : List Nat :=
  dst.take off ++ src.take n ++ dst.drop (off + n)

/-- The value of `memcmp(a, b, n)`: the difference of the first pair of bytes that differ
among the first `n`, and 0 when there is none. -/
def memcmp (a b : List Nat) : Nat → Int
  | 0 => 0
  | n + 1 =>
    if a.getD 0 0 = b.getD 0 0 then memcmp (a.drop 1) (b.drop 1) n
    else (a.getD 0 0 : Int) - (b.getD 0 0 : Int)

/-! ## The block cipher -/

/-- Modelled from the spec: the block cipher of `aes.h`, which is not part of
the sources.  It is the external collaborator of the spec, `Init(key) ->
KeySchedule` and `EncryptBlock(KeySchedule, in[16]) -> out[16]`.
`AES_init_ctx(&ctx, key)` updates the context in place, and
`AES_ECB_encrypt(&ctx, in, out)` writes one block of 16 bytes to `out`.  The
key schedule that the encryption uses is set up from the key alone
(`init_key`), whatever the context held before. -/
structure BlockCipher where
  AES_ctx : Type
  AES_init_ctx : AES_ctx → List Nat → AES_ctx
  AES_ECB_encrypt : AES_ctx → List Nat → List Nat
  out_length : ∀ c b, (AES_ECB_encrypt c b).length = 16
  out_byte : ∀ c b v, v ∈ AES_ECB_encrypt c b → v < 256
  init_key : ∀ c c' key b,
    AES_ECB_encrypt (AES_init_ctx c key) b = AES_ECB_encrypt (AES_init_ctx c' key) b

/-! ## gcm.c: block arithmetic -/

/-- The block after `inc32(block)`. -/
def inc32 (block : List Nat) : List Nat :=
  let val := WPA_GET_BE32 block (AES_BLOCK_SIZE - 4)
  let val := (val + 1) % 2 ^ 32
  WPA_PUT_BE32 block (AES_BLOCK_SIZE - 4) val

/-- The 16 bytes at `dst` after `xor_block(dst, src)`. -/
def xor_block (dst src : List Nat) : List Nat :=
  (List.range 16).map (fun i => dst.getD i 0 ^^^ src.getD i 0)

/-- The block `v` after `shift_right_block(v)`. -/
def shift_right_block (v : List Nat) : List Nat :=
  let val := WPA_GET_BE32 v 12
  let val := val >>> 1
  let val := if v.getD 11 0 &&& 0x01 ≠ 0 then val ||| 0x80000000 else val
  let v := WPA_PUT_BE32 v 12 val
  let val := WPA_GET_BE32 v 8
  let val := val >>> 1
  let val := if v.getD 7 0 &&& 0x01 ≠ 0 then val ||| 0x80000000 else val
  let v := WPA_PUT_BE32 v 8 val
  let val := WPA_GET_BE32 v 4
  let val := val >>> 1
  let val := if v.getD 3 0 &&& 0x01 ≠ 0 then val ||| 0x80000000 else val
  let v := WPA_PUT_BE32 v 4 val
  let val := WPA_GET_BE32 v 0
  let val := val >>> 1
  WPA_PUT_BE32 v 0 val

/-! ## gcm.c: multiplication in GF(2^128) -/

/-- The body of the inner loop of `gf_mult`, on the pair `(z, v)`. -/
def gf_mult_step (x : List Nat) (i j : Nat) (s : List Nat × List Nat) :
    List Nat × List Nat :=
  let z := if x.getD i 0 &&& BIT (7 - j) ≠ 0 then xor_block s.1 s.2 else s.1
  let v :=
    if s.2.getD 15 0 &&& 0x01 ≠ 0 then
      let v := shift_right_block s.2
      v.set 0 (v.getD 0 0 ^^^ 0xe1)
    else shift_right_block s.2
  (z, v)

/-- The block `z` after `gf_mult(x, y, z)`. -/
def gf_mult (x y : List Nat) : List Nat :=
  ((List.range 16).foldl
    (fun s i => (List.range 8).foldl (fun s j => gf_mult_step x i j s) s)
    (List.replicate 16 0, y.take 16)).1

/-! ## gcm.c: GHASH -/

/-- The block `y` after `ghash_start(y)`. -/
def ghash_start : List Nat := List.replicate 16 0

/-- The loop over the full blocks of `ghash`: `m` iterations are left, `xpos`
is the offset of the read pointer. -/
def ghash_loop (h x : List Nat) : Nat → Nat → List Nat → Nat × List Nat
  | 0, xpos, y => (xpos, y)
  | m + 1, xpos, y =>
    let y := xor_block y (x.drop xpos)
    let xpos := xpos + 16
    let tmp := gf_mult y h
    ghash_loop h x m xpos tmp

/-- The block `y` after `ghash(h, x, xlen, y)`, with `xlen` the length of `x`. -/
def ghash (h x y : List Nat) : List Nat :=
  if x.length = 0 then y
  else
    let m := x.length / 16
    let (xpos, y) := ghash_loop h x m 0 y
    if x.length > xpos then
      let last := x.length - xpos
      let tmp := (x.drop xpos).take last ++ List.replicate (16 - last) 0
      let y := xor_block y tmp
      gf_mult y h
    else y

/-! ## gcm.c: counter mode -/

/-- The loop over the full blocks of `aes_gctr`: `n` iterations are left,
`xpos` and `ypos` are the offsets of the read and of the write pointer. -/
def aes_gctr_loop (A : BlockCipher) (ctx_aes : A.AES_ctx) (x : List Nat) :
    Nat → Nat → Nat → List Nat → List Nat → Nat × Nat × List Nat × List Nat
  | 0, xpos, ypos, cb, y => (xpos, ypos, cb, y)
  | n + 1, xpos, ypos, cb, y =>
    let blk := A.AES_ECB_encrypt ctx_aes cb
    let blk := xor_block blk (x.drop xpos)
    let y := memcpy y ypos blk 16
    let xpos := xpos + AES_BLOCK_SIZE
    let ypos := ypos + AES_BLOCK_SIZE
    let cb := inc32 cb
    aes_gctr_loop A ctx_aes x n xpos ypos cb y

/-- The buffer `y` after `aes_gctr(ctx_aes, icb, x, xlen, y)`, with `xlen`
the length of `x`. -/
def aes_gctr (A : BlockCipher) (ctx_aes : A.AES_ctx) (icb x y : List Nat) :
    List Nat :=
  if x.length = 0 then y
  else
    let n := x.length / 16
    let cb := icb.take AES_BLOCK_SIZE
    let (xpos, ypos, cb, y) := aes_gctr_loop A ctx_aes x n 0 0 cb y
    let last := x.length - xpos
    if last ≠ 0 then
      let tmp := A.AES_ECB_encrypt ctx_aes cb
      memcpy y ypos
        ((List.range last).map (fun i => x.getD (xpos + i) 0 ^^^ tmp.getD i 0))
        last
    else y

/-! ## gcm.c: hash subkey, J0, GHASH of the message -/

/-- The result is the new value of the global `ctx` and the block `H`. -/
def aes_gcm_init_hash_subkey (A : BlockCipher) (ctx : A.AES_ctx)
    (key : List Nat) (key_len : Nat) : A.AES_ctx × List Nat :=
  let ctx := A.AES_init_ctx ctx key
  let H := List.replicate AES_BLOCK_SIZE 0
  let tmp := A.AES_ECB_encrypt ctx H
  let H := memcpy H 0 tmp AES_BLOCK_SIZE
  (ctx, H)

/-- The block `J0` after `aes_gcm_prepare_j0(iv, iv_len, H, J0)`. -/
def aes_gcm_prepare_j0 (iv H : List Nat) : List Nat :=
  if iv.length = 12 then
    let J0 := iv.take iv.length ++
      List.replicate (AES_BLOCK_SIZE - iv.length) 0
    J0.set (AES_BLOCK_SIZE - 1) 0x01
  else
    let J0 := ghash_start
    let J0 := ghash H iv J0
    let len_buf := WPA_PUT_BE64 (List.replicate 16 0) 0 0
    let len_buf := WPA_PUT_BE64 len_buf 8 (iv.length * 8 % 2 ^ 64)
    ghash H len_buf J0

/-- The buffer `out` after `aes_gcm_gctr(ctx_aes, J0, in, len, out)`. -/
def aes_gcm_gctr (A : BlockCipher) (ctx_aes : A.AES_ctx)
    (J0 inp out : List Nat) : List Nat :=
  if inp.length = 0 then out
  else
    let J0inc := J0.take AES_BLOCK_SIZE
    let J0inc := inc32 J0inc
    aes_gctr A ctx_aes J0inc inp out

/-- The block `S` after `aes_gcm_ghash(H, aad, aad_len, crypt, crypt_len, S)`;
`crypt` is the `crypt_len` bytes that are read. -/
def aes_gcm_ghash (H aad crypt : List Nat) : List Nat :=
  let S := ghash_start
  let S := if aad.length ≠ 0 then ghash H aad S else S
  let S := if crypt.length ≠ 0 then ghash H crypt S else S
  let len_buf := WPA_PUT_BE64 (List.replicate 16 0) 0 (aad.length * 8 % 2 ^ 64)
  let len_buf := WPA_PUT_BE64 len_buf 8 (crypt.length * 8 % 2 ^ 64)
  ghash H len_buf S

/-! ## gcm.c: GCM-AE, GCM-AD, GMAC -/

/-- What a call leaves behind: the global `ctx`, the return value, and the
contents of the data buffer (`crypt` or `plain`) and of the `tag` buffer. -/
structure Outcome (A : BlockCipher) where
  ctx : A.AES_ctx
  ret : Int
  data : List Nat
  tag : List Nat

/-- The call `aes_gcm_ae(key, key_len, iv, iv_len, plain, plain_len, aad,
aad_len, crypt, tag)`, started with the global `ctx` and with the given contents of
the buffers `crypt` and `tag`. -/
def aes_gcm_ae (A : BlockCipher) (ctx : A.AES_ctx) (key : List Nat)
    (key_len : Nat) (iv plain aad crypt tag : List Nat) : Outcome A :=
  let (ctx, H) := aes_gcm_init_hash_subkey A ctx key key_len
  let J0 := aes_gcm_prepare_j0 iv H
  let crypt := aes_gcm_gctr A ctx J0 plain crypt
  let S := aes_gcm_ghash H aad (crypt.take plain.length)
  let tag := aes_gctr A ctx J0 S tag
  { ctx := ctx, ret := 0, data := crypt, tag := tag }

/-- The call `aes_gcm_ad(key, key_len, iv, iv_len, crypt, crypt_len, aad,
aad_len, tag, plain)`, started with the global `ctx` and with the given contents of
the buffer `plain`; `tag` is only read. -/
def aes_gcm_ad (A : BlockCipher) (ctx : A.AES_ctx) (key : List Nat)
    (key_len : Nat) (iv crypt aad tag plain : List Nat) : Outcome A :=
  let (ctx, H) := aes_gcm_init_hash_subkey A ctx key key_len
  let J0 := aes_gcm_prepare_j0 iv H
  let plain := aes_gcm_gctr A ctx J0 crypt plain
  let S := aes_gcm_ghash H aad crypt
  let T := aes_gctr A ctx J0 S (List.replicate 16 0)
  if memcmp tag T 16 ≠ 0 then
    { ctx := ctx, ret := -1, data := plain, tag := tag }
  else
    { ctx := ctx, ret := 0, data := plain, tag := tag }

/-- The call `aes_gmac(key, key_len, iv, iv_len, aad, aad_len, tag)`: `plain` and
`crypt` are `NULL`, buffers of no byte. -/
def aes_gmac (A : BlockCipher) (ctx : A.AES_ctx) (key : List Nat)
    (key_len : Nat) (iv aad tag : List Nat) : Outcome A :=
  aes_gcm_ae A ctx key key_len iv [] aad [] tag

/-! ## Reference definitions, in the words of the specification -/

/-- The key stream of `n` blocks: the encryptions of `cb`, `inc32 cb`,
`inc32 (inc32 cb)`, ... one after the other. -/
def keystream (A : BlockCipher) (ctx : A.AES_ctx) : Nat → List Nat → List Nat
  | 0, _ => []
  | n + 1, cb => A.AES_ECB_encrypt ctx cb ++ keystream A ctx n (inc32 cb)

/-- GCTR of the specification: `X` XOR the key stream started at `icb`, the
unused end of the last key stream block being dropped. -/
def GCTR (A : BlockCipher) (ctx : A.AES_ctx) (icb X : List Nat) : List Nat :=
  List.zipWith (fun a b => a ^^^ b) X (keystream A ctx ((X.length + 15) / 16) icb)

/-- Zero padding on the right to the next multiple of 16 bytes. -/
def pad16 (x : List Nat) : List Nat :=
  x ++ List.replicate ((16 - x.length % 16) % 16) 0

/-- The 64-bit big-endian encoding of `n` (of `n` modulo `2^64`). -/
def be64 (n : Nat) : List Nat :=
  (List.range 8).map (fun k => n / 256 ^ (7 - k) % 256)

/-- GHASH of the specification over `n` whole blocks of `X`, continued from
`Y`: each block is XORed into `Y`, and `Y` is multiplied by `H`. -/
def GHASH_blocks (H : List Nat) : Nat → List Nat → List Nat → List Nat
  | 0, _, Y => Y
  | n + 1, X, Y => GHASH_blocks H n (X.drop 16) (gf_mult (xor_block Y (X.take 16)) H)

/-- GHASH of the specification, seeded at the zero block, over a byte string
that is a sequence of whole blocks. -/
def GHASH (H X : List Nat) : List Nat :=
  GHASH_blocks H (X.length / 16) X (List.replicate 16 0)

/-- The session key schedule of a call. -/
def sessionCtx (A : BlockCipher) (ctx : A.AES_ctx) (key : List Nat) : A.AES_ctx :=
  A.AES_init_ctx ctx key

/-- The hash subkey of a call, the encryption of the zero block. -/
def hashSubkey (A : BlockCipher) (ctx : A.AES_ctx) (key : List Nat) : List Nat :=
  A.AES_ECB_encrypt (A.AES_init_ctx ctx key) (List.replicate 16 0)


/-- The tag of `(key, iv, aad, C)`: `E_K(J0) XOR S`, with `H`, `J0` and `S`
computed by the functions of the code. -/
def expectedTag (A : BlockCipher) (ctx : A.AES_ctx) (key iv aad C : List Nat) : List Nat :=
  xor_block
    (A.AES_ECB_encrypt (sessionCtx A ctx key) (aes_gcm_prepare_j0 iv (hashSubkey A ctx key)))
    (aes_gcm_ghash (hashSubkey A ctx key) aad C)

/-- The buffer `l` with bit `k` of its byte `i` flipped. -/
def flipBit (l : List Nat) (i k : Nat) : List Nat :=
  l.set i (l.getD i 0 ^^^ 2 ^ k)

/-- The byte string that GCM hashes: `A || pad || C || pad || [8 len A]_64 ||
[8 len C]_64`. -/
def ghashInput (aad crypt : List Nat) : List Nat :=
  pad16 aad ++ pad16 crypt ++ be64 (8 * aad.length) ++ be64 (8 * crypt.length)

/-- The consecutive 16-byte chunks of `x`; bytes after the last full chunk are
left out. -/
def chunks16 (x : List Nat) : List (List Nat) :=
  (List.range (x.length / 16)).map (fun k => (x.drop (16 * k)).take 16)

/-- The counter block `CB_k` of counter mode: `CB_0 = ICB` and
`CB_(k+1) = inc32(CB_k)`. -/
def counterBlock (icb : List Nat) : Nat → List Nat
  | 0 => icb
  | k + 1 => inc32 (counterBlock icb k)

/-! ## Blocks as integers -/

/-- The big-endian unsigned integer that the bytes of a buffer spell. -/
def blockToNat (b : List Nat) : Nat :=
  b.foldl (fun acc x => acc * 256 + x) 0

/-- A well-formed block: 16 bytes. -/
def IsBlock (b : List Nat) : Prop :=
  b.length = 16 ∧ ∀ x ∈ b, x < 256

/-- A logical right shift by one bit of a byte string, with `carry` coming
in at the top bit of the first byte. -/
def shiftBytes : Nat → List Nat → List Nat
  | _, [] => []
  | carry, b :: bs => (carry * 128 + b / 2) :: shiftBytes (b % 2) bs

/-! ## The field GF(2^128) of GCM -/

/-- The constant `R = 11100001 || 0^120` of `gf_mult`, as a 128-bit integer. -/
def gcmR : Nat := 0xe1 <<< 120

/-- One turn of the inner loop of `gf_mult` on blocks read as big-endian
128-bit integers: bit `127 - k` of `x` is bit `7 - j` of byte `i`, `k = 8 i + j`. -/
def mulStepNat (x : Nat) (k : Nat) (s : Nat × Nat) : Nat × Nat :=
  (if x.testBit (127 - k) then s.1 ^^^ s.2 else s.1,
   if s.2.testBit 0 then (s.2 >>> 1) ^^^ gcmR else s.2 >>> 1)

/-- The 128 turns of `gf_mult` on 128-bit integers. -/
def gfMulNat (x y : Nat) : Nat :=
  ((List.range 128).foldl (fun s k => mulStepNat x k s) (0, y)).1

/-- Squaring `n` times with `gfMulNat`. -/
def gfSqIter : Nat → Nat → Nat
  | 0, a => a
  | n + 1, a => gfSqIter n (gfMulNat a a)

/-- The polynomial `x^128 + x^7 + x^2 + x + 1` over GF(2). -/
noncomputable def gcmPoly : Polynomial (ZMod 2) :=
  Polynomial.X ^ 128 + Polynomial.X ^ 7 + Polynomial.X ^ 2 + Polynomial.X + 1

/-- The element of `GF(2)[x] / (gcmPoly)` that a 128-bit integer stands for:
bit `127 - k` is the coefficient of `x^k`. -/
noncomputable def toField (n : Nat) : AdjoinRoot gcmPoly :=
  ∑ k ∈ Finset.range 128,
    if n.testBit (127 - k) then (AdjoinRoot.root gcmPoly) ^ k else 0

/-- The polynomial of degree below 128 that a 128-bit integer stands for. -/
noncomputable def toPoly (n : Nat) : Polynomial (ZMod 2) :=
  ∑ k ∈ Finset.range 128, if n.testBit (127 - k) then (Polynomial.X : Polynomial (ZMod 2)) ^ k else 0

/-- The polynomial over GF(2) that a block stands for: the most significant
bit of byte 0 is the coefficient of `x^0`, the least significant bit of byte
15 the coefficient of `x^127`. -/
noncomputable def blockPoly (b : List Nat) : Polynomial (ZMod 2) :=
  ∑ k ∈ Finset.range 128,
    if (b.getD (k / 8) 0).testBit (7 - k % 8) then
      (Polynomial.X : Polynomial (ZMod 2)) ^ k
    else 0

/-! ## Concrete inputs for the examples -/

/-- A small block cipher for the concrete examples.  Its context holds the
key and a second field that `AES_init_ctx` leaves alone; byte `i` of an
encrypted block is `in[i] + 3 * key[i] + 17 * i + 1` modulo 256. -/
def toyCipher : BlockCipher where
  AES_ctx := List Nat × List Nat
  AES_init_ctx := fun c key => (key, c.2)
  AES_ECB_encrypt := fun c b =>
    (List.range 16).map (fun i => (b.getD i 0 + 3 * c.1.getD i 0 + 17 * i + 1) % 256)
  out_length := by intro c b; simp
  out_byte := by
    intro c b v hv
    simp only [List.mem_map, List.mem_range] at hv
    obtain ⟨i, _, rfl⟩ := hv
    omega
  init_key := by intro c c' key b; rfl

/-- The key of the example of `main`. -/
def exKey : List Nat :=
  [0x2b, 0x7e, 0x15, 0x16, 0x28, 0xae, 0xd2, 0xa6, 0xab, 0xf7, 0x15, 0x88, 0x09, 0xcf, 0x4f, 0x3c,
   0x2b, 0x7e, 0x15, 0x16, 0x28, 0xae, 0xd2, 0xa6, 0xab, 0xf7, 0x15, 0x88, 0x09, 0xcf, 0x4f, 0x3c]

/-- The 16-byte nonce of the example of `main`. -/
def exIv : List Nat :=
  [0x00, 0x01, 0x02, 0x03, 0x04, 0x05, 0x06, 0x07, 0x08, 0x09, 0x0a, 0x0b, 0x0c, 0x0d, 0x0e, 0x0f]

/-- The message of the example of `main`, "Hello, World!". -/
def exMsg : List Nat :=
  [0x48, 0x65, 0x6c, 0x6c, 0x6f, 0x2c, 0x20, 0x57, 0x6f, 0x72, 0x6c, 0x64, 0x21]

/-- A context of `toyCipher` before any call. -/
def exCtx : toyCipher.AES_ctx := ([], [])

/-- A buffer of 16 bytes, all `0xaa`. -/
def exBuf : List Nat := List.replicate 16 0xaa

/-- The block `E_K(0^128)` of GCM test case 2 (AES-128, all-zero key). -/
def katH : List Nat :=
  [0x66, 0xe9, 0x4b, 0xd4, 0xef, 0x8a, 0x2c, 0x3b, 0x88, 0x4c, 0xfa, 0x59, 0xca, 0x34, 0x2b, 0x2e]

/-- The block `E_K(0^96 || 00000001)` of GCM test case 2. -/
def katEJ0 : List Nat :=
  [0x58, 0xe2, 0xfc, 0xce, 0xfa, 0x7e, 0x30, 0x61, 0x36, 0x7f, 0x1d, 0x57, 0xa4, 0xe7, 0x45, 0x5a]

/-- The block `E_K(0^96 || 00000002)` of GCM test case 2, which is also its
ciphertext. -/
def katC : List Nat :=
  [0x03, 0x88, 0xda, 0xce, 0x60, 0xb6, 0xa3, 0x92, 0xf3, 0x28, 0xc2, 0xb9, 0x71, 0xb2, 0xfe, 0x78]

/-- The GHASH value `S` of GCM test case 2. -/
def katS : List Nat :=
  [0xf3, 0x8c, 0xbb, 0x1a, 0xd6, 0x92, 0x23, 0xdc, 0xc3, 0x45, 0x7a, 0xe5, 0xb6, 0xb0, 0xf8, 0x85]

/-- The tag of GCM test case 2. -/
def katT : List Nat :=
  [0xab, 0x6e, 0x47, 0xd4, 0x2c, 0xec, 0x13, 0xbd, 0xf5, 0x3a, 0x67, 0xb2, 0x12, 0x57, 0xbd, 0xdf]

/-- The counter block `0^96 || n` for a byte `n`. -/
def katCtr (n : Nat) : List Nat := List.replicate 15 0 ++ [n]

/-- One block of a table cipher that agrees with AES-128 under the all-zero
key on the three blocks that GCM test case 2 encrypts, and is the input
reduced to 16 bytes elsewhere. -/
def katEncrypt (b : List Nat) : List Nat :=
  if b = List.replicate 16 0 then katH
  else if b = katCtr 1 then katEJ0
  else if b = katCtr 2 then katC
  else (List.range 16).map (fun i => b.getD i 0 % 256)

/-- The table cipher of `katEncrypt`; it has a single key schedule. -/
def katCipher : BlockCipher where
  AES_ctx := Unit
  AES_init_ctx := fun _ _ => ()
  AES_ECB_encrypt := fun _ b => katEncrypt b
  out_length := by
    intro c b
    show (katEncrypt b).length = 16
    unfold katEncrypt
    split
    · decide
    · split
      · decide
      · split
        · decide
        · simp
  out_byte := by
    intro c b v hv
    change v ∈ katEncrypt b at hv
    unfold katEncrypt at hv
    split at hv
    · revert v; decide
    · split at hv
      · revert v; decide
      · split at hv
        · revert v; decide
        · simp only [List.mem_map, List.mem_range] at hv
          obtain ⟨i, _, rfl⟩ := hv
          omega
  init_key := by intro c c' key b; rfl

/-- A block cipher with a weak hash subkey, for a concrete example: every key
schedule encrypts a block to itself, so that `E_K(0^128) = 0^128`. -/
def identityCipher : BlockCipher where
  AES_ctx := Unit
  AES_init_ctx := fun _ _ => ()
  AES_ECB_encrypt := fun _ b => (List.range 16).map (fun i => b.getD i 0 % 256)
  out_length := by intro c b; simp
  out_byte := by
    intro c b v hv
    simp only [List.mem_map, List.mem_range] at hv
    obtain ⟨i, _, rfl⟩ := hv
    omega
  init_key := by intro c c' key b; rfl

/-- The first 12 bytes of `exIv`, a 96-bit nonce. -/
def exIv12 : List Nat :=
  [0x00, 0x01, 0x02, 0x03, 0x04, 0x05, 0x06, 0x07, 0x08, 0x09, 0x0a, 0x0b]

/-- Four bytes of associated data. -/
def exAad : List Nat := [0xfe, 0xed, 0xfa, 0xce]

/-- The ciphertext that `aes_gcm_ae` writes for `exMsg` under `identityCipher`
and the nonce `exIv12`: byte `i` is `exMsg[i] XOR J0inc[i]`, with
`J0inc = exIv12 || 00 00 00 02`. -/
def weakCrypt : List Nat :=
  [72, 100, 110, 111, 107, 41, 38, 80, 103, 123, 102, 111, 33]

/-- The ciphertext `weakCrypt` with the lowest bit of its first byte flipped. -/
def weakCryptFlipped : List Nat :=
  [73, 100, 110, 111, 107, 41, 38, 80, 103, 123, 102, 111, 33]

/-- The tag that `aes_gcm_ae` writes for `exMsg` and `exAad` under
`identityCipher` and the nonce `exIv12`. -/
def weakTag : List Nat :=
  [0, 1, 2, 3, 4, 5, 6, 7, 8, 9, 10, 11, 0, 0, 0, 1]

/-- A tag of 16 zero bytes, which is not `weakTag`. -/
def wrongTag : List Nat := List.replicate 16 0

/-- A counter block whose last four bytes are `FF FF FF FF`. -/
def exWrap : List Nat := exIv12 ++ [0xff, 0xff, 0xff, 0xff]

/-- A block with the low bit set in bytes 3, 7, 11 and 15 and the top bit set
in byte 0. -/
def exShift : List Nat :=
  [0x80, 0x00, 0x00, 0x01, 0x00, 0x00, 0x00, 0x01, 0x00, 0x00, 0x00, 0x01, 0x00, 0x00, 0x00, 0x01]

/-- Twenty bytes of data: one full chunk and a partial chunk of four bytes. -/
def exData : List Nat := exIv ++ exAad

/-- Twenty bytes of data, other than `exData`. -/
def exData2 : List Nat := katC ++ [0x01, 0x02, 0x03, 0x04]

/-! ## Lemmas: the code against the reference definitions -/

theorem length_xor_block (a b : List Nat) : (xor_block a b).length = 16 := by
  simp [xor_block]

theorem getElem_xor_block (a b : List Nat) (i : Nat) (h : i < (xor_block a b).length) :
    (xor_block a b)[i] = a.getD i 0 ^^^ b.getD i 0 := by
  simp [xor_block]

theorem xor_block_eq_zipWith (a b : List Nat) (ha : a.length = 16) (hb : 16 ≤ b.length) :
    xor_block a b = List.zipWith (fun p q => p ^^^ q) (b.take 16) a := by
  apply List.ext_getElem
  · simp [length_xor_block, ha, hb]
  · intro i h1 h2
    have hi : i < 16 := by simpa [length_xor_block] using h1
    rw [getElem_xor_block]
    simp only [List.getElem_zipWith, List.getElem_take]
    rw [List.getD_eq_getElem _ _ (by omega), List.getD_eq_getElem _ _ (by omega)]
    exact Nat.xor_comm _ _

theorem length_keystream (A : BlockCipher) (ctx : A.AES_ctx) (n : Nat) (cb : List Nat) :
    (keystream A ctx n cb).length = 16 * n := by
  induction n generalizing cb with
  | zero => simp [keystream]
  | succ n ih => simp [keystream, ih, A.out_length]; omega

theorem length_GCTR (A : BlockCipher) (ctx : A.AES_ctx) (icb X : List Nat) :
    (GCTR A ctx icb X).length = X.length := by
  simp [GCTR, length_keystream]; omega

theorem GCTR_nil (A : BlockCipher) (ctx : A.AES_ctx) (icb : List Nat) :
    GCTR A ctx icb [] = [] := by
  simp [GCTR]

theorem GCTR_short (A : BlockCipher) (ctx : A.AES_ctx) (icb X : List Nat)
    (h0 : X ≠ []) (h : X.length ≤ 16) :
    GCTR A ctx icb X = List.zipWith (fun a b => a ^^^ b) X (A.AES_ECB_encrypt ctx icb) := by
  have hpos : 0 < X.length := List.length_pos.mpr h0
  have hk : (X.length + 15) / 16 = 1 := by omega
  simp [GCTR, hk, keystream]

theorem GCTR_cons (A : BlockCipher) (ctx : A.AES_ctx) (icb X : List Nat)
    (h : 16 ≤ X.length) :
    GCTR A ctx icb X =
      List.zipWith (fun a b => a ^^^ b) (X.take 16) (A.AES_ECB_encrypt ctx icb) ++
        GCTR A ctx (inc32 icb) (X.drop 16) := by
  have hk : (X.length + 15) / 16 = ((X.drop 16).length + 15) / 16 + 1 := by
    simp only [List.length_drop]; omega
  unfold GCTR
  rw [hk, keystream]
  conv_lhs => rw [← List.take_append_drop 16 X]
  rw [List.zipWith_append _ _ _ _ _ (by simp [A.out_length, h])]
  rw [List.take_append_drop]

/-- The whole of `X`, cut after `16 * n` bytes. -/
theorem GCTR_append (A : BlockCipher) (ctx : A.AES_ctx) (n : Nat) (icb X1 X2 : List Nat)
    (h : X1.length = 16 * n) :
    GCTR A ctx icb (X1 ++ X2) = GCTR A ctx icb X1 ++ GCTR A ctx (inc32^[n] icb) X2 := by
  induction n generalizing icb X1 with
  | zero =>
    have : X1 = [] := List.length_eq_zero.mp (by simpa using h)
    subst this
    simp [GCTR_nil]
  | succ n ih =>
    have h1 : 16 ≤ X1.length := by omega
    rw [GCTR_cons A ctx icb (X1 ++ X2) (by simp; omega), GCTR_cons A ctx icb X1 h1]
    rw [List.take_append_of_le_length h1, List.drop_append_of_le_length h1]
    rw [ih (inc32 icb) (X1.drop 16) (by simp; omega)]
    simp [Function.iterate_succ_apply]

theorem aes_gctr_loop_eq (A : BlockCipher) (ctx : A.AES_ctx) (x : List Nat) (n : Nat) :
    ∀ (xpos ypos : Nat) (cb y : List Nat), xpos + 16 * n ≤ x.length →
      ypos + 16 * n ≤ y.length →
      aes_gctr_loop A ctx x n xpos ypos cb y =
        (xpos + 16 * n, ypos + 16 * n, inc32^[n] cb,
          y.take ypos ++ GCTR A ctx cb ((x.drop xpos).take (16 * n)) ++
            y.drop (ypos + 16 * n)) := by
  induction n with
  | zero =>
    intro xpos ypos cb y _ _
    simp [aes_gctr_loop, GCTR_nil]
  | succ n ih =>
    intro xpos ypos cb y hx hy
    rw [aes_gctr_loop]
    simp only [AES_BLOCK_SIZE]
    have hlen : (memcpy y ypos (xor_block (A.AES_ECB_encrypt ctx cb) (List.drop xpos x)) 16).length
        = y.length := by
      simp [memcpy, length_xor_block]; omega
    rw [ih _ _ _ _ (by omega) (by rw [hlen]; omega)]
    have hblk : xor_block (A.AES_ECB_encrypt ctx cb) (List.drop xpos x) =
        List.zipWith (fun a b => a ^^^ b) ((x.drop xpos).take 16) (A.AES_ECB_encrypt ctx cb) :=
      xor_block_eq_zipWith _ _ (A.out_length _ _) (by simp; omega)
    have hc : GCTR A ctx cb ((x.drop xpos).take (16 * (n + 1))) =
        xor_block (A.AES_ECB_encrypt ctx cb) (List.drop xpos x) ++
          GCTR A ctx (inc32 cb) ((x.drop (xpos + 16)).take (16 * n)) := by
      rw [GCTR_cons _ _ _ _ (by simp; omega), hblk]
      have t1 : List.take 16 (List.take (16 * (n + 1)) (List.drop xpos x)) =
          List.take 16 (List.drop xpos x) := by
        rw [List.take_take]; congr 1; omega
      have t2 : List.drop 16 (List.take (16 * (n + 1)) (List.drop xpos x)) =
          List.take (16 * n) (List.drop (xpos + 16) x) := by
        rw [List.drop_take, List.drop_drop]
        have : 16 * (n + 1) - 16 = 16 * n := by omega
        rw [this]
      rw [t1, t2]
    rw [hc]
    have e1 : xpos + 16 + 16 * n = xpos + 16 * (n + 1) := by omega
    have e2 : ypos + 16 + 16 * n = ypos + 16 * (n + 1) := by omega
    have e3 : (memcpy y ypos (xor_block (A.AES_ECB_encrypt ctx cb) (List.drop xpos x)) 16).take
        (ypos + 16) = y.take ypos ++ xor_block (A.AES_ECB_encrypt ctx cb) (List.drop xpos x) := by
      have hl : (y.take ypos ++ (xor_block (A.AES_ECB_encrypt ctx cb) (x.drop xpos)).take 16).length
          = ypos + 16 := by
        simp [length_xor_block]; omega
      rw [memcpy, List.take_left' hl]
      rw [List.take_of_length_le (l := xor_block _ _) (by simp [length_xor_block])]
    have e4 : (memcpy y ypos (xor_block (A.AES_ECB_encrypt ctx cb) (List.drop xpos x)) 16).drop
        (ypos + 16 * (n + 1)) = y.drop (ypos + 16 * (n + 1)) := by
      have hl : (y.take ypos ++ (xor_block (A.AES_ECB_encrypt ctx cb) (x.drop xpos)).take 16).length
          = ypos + 16 := by
        simp [length_xor_block]; omega
      have : ypos + 16 * (n + 1) = (ypos + 16) + 16 * n := by omega
      rw [memcpy, this, ← List.drop_drop, List.drop_left' hl, List.drop_drop]
    rw [e1, e2, e3, e4]
    simp [Function.iterate_succ_apply, List.append_assoc]

theorem partial_eq_zipWith (x tmp : List Nat) (xpos last : Nat)
    (hx : xpos + last = x.length) (ht : last ≤ tmp.length) :
    (List.range last).map (fun i => x.getD (xpos + i) 0 ^^^ tmp.getD i 0) =
      List.zipWith (fun a b => a ^^^ b) (x.drop xpos) tmp := by
  apply List.ext_getElem
  · simp; omega
  · intro i h1 h2
    have hi : i < last := by simpa using h1
    simp only [List.getElem_map, List.getElem_range, List.getElem_zipWith, List.getElem_drop]
    rw [List.getD_eq_getElem _ _ (by omega), List.getD_eq_getElem _ _ (by omega)]

/-- The code of `aes_gctr` computes GCTR of the specification into the first
`xlen` bytes of `y` and leaves the rest of `y` alone. -/
theorem aes_gctr_eq (A : BlockCipher) (ctx : A.AES_ctx) (icb x y : List Nat)
    (hy : x.length ≤ y.length) :
    aes_gctr A ctx icb x y = GCTR A ctx (icb.take 16) x ++ y.drop x.length := by
  unfold aes_gctr
  by_cases h0 : x.length = 0
  · have : x = [] := List.length_eq_zero.mp h0
    subst this
    simp [GCTR_nil]
  · rw [if_neg h0]
    simp only [AES_BLOCK_SIZE]
    rw [aes_gctr_loop_eq A ctx x (x.length / 16) 0 0 _ y (by omega) (by omega)]
    simp only [Nat.zero_add, List.drop_zero, List.take_zero, List.nil_append]
    have hsplit : GCTR A ctx (icb.take 16) x =
        GCTR A ctx (icb.take 16) (x.take (16 * (x.length / 16))) ++
          GCTR A ctx (inc32^[x.length / 16] (icb.take 16)) (x.drop (16 * (x.length / 16))) := by
      conv_lhs => rw [← List.take_append_drop (16 * (x.length / 16)) x]
      exact GCTR_append A ctx _ _ _ _ (by simp; omega)
    have hl1 : (GCTR A ctx (icb.take 16) (x.take (16 * (x.length / 16)))).length =
        16 * (x.length / 16) := by
      rw [length_GCTR]; simp; omega
    by_cases hlast : x.length - 16 * (x.length / 16) = 0
    · simp only [hlast, ne_eq, not_true_eq_false, if_false]
      have e : 16 * (x.length / 16) = x.length := by omega
      rw [hsplit, e, List.drop_of_length_le (l := x) (le_refl _), GCTR_nil]
      simp
    · rw [if_pos hlast]
      rw [hsplit]
      have hd : x.drop (16 * (x.length / 16)) ≠ [] := by
        intro hn
        have := congrArg List.length hn
        simp at this
        omega
      rw [GCTR_short A ctx _ (x.drop (16 * (x.length / 16))) hd (by simp; omega)]
      rw [← partial_eq_zipWith x _ (16 * (x.length / 16)) (x.length - 16 * (x.length / 16))
        (by omega) (by rw [A.out_length]; omega)]
      unfold memcpy
      rw [List.take_left' hl1]
      have hl2 : (GCTR A ctx (icb.take 16) (x.take (16 * (x.length / 16))) ++
          List.drop (16 * (x.length / 16)) y).length = y.length := by
        simp [hl1]; omega
      rw [List.take_of_length_le (l := List.map _ _) (by simp)]
      rw [← List.drop_drop, List.drop_left' hl1, List.drop_drop]
      have e6 : 16 * (x.length / 16) + (x.length - 16 * (x.length / 16)) = x.length := by omega
      rw [e6]

theorem length_pad16 (x : List Nat) : (pad16 x).length = 16 * ((x.length + 15) / 16) := by
  simp [pad16]; omega

theorem xor_block_congr (a b b' : List Nat)
    (h : ∀ i, i < 16 → b.getD i 0 = b'.getD i 0) : xor_block a b = xor_block a b' := by
  unfold xor_block
  apply List.map_congr_left
  intro i hi
  rw [h i (by simpa using hi)]

theorem xor_block_take (a b : List Nat) : xor_block a (b.take 16) = xor_block a b := by
  apply xor_block_congr
  intro i hi
  simp [List.getElem?_take, hi]

theorem GHASH_blocks_add (H : List Nat) (n k : Nat) :
    ∀ X Y : List Nat, GHASH_blocks H (n + k) X Y =
      GHASH_blocks H k (X.drop (16 * n)) (GHASH_blocks H n X Y) := by
  induction n with
  | zero => intro X Y; simp [GHASH_blocks]
  | succ n ih =>
    intro X Y
    have e : n + 1 + k = (n + k) + 1 := by omega
    rw [e, GHASH_blocks, ih, GHASH_blocks, List.drop_drop]
    have e2 : 16 + 16 * n = 16 * (n + 1) := by omega
    rw [e2]

theorem GHASH_blocks_congr (H : List Nat) (n : Nat) :
    ∀ X X' Y : List Nat, X.take (16 * n) = X'.take (16 * n) →
      GHASH_blocks H n X Y = GHASH_blocks H n X' Y := by
  induction n with
  | zero => intro X X' Y _; simp [GHASH_blocks]
  | succ n ih =>
    intro X X' Y h
    have h16 : X.take 16 = X'.take 16 := by
      have := congrArg (List.take 16) h
      simpa [List.take_take] using this
    have hd : (X.drop 16).take (16 * n) = (X'.drop 16).take (16 * n) := by
      have := congrArg (List.drop 16) h
      simpa [List.drop_take, Nat.mul_add] using this
    rw [GHASH_blocks, GHASH_blocks, h16, ih _ _ _ hd]

theorem GHASH_blocks_append (H : List Nat) (n k : Nat) (X1 X2 Y : List Nat)
    (h : X1.length = 16 * n) :
    GHASH_blocks H (n + k) (X1 ++ X2) Y = GHASH_blocks H k X2 (GHASH_blocks H n X1 Y) := by
  rw [GHASH_blocks_add, List.drop_left' h]
  congr 1
  apply GHASH_blocks_congr
  rw [List.take_left' h, List.take_of_length_le (by omega)]

theorem ghash_loop_eq (h x : List Nat) (m : Nat) :
    ∀ (xpos : Nat) (y : List Nat),
      ghash_loop h x m xpos y = (xpos + 16 * m, GHASH_blocks h m (x.drop xpos) y) := by
  induction m with
  | zero => intro xpos y; simp [ghash_loop, GHASH_blocks]
  | succ m ih =>
    intro xpos y
    rw [ghash_loop, ih, GHASH_blocks, xor_block_take, List.drop_drop]
    congr 1
    omega

/-- The code of `ghash` is the block fold over the zero-padded data. -/
theorem ghash_eq (h x y : List Nat) :
    ghash h x y = GHASH_blocks h ((pad16 x).length / 16) (pad16 x) y := by
  unfold ghash
  by_cases h0 : x.length = 0
  · have : x = [] := List.length_eq_zero.mp h0
    subst this
    simp [pad16, GHASH_blocks]
  · rw [if_neg h0]
    dsimp only
    rw [ghash_loop_eq]
    simp only [Nat.zero_add, List.drop_zero]
    rw [length_pad16, Nat.mul_div_cancel_left _ (by norm_num : 0 < 16)]
    by_cases hlast : x.length > 16 * (x.length / 16)
    · rw [if_pos hlast]
      have hk : (x.length + 15) / 16 = x.length / 16 + 1 := by omega
      rw [hk, GHASH_blocks_add, GHASH_blocks, GHASH_blocks]
      have hpre : GHASH_blocks h (x.length / 16) (pad16 x) y =
          GHASH_blocks h (x.length / 16) x y := by
        apply GHASH_blocks_congr
        unfold pad16
        rw [List.take_append_of_le_length (by omega)]
      rw [hpre]
      congr 2
      unfold pad16
      rw [List.drop_append_of_le_length (by omega)]
      have hlen : (List.drop (16 * (x.length / 16)) x ++
          List.replicate ((16 - x.length % 16) % 16) 0).length = 16 := by
        simp; omega
      rw [List.take_of_length_le (l := List.drop _ x ++ _) (by omega)]
      rw [List.take_of_length_le (l := List.drop _ x) (by simp)]
      congr 2
      omega
    · rw [if_neg hlast]
      have hk : (x.length + 15) / 16 = x.length / 16 := by omega
      rw [hk]
      apply GHASH_blocks_congr
      unfold pad16
      rw [List.take_append_of_le_length (by omega)]

theorem foldl_invariant {α β : Type} (P : β → Prop) (f : β → α → β) (l : List α) :
    ∀ b : β, P b → (∀ b a, P b → P (f b a)) → P (l.foldl f b) := by
  induction l with
  | nil => intro b hb _; exact hb
  | cons a l ih => intro b hb hf; exact ih (f b a) (hf b a hb) hf

theorem length_gf_mult (x y : List Nat) : (gf_mult x y).length = 16 := by
  unfold gf_mult
  apply foldl_invariant (fun s : List Nat × List Nat => s.1.length = 16)
  · simp
  · intro s i hs
    apply foldl_invariant (fun s : List Nat × List Nat => s.1.length = 16) _ _ _ hs
    intro s j hs
    unfold gf_mult_step
    dsimp only
    split
    · exact length_xor_block _ _
    · exact hs

theorem length_GHASH_blocks (H : List Nat) (n : Nat) :
    ∀ X Y : List Nat, Y.length = 16 → (GHASH_blocks H n X Y).length = 16 := by
  induction n with
  | zero => intro X Y h; exact h
  | succ n ih => intro X Y _; exact ih _ _ (length_gf_mult _ _)

theorem length_ghash (h x y : List Nat) (hy : y.length = 16) : (ghash h x y).length = 16 := by
  rw [ghash_eq]
  exact length_GHASH_blocks _ _ _ _ hy

theorem be64_byte (v s : Nat) (k : Nat) (hs : s = 8 * k) (hk : k < 8) :
    ((v % 2 ^ 64) >>> s) % 256 = v / 256 ^ k % 256 := by
  subst hs
  rw [Nat.shiftRight_eq_div_pow]
  have : (2 : Nat) ^ (8 * k) = 256 ^ k := by rw [Nat.pow_mul]
  rw [this]
  interval_cases k <;> omega

/-- The two `WPA_PUT_BE64` stores of the length block. -/
theorem len_buf_eq (a b : Nat) :
    WPA_PUT_BE64 (WPA_PUT_BE64 (List.replicate 16 0) 0 a) 8 b = be64 a ++ be64 b := by
  have hand : ∀ v : Nat, v &&& 0xff = v % 256 := fun v =>
    Nat.and_pow_two_sub_one_eq_mod v 8
  simp only [WPA_PUT_BE64, be64, List.replicate, List.set, hand, List.range, List.range.loop,
    List.map, List.cons_append, List.nil_append, Nat.zero_add, Nat.reduceAdd, Nat.reduceSub]
  rw [be64_byte a 56 7 rfl (by omega), be64_byte a 48 6 rfl (by omega),
    be64_byte a 40 5 rfl (by omega), be64_byte a 32 4 rfl (by omega),
    be64_byte a 24 3 rfl (by omega), be64_byte a 16 2 rfl (by omega),
    be64_byte a 8 1 rfl (by omega),
    be64_byte b 56 7 rfl (by omega), be64_byte b 48 6 rfl (by omega),
    be64_byte b 40 5 rfl (by omega), be64_byte b 32 4 rfl (by omega),
    be64_byte b 24 3 rfl (by omega), be64_byte b 16 2 rfl (by omega),
    be64_byte b 8 1 rfl (by omega)]
  have e0 : ∀ v : Nat, v % 2 ^ 64 % 256 = v / 256 ^ 0 % 256 := by intro v; omega
  rw [e0 a, e0 b]

theorem length_be64 (n : Nat) : (be64 n).length = 8 := by simp [be64]

theorem be64_mod (n : Nat) : be64 (n % 2 ^ 64) = be64 n := by
  unfold be64
  apply List.map_congr_left
  intro k hk
  have hk : k < 8 := by simpa using hk
  interval_cases k <;> omega

theorem memcmp_eq_zero_iff (n : Nat) :
    ∀ a b : List Nat, n ≤ a.length → n ≤ b.length →
      (memcmp a b n = 0 ↔ a.take n = b.take n) := by
  induction n with
  | zero => intro a b _ _; simp [memcmp]
  | succ n ih =>
    intro a b ha hb
    cases a with
    | nil => simp at ha
    | cons p a =>
      cases b with
      | nil => simp at hb
      | cons q b =>
        simp only [List.length_cons, Nat.add_le_add_iff_right] at ha hb
        by_cases hpq : p = q
        · subst hpq
          simp [memcmp, ih a b ha hb]
        · have : (p : Int) - (q : Int) ≠ 0 := by omega
          simp [memcmp, hpq, this]

theorem length_WPA_PUT_BE32 (a : List Nat) (off val : Nat) :
    (WPA_PUT_BE32 a off val).length = a.length := by
  simp [WPA_PUT_BE32]

theorem length_inc32 (b : List Nat) : (inc32 b).length = b.length := by
  simp [inc32, length_WPA_PUT_BE32]

theorem length_aes_gcm_prepare_j0 (iv H : List Nat) :
    (aes_gcm_prepare_j0 iv H).length = 16 := by
  unfold aes_gcm_prepare_j0
  split
  · next h => simp [AES_BLOCK_SIZE, h]
  · exact length_ghash _ _ _ (length_ghash _ _ _ (by simp [ghash_start]))

theorem length_aes_gcm_ghash (H aad crypt : List Nat) :
    (aes_gcm_ghash H aad crypt).length = 16 := by
  unfold aes_gcm_ghash
  apply length_ghash
  dsimp only
  split <;> split <;>
    first
      | exact length_ghash _ _ _ (length_ghash _ _ _ (by simp [ghash_start]))
      | exact length_ghash _ _ _ (by simp [ghash_start])
      | simp [ghash_start]

/-- The tag computation `aes_gctr(&ctx, J0, S, sizeof(S), tag)`. -/
theorem aes_gctr_tag (A : BlockCipher) (ctx : A.AES_ctx) (J0 S tag : List Nat)
    (hJ : J0.length = 16) (hS : S.length = 16) (ht : 16 ≤ tag.length) :
    aes_gctr A ctx J0 S tag = xor_block (A.AES_ECB_encrypt ctx J0) S ++ tag.drop 16 := by
  rw [aes_gctr_eq A ctx J0 S tag (by omega), hS]
  congr 1
  have hS0 : S ≠ [] := by
    intro h; rw [h] at hS; simp at hS
  rw [GCTR_short A ctx _ S hS0 (by omega)]
  rw [List.take_of_length_le (by omega)]
  rw [xor_block_eq_zipWith _ _ (A.out_length _ _) (by omega)]
  rw [List.take_of_length_le (by omega)]

theorem aes_gcm_gctr_eq (A : BlockCipher) (ctx : A.AES_ctx) (J0 inp out : List Nat)
    (hJ : J0.length = 16) (ho : inp.length ≤ out.length) :
    aes_gcm_gctr A ctx J0 inp out = GCTR A ctx (inc32 J0) inp ++ out.drop inp.length := by
  unfold aes_gcm_gctr
  by_cases h0 : inp.length = 0
  · have : inp = [] := List.length_eq_zero.mp h0
    subst this
    simp [GCTR_nil]
  · rw [if_neg h0]
    simp only [AES_BLOCK_SIZE]
    rw [aes_gctr_eq A ctx _ inp out ho]
    rw [List.take_of_length_le (l := J0) (by omega)]
    rw [List.take_of_length_le (l := inc32 J0) (by rw [length_inc32]; omega)]

theorem aes_gcm_init_hash_subkey_eq (A : BlockCipher) (ctx : A.AES_ctx) (key : List Nat)
    (key_len : Nat) :
    aes_gcm_init_hash_subkey A ctx key key_len = (sessionCtx A ctx key, hashSubkey A ctx key) := by
  unfold aes_gcm_init_hash_subkey sessionCtx hashSubkey memcpy
  simp only [AES_BLOCK_SIZE, List.take_zero, List.nil_append, Nat.zero_add]
  rw [List.take_of_length_le (by rw [A.out_length])]
  simp

/-- What `aes_gcm_ae` leaves behind, in terms of GCTR of the specification. -/
theorem aes_gcm_ae_eq (A : BlockCipher) (ctx : A.AES_ctx) (key : List Nat) (key_len : Nat)
    (iv plain aad crypt tag : List Nat)
    (hc : plain.length ≤ crypt.length) (ht : 16 ≤ tag.length) :
    aes_gcm_ae A ctx key key_len iv plain aad crypt tag =
      { ctx := sessionCtx A ctx key
        ret := 0
        data := GCTR A (sessionCtx A ctx key)
            (inc32 (aes_gcm_prepare_j0 iv (hashSubkey A ctx key))) plain ++
          crypt.drop plain.length
        tag := xor_block
            (A.AES_ECB_encrypt (sessionCtx A ctx key) (aes_gcm_prepare_j0 iv (hashSubkey A ctx key)))
            (aes_gcm_ghash (hashSubkey A ctx key) aad
              (GCTR A (sessionCtx A ctx key)
                (inc32 (aes_gcm_prepare_j0 iv (hashSubkey A ctx key))) plain)) ++
          tag.drop 16 } := by
  unfold aes_gcm_ae
  rw [aes_gcm_init_hash_subkey_eq]
  dsimp only
  rw [aes_gcm_gctr_eq A _ _ plain crypt (length_aes_gcm_prepare_j0 _ _) hc]
  rw [List.take_left' (length_GCTR _ _ _ _)]
  rw [aes_gctr_tag A _ _ _ tag (length_aes_gcm_prepare_j0 _ _) (length_aes_gcm_ghash _ _ _) ht]

theorem keystream_ctx_congr (A : BlockCipher) (c1 c2 : A.AES_ctx)
    (h : ∀ b, A.AES_ECB_encrypt c1 b = A.AES_ECB_encrypt c2 b) (n : Nat) :
    ∀ cb, keystream A c1 n cb = keystream A c2 n cb := by
  induction n with
  | zero => intro cb; rfl
  | succ n ih => intro cb; rw [keystream, keystream, h, ih]

theorem GCTR_ctx_congr (A : BlockCipher) (c1 c2 : A.AES_ctx)
    (h : ∀ b, A.AES_ECB_encrypt c1 b = A.AES_ECB_encrypt c2 b) (icb X : List Nat) :
    GCTR A c1 icb X = GCTR A c2 icb X := by
  unfold GCTR
  rw [keystream_ctx_congr A c1 c2 h]

/-- Applying GCTR twice with the same counter gives the input back. -/
theorem GCTR_GCTR (A : BlockCipher) (ctx : A.AES_ctx) (icb X : List Nat) :
    GCTR A ctx icb (GCTR A ctx icb X) = X := by
  have hl := length_GCTR A ctx icb X
  unfold GCTR at hl ⊢
  rw [hl]
  apply List.ext_getElem
  · simp [length_keystream]; omega
  · intro i h1 h2
    simp only [List.getElem_zipWith]
    exact Nat.xor_cancel_right _ _

theorem hashSubkey_ctx (A : BlockCipher) (c1 c2 : A.AES_ctx) (key : List Nat) :
    hashSubkey A c1 key = hashSubkey A c2 key :=
  A.init_key c1 c2 key _

theorem expectedTag_ctx (A : BlockCipher) (c1 c2 : A.AES_ctx) (key iv aad C : List Nat) :
    expectedTag A c1 key iv aad C = expectedTag A c2 key iv aad C := by
  unfold expectedTag sessionCtx
  rw [hashSubkey_ctx A c1 c2, A.init_key c1 c2]

theorem length_expectedTag (A : BlockCipher) (ctx : A.AES_ctx) (key iv aad C : List Nat) :
    (expectedTag A ctx key iv aad C).length = 16 :=
  length_xor_block _ _

/-- The return value of `aes_gcm_ad`, for any buffer `plain`. -/
theorem aes_gcm_ad_ret (A : BlockCipher) (ctx : A.AES_ctx) (key : List Nat) (key_len : Nat)
    (iv crypt aad tag plain : List Nat) (ht : 16 ≤ tag.length) :
    (aes_gcm_ad A ctx key key_len iv crypt aad tag plain).ret =
      if tag.take 16 = expectedTag A ctx key iv aad crypt then 0 else -1 := by
  unfold aes_gcm_ad
  rw [aes_gcm_init_hash_subkey_eq]
  dsimp only
  rw [aes_gctr_tag A _ _ _ _ (length_aes_gcm_prepare_j0 _ _) (length_aes_gcm_ghash _ _ _)
    (by simp)]
  have hm := memcmp_eq_zero_iff 16 tag (expectedTag A ctx key iv aad crypt ++
        List.drop 16 (List.replicate 16 0)) ht (by simp [length_expectedTag])
  have hT : (expectedTag A ctx key iv aad crypt ++
      List.drop 16 (List.replicate 16 0)).take 16 = expectedTag A ctx key iv aad crypt := by
    simp [List.take_of_length_le, length_expectedTag]
  rw [hT] at hm
  unfold expectedTag at hm ⊢
  by_cases heq : tag.take 16 = xor_block
      (A.AES_ECB_encrypt (sessionCtx A ctx key) (aes_gcm_prepare_j0 iv (hashSubkey A ctx key)))
      (aes_gcm_ghash (hashSubkey A ctx key) aad crypt)
  · rw [if_pos heq, if_neg (by rw [ne_eq, not_not]; exact hm.mpr heq)]
  · rw [if_neg heq, if_pos (by rw [ne_eq, hm]; exact heq)]

/-- The buffer `plain` after `aes_gcm_ad`, whatever the tag. -/
theorem aes_gcm_ad_data (A : BlockCipher) (ctx : A.AES_ctx) (key : List Nat) (key_len : Nat)
    (iv crypt aad tag plain : List Nat) (hp : crypt.length ≤ plain.length) :
    (aes_gcm_ad A ctx key key_len iv crypt aad tag plain).data =
      GCTR A (sessionCtx A ctx key)
          (inc32 (aes_gcm_prepare_j0 iv (hashSubkey A ctx key))) crypt ++
        plain.drop crypt.length := by
  unfold aes_gcm_ad
  rw [aes_gcm_init_hash_subkey_eq]
  dsimp only
  rw [aes_gcm_gctr_eq A _ _ crypt plain (length_aes_gcm_prepare_j0 _ _) hp]
  split <;> rfl

theorem flipBit_ne (l : List Nat) (i k : Nat) (hi : i < l.length) : flipBit l i k ≠ l := by
  intro h
  have h1 := congrArg (fun m => m.getD i 0) h
  simp only [flipBit] at h1
  rw [List.getD_eq_getElem _ _ (by simpa using hi), List.getElem_set_self,
    List.getD_eq_getElem _ _ hi] at h1
  have h2 : l[i] ^^^ 2 ^ k = l[i] ^^^ 0 := by rw [h1, Nat.xor_zero]
  have h3 := Nat.xor_right_inj.mp h2
  exact absurd h3 (by positivity)

theorem length_flipBit (l : List Nat) (i k : Nat) : (flipBit l i k).length = l.length := by
  simp [flipBit]

theorem weak_expectedTag :
    expectedTag identityCipher () exKey exIv12 exAad weakCrypt = weakTag := by decide!

theorem weak_expectedTag_flipped :
    expectedTag identityCipher () exKey exIv12 exAad weakCryptFlipped = weakTag := by decide!

theorem weak_ad_data (tag : List Nat) :
    (aes_gcm_ad identityCipher () exKey 32 exIv12 weakCrypt exAad tag exBuf).data =
      exMsg ++ [0xaa, 0xaa, 0xaa] := by
  rw [aes_gcm_ad_data _ _ _ _ _ _ _ _ _ (by decide)]
  decide

theorem ghash_nil (h y : List Nat) : ghash h [] y = y := by
  simp [ghash]

theorem pad16_of_length (x : List Nat) (n : Nat) (h : x.length = 16 * n) : pad16 x = x := by
  unfold pad16
  have : (16 - x.length % 16) % 16 = 0 := by omega
  rw [this]
  simp

theorem length_pad16_div (x : List Nat) : (pad16 x).length / 16 = (x.length + 15) / 16 := by
  rw [length_pad16, Nat.mul_div_cancel_left _ (by norm_num : 0 < 16)]

/-- The code of `aes_gcm_ghash` is GHASH of the specification over the single
byte string `A || pad || C || pad || [8 len A]_64 || [8 len C]_64`. -/
theorem aes_gcm_ghash_eq (H aad crypt : List Nat) :
    aes_gcm_ghash H aad crypt =
      GHASH H (pad16 aad ++ pad16 crypt ++ be64 (8 * aad.length) ++ be64 (8 * crypt.length)) := by
  unfold aes_gcm_ghash
  dsimp only
  have h1 : (if aad.length ≠ 0 then ghash H aad ghash_start else ghash_start) =
      ghash H aad ghash_start := by
    split
    · rfl
    · next h =>
      have : aad = [] := List.length_eq_zero.mp (by simpa using h)
      rw [this, ghash_nil]
  have h2 : ∀ S : List Nat, (if crypt.length ≠ 0 then ghash H crypt S else S) =
      ghash H crypt S := by
    intro S
    split
    · rfl
    · next h =>
      have : crypt = [] := List.length_eq_zero.mp (by simpa using h)
      rw [this, ghash_nil]
  rw [h1, h2, len_buf_eq, be64_mod, be64_mod]
  rw [Nat.mul_comm aad.length 8, Nat.mul_comm crypt.length 8]
  have hL : (be64 (8 * aad.length) ++ be64 (8 * crypt.length)).length = 16 * 1 := by
    simp [length_be64]
  rw [ghash_eq H (be64 (8 * aad.length) ++ be64 (8 * crypt.length)),
    pad16_of_length _ 1 hL, hL, Nat.mul_div_cancel_left _ (by norm_num : 0 < 16)]
  rw [ghash_eq H crypt, ghash_eq H aad, length_pad16_div, length_pad16_div]
  unfold GHASH ghash_start
  have hlen : (pad16 aad ++ pad16 crypt ++ be64 (8 * aad.length) ++
      be64 (8 * crypt.length)).length / 16 =
        (aad.length + 15) / 16 + ((crypt.length + 15) / 16 + 1) := by
    simp only [List.length_append, length_pad16, length_be64]
    omega
  rw [hlen, List.append_assoc, List.append_assoc,
    GHASH_blocks_append H _ _ (pad16 aad) _ _ (length_pad16 aad),
    GHASH_blocks_append H _ _ (pad16 crypt) _ _ (length_pad16 crypt)]

theorem aes_gcm_prepare_j0_96 (iv H : List Nat) (h : iv.length = 12) :
    aes_gcm_prepare_j0 iv H = iv ++ [0x00, 0x00, 0x00, 0x01] := by
  unfold aes_gcm_prepare_j0
  rw [if_pos h]
  simp only [AES_BLOCK_SIZE, h]
  rw [List.take_of_length_le (by omega), List.set_append]
  simp [h, List.replicate]

theorem kat_ghash : aes_gcm_ghash katH [] katC = katS := by decide!

theorem aes_gctr_loop_ctx_congr (A : BlockCipher) (c1 c2 : A.AES_ctx)
    (h : ∀ b, A.AES_ECB_encrypt c1 b = A.AES_ECB_encrypt c2 b) (x : List Nat) (n : Nat) :
    ∀ (xpos ypos : Nat) (cb y : List Nat),
      aes_gctr_loop A c1 x n xpos ypos cb y = aes_gctr_loop A c2 x n xpos ypos cb y := by
  induction n with
  | zero => intro xpos ypos cb y; rfl
  | succ n ih =>
    intro xpos ypos cb y
    rw [aes_gctr_loop, aes_gctr_loop, h, ih]

theorem aes_gctr_ctx_congr (A : BlockCipher) (c1 c2 : A.AES_ctx)
    (h : ∀ b, A.AES_ECB_encrypt c1 b = A.AES_ECB_encrypt c2 b) (icb x y : List Nat) :
    aes_gctr A c1 icb x y = aes_gctr A c2 icb x y := by
  unfold aes_gctr
  dsimp only
  rw [aes_gctr_loop_ctx_congr A c1 c2 h]
  simp only [h]

theorem aes_gcm_gctr_ctx_congr (A : BlockCipher) (c1 c2 : A.AES_ctx)
    (h : ∀ b, A.AES_ECB_encrypt c1 b = A.AES_ECB_encrypt c2 b) (J0 inp out : List Nat) :
    aes_gcm_gctr A c1 J0 inp out = aes_gcm_gctr A c2 J0 inp out := by
  unfold aes_gcm_gctr
  dsimp only
  rw [aes_gctr_ctx_congr A c1 c2 h]

theorem aes_gcm_ae_ctx (A : BlockCipher) (ctx1 ctx2 : A.AES_ctx) (key : List Nat)
    (key_len : Nat) (iv plain aad crypt tag : List Nat) :
    (aes_gcm_ae A ctx1 key key_len iv plain aad crypt tag).ret =
        (aes_gcm_ae A ctx2 key key_len iv plain aad crypt tag).ret ∧
      (aes_gcm_ae A ctx1 key key_len iv plain aad crypt tag).data =
        (aes_gcm_ae A ctx2 key key_len iv plain aad crypt tag).data ∧
      (aes_gcm_ae A ctx1 key key_len iv plain aad crypt tag).tag =
        (aes_gcm_ae A ctx2 key key_len iv plain aad crypt tag).tag := by
  have hE : ∀ b, A.AES_ECB_encrypt (sessionCtx A ctx1 key) b =
      A.AES_ECB_encrypt (sessionCtx A ctx2 key) b := fun b => A.init_key ctx1 ctx2 key b
  unfold aes_gcm_ae
  rw [aes_gcm_init_hash_subkey_eq, aes_gcm_init_hash_subkey_eq]
  dsimp only
  rw [hashSubkey_ctx A ctx1 ctx2, aes_gcm_gctr_ctx_congr A _ _ hE, aes_gctr_ctx_congr A _ _ hE]
  exact ⟨rfl, rfl, rfl⟩

theorem aes_gcm_ad_ctx (A : BlockCipher) (ctx1 ctx2 : A.AES_ctx) (key : List Nat)
    (key_len : Nat) (iv crypt aad tag plain : List Nat) :
    (aes_gcm_ad A ctx1 key key_len iv crypt aad tag plain).ret =
        (aes_gcm_ad A ctx2 key key_len iv crypt aad tag plain).ret ∧
      (aes_gcm_ad A ctx1 key key_len iv crypt aad tag plain).data =
        (aes_gcm_ad A ctx2 key key_len iv crypt aad tag plain).data ∧
      (aes_gcm_ad A ctx1 key key_len iv crypt aad tag plain).tag =
        (aes_gcm_ad A ctx2 key key_len iv crypt aad tag plain).tag := by
  have hE : ∀ b, A.AES_ECB_encrypt (sessionCtx A ctx1 key) b =
      A.AES_ECB_encrypt (sessionCtx A ctx2 key) b := fun b => A.init_key ctx1 ctx2 key b
  unfold aes_gcm_ad
  rw [aes_gcm_init_hash_subkey_eq, aes_gcm_init_hash_subkey_eq]
  dsimp only
  rw [hashSubkey_ctx A ctx1 ctx2, aes_gcm_gctr_ctx_congr A _ _ hE, aes_gctr_ctx_congr A _ _ hE]
  split <;> exact ⟨rfl, rfl, rfl⟩

end GCM

namespace GCM

open Polynomial

/-! ## Lemmas: `gf_mult` and the field GF(2^128) -/

theorem blockToNat_foldl (l : List Nat) (acc : Nat) :
    l.foldl (fun acc x => acc * 256 + x) acc = acc * 256 ^ l.length + blockToNat l := by
  induction l generalizing acc with
  | nil => simp [blockToNat]
  | cons a l ih =>
    unfold blockToNat
    rw [List.foldl_cons, List.foldl_cons, ih, ih (0 * 256 + a)]
    simp only [List.length_cons, Nat.zero_mul, Nat.zero_add]
    ring

theorem blockToNat_cons (a : Nat) (l : List Nat) :
    blockToNat (a :: l) = a * 256 ^ l.length + blockToNat l := by
  unfold blockToNat
  rw [List.foldl_cons, blockToNat_foldl]
  simp [blockToNat]

theorem blockToNat_nil : blockToNat [] = 0 := rfl

theorem blockToNat_lt (l : List Nat) (h : ∀ x ∈ l, x < 256) :
    blockToNat l < 256 ^ l.length := by
  induction l with
  | nil => simp [blockToNat]
  | cons a l ih =>
    rw [blockToNat_cons, List.length_cons, pow_succ]
    have ha : a < 256 := h a (List.mem_cons_self _ _)
    have hl := ih (fun x hx => h x (List.mem_cons_of_mem _ hx))
    have hp : 0 < 256 ^ l.length := Nat.pow_pos (by norm_num)
    nlinarith

theorem pow256 (n : Nat) : 256 ^ n = 2 ^ (8 * n) := by
  rw [Nat.pow_mul]

theorem xor_concat (m a b A B : Nat) (hA : A < 2 ^ m) (hB : B < 2 ^ m) :
    (a * 2 ^ m + A) ^^^ (b * 2 ^ m + B) = (a ^^^ b) * 2 ^ m + (A ^^^ B) := by
  apply Nat.eq_of_testBit_eq
  intro i
  rw [Nat.testBit_xor, Nat.mul_comm a, Nat.mul_comm b, Nat.mul_comm (a ^^^ b),
    Nat.testBit_mul_pow_two_add a hA, Nat.testBit_mul_pow_two_add b hB,
    Nat.testBit_mul_pow_two_add (a ^^^ b) (Nat.xor_lt_two_pow hA hB)]
  split
  · rw [Nat.testBit_xor]
  · rw [Nat.testBit_xor]

theorem blockToNat_zipWith_xor (a : List Nat) :
    ∀ b : List Nat, a.length = b.length → (∀ x ∈ a, x < 256) → (∀ x ∈ b, x < 256) →
      blockToNat (List.zipWith (fun p q => p ^^^ q) a b) = blockToNat a ^^^ blockToNat b := by
  induction a with
  | nil =>
    intro b hlen _ _
    have : b = [] := List.length_eq_zero.mp hlen.symm
    subst this
    simp [blockToNat]
  | cons p a ih =>
    intro b hlen ha hb
    cases b with
    | nil => simp at hlen
    | cons q b =>
      simp only [List.length_cons, Nat.add_right_cancel_iff] at hlen
      have ha' : ∀ x ∈ a, x < 256 := fun x hx => ha x (List.mem_cons_of_mem _ hx)
      have hb' : ∀ x ∈ b, x < 256 := fun x hx => hb x (List.mem_cons_of_mem _ hx)
      rw [List.zipWith_cons_cons, blockToNat_cons, blockToNat_cons, blockToNat_cons,
        ih b hlen ha' hb']
      have hl : (List.zipWith (fun p q => p ^^^ q) a b).length = a.length := by
        simp [hlen]
      rw [hl, ← hlen, pow256]
      have hA := blockToNat_lt a ha'
      have hB := blockToNat_lt b hb'
      rw [← hlen] at hB
      rw [pow256] at hA hB
      rw [xor_concat _ _ _ _ _ hA hB]

theorem zipWith_xor_byte (a b : List Nat) (ha : ∀ x ∈ a, x < 256) (hb : ∀ x ∈ b, x < 256) :
    ∀ x ∈ List.zipWith (fun p q => p ^^^ q) a b, x < 256 := by
  intro x hx
  rw [List.mem_iff_getElem] at hx
  obtain ⟨i, hi, rfl⟩ := hx
  rw [List.getElem_zipWith]
  simp only [List.length_zipWith, lt_min_iff] at hi
  exact Nat.xor_lt_two_pow (n := 8) (ha _ (List.getElem_mem _)) (hb _ (List.getElem_mem _))

/-- Bit `m` of byte `i` of a byte string is bit `8 (len - 1 - i) + m` of its integer. -/
theorem testBit_blockToNat (l : List Nat) (h : ∀ x ∈ l, x < 256) :
    ∀ i m : Nat, i < l.length → m < 8 →
      (blockToNat l).testBit (8 * (l.length - 1 - i) + m) = (l.getD i 0).testBit m := by
  induction l with
  | nil => intro i m hi _; simp at hi
  | cons a l ih =>
    intro i m hi hm
    have hl := blockToNat_lt l (fun x hx => h x (List.mem_cons_of_mem _ hx))
    rw [pow256] at hl
    rw [blockToNat_cons, pow256, Nat.mul_comm a, Nat.testBit_mul_pow_two_add a hl]
    simp only [List.length_cons] at hi ⊢
    cases i with
    | zero =>
      have e : ¬ (8 * (l.length + 1 - 1 - 0) + m < 8 * l.length) := by omega
      rw [if_neg e]
      have e2 : 8 * (l.length + 1 - 1 - 0) + m - 8 * l.length = m := by omega
      rw [e2]
      simp
    | succ i =>
      have hi' : i < l.length := by omega
      have e : 8 * (l.length + 1 - 1 - (i + 1)) + m < 8 * l.length := by omega
      rw [if_pos e]
      have e2 : l.length + 1 - 1 - (i + 1) = l.length - 1 - i := by omega
      rw [e2, ih (fun x hx => h x (List.mem_cons_of_mem _ hx)) i m hi' hm]
      simp

theorem blockToNat_shiftBytes (l : List Nat) (h : ∀ x ∈ l, x < 256) :
    ∀ c : Nat, c ≤ 1 →
      blockToNat (shiftBytes c l) = (c * 256 ^ l.length + blockToNat l) / 2 ∧
      (shiftBytes c l).length = l.length := by
  induction l with
  | nil =>
    intro c hc
    simp only [shiftBytes, blockToNat, List.foldl_nil, List.length_nil, pow_zero, Nat.mul_one,
      Nat.add_zero, and_true]
    omega
  | cons a l ih =>
    intro c hc
    have ha : a < 256 := h a (List.mem_cons_self _ _)
    obtain ⟨e1, e2⟩ := ih (fun x hx => h x (List.mem_cons_of_mem _ hx)) (a % 2) (by omega)
    have hl := blockToNat_lt l (fun x hx => h x (List.mem_cons_of_mem _ hx))
    refine ⟨?_, by simp [shiftBytes, e2]⟩
    rw [shiftBytes, blockToNat_cons, e1, e2, blockToNat_cons, List.length_cons, pow_succ]
    generalize 256 ^ l.length = p at hl ⊢
    generalize blockToNat l = B at hl ⊢
    have h1 : (c * 128 + a / 2) * p + (a % 2 * p + B) / 2 = (c * (p * 256) + (a * p + B)) / 2 := by
      have ea : a = 2 * (a / 2) + a % 2 := (Nat.div_add_mod a 2).symm
      have : c * (p * 256) + (a * p + B) = (a % 2 * p + B) + 2 * ((c * 128 + a / 2) * p) := by
        nth_rewrite 1 [ea]
        ring
      rw [this, Nat.add_mul_div_left _ _ (by norm_num : 0 < 2)]
      ring
    exact h1

theorem shiftBytes_byte (l : List Nat) (h : ∀ x ∈ l, x < 256) :
    ∀ c : Nat, c ≤ 1 → ∀ x ∈ shiftBytes c l, x < 256 := by
  induction l with
  | nil => intro c _ x hx; simp [shiftBytes] at hx
  | cons a l ih =>
    intro c hc x hx
    have ha : a < 256 := h a (List.mem_cons_self _ _)
    rw [shiftBytes, List.mem_cons] at hx
    rcases hx with rfl | hx
    · omega
    · exact ih (fun x hx => h x (List.mem_cons_of_mem _ hx)) (a % 2) (by omega) x hx

theorem isBlock_cases (b : List Nat) (h : IsBlock b) :
    ∃ b0 b1 b2 b3 b4 b5 b6 b7 b8 b9 b10 b11 b12 b13 b14 b15 : Nat,
      b = [b0, b1, b2, b3, b4, b5, b6, b7, b8, b9, b10, b11, b12, b13, b14, b15] ∧
      b0 < 256 ∧ b1 < 256 ∧ b2 < 256 ∧ b3 < 256 ∧ b4 < 256 ∧ b5 < 256 ∧ b6 < 256 ∧
      b7 < 256 ∧ b8 < 256 ∧ b9 < 256 ∧ b10 < 256 ∧ b11 < 256 ∧ b12 < 256 ∧ b13 < 256 ∧
      b14 < 256 ∧ b15 < 256 := by
  obtain ⟨hl, hb⟩ := h
  match b, hl, hb with
  | [b0, b1, b2, b3, b4, b5, b6, b7, b8, b9, b10, b11, b12, b13, b14, b15], _, hb =>
    refine ⟨b0, b1, b2, b3, b4, b5, b6, b7, b8, b9, b10, b11, b12, b13, b14, b15, rfl, ?_⟩
    simp only [List.mem_cons, List.mem_singleton, List.not_mem_nil, forall_eq_or_imp,
      forall_eq, or_false] at hb
    simpa [and_assoc] using hb

theorem get_be32 (a0 a1 a2 a3 : Nat) (h0 : a0 < 256) (h1 : a1 < 256) (h2 : a2 < 256)
    (h3 : a3 < 256) :
    ((a0 <<< 24) ||| (a1 <<< 16) ||| (a2 <<< 8) ||| a3) % 2 ^ 32 =
      a0 * 2 ^ 24 + a1 * 2 ^ 16 + a2 * 2 ^ 8 + a3 := by
  have e3 : a2 <<< 8 ||| a3 = 2 ^ 8 * a2 + a3 := by
    rw [Nat.shiftLeft_eq, Nat.mul_comm a2, ← Nat.mul_add_lt_is_or h3 a2]
  have e2 : a1 <<< 16 ||| (2 ^ 8 * a2 + a3) = 2 ^ 16 * a1 + (2 ^ 8 * a2 + a3) := by
    rw [Nat.shiftLeft_eq, Nat.mul_comm a1,
      ← Nat.mul_add_lt_is_or (by omega : 2 ^ 8 * a2 + a3 < 2 ^ 16) a1]
  have e1 : a0 <<< 24 ||| (2 ^ 16 * a1 + (2 ^ 8 * a2 + a3)) =
      2 ^ 24 * a0 + (2 ^ 16 * a1 + (2 ^ 8 * a2 + a3)) := by
    rw [Nat.shiftLeft_eq, Nat.mul_comm a0,
      ← Nat.mul_add_lt_is_or (by omega : 2 ^ 16 * a1 + (2 ^ 8 * a2 + a3) < 2 ^ 24) a0]
  rw [Nat.or_assoc, Nat.or_assoc, e3, e2, e1]
  omega

theorem or_top_bit (w : Nat) (h : w < 2 ^ 31) : w ||| 0x80000000 = w + 2 ^ 31 := by
  have h1 := Nat.mul_add_lt_is_or h 1
  have h2 : (2 ^ 31 * 1 : Nat) = 0x80000000 := by norm_num
  rw [h2] at h1
  rw [Nat.or_comm, ← h1]
  omega

theorem put_be32_bytes (v : Nat) :
    ((v % 2 ^ 32) >>> 24) &&& 0xff = v / 2 ^ 24 % 256 ∧
    ((v % 2 ^ 32) >>> 16) &&& 0xff = v / 2 ^ 16 % 256 ∧
    ((v % 2 ^ 32) >>> 8) &&& 0xff = v / 2 ^ 8 % 256 ∧
    (v % 2 ^ 32) &&& 0xff = v % 256 := by
  have hand : ∀ x : Nat, x &&& 0xff = x % 256 := fun x => Nat.and_pow_two_sub_one_eq_mod x 8
  simp only [hand, Nat.shiftRight_eq_div_pow]
  omega

/-- One 32-bit word of `shift_right_block`: the word at `a0 .. a3`, shifted
right by one with the low bit of the byte `p` before it carried in. -/
theorem shift_word (p a0 a1 a2 a3 : Nat) (hp : p < 256) (h0 : a0 < 256) (h1 : a1 < 256)
    (h2 : a2 < 256) (h3 : a3 < 256) (val : Nat)
    (hval : val = if p &&& 0x01 ≠ 0 then
        (((a0 <<< 24) ||| (a1 <<< 16) ||| (a2 <<< 8) ||| a3) % 2 ^ 32) >>> 1 ||| 0x80000000
      else (((a0 <<< 24) ||| (a1 <<< 16) ||| (a2 <<< 8) ||| a3) % 2 ^ 32) >>> 1) :
    ((val % 2 ^ 32) >>> 24) &&& 0xff = p % 2 * 128 + a0 / 2 ∧
    ((val % 2 ^ 32) >>> 16) &&& 0xff = a0 % 2 * 128 + a1 / 2 ∧
    ((val % 2 ^ 32) >>> 8) &&& 0xff = a1 % 2 * 128 + a2 / 2 ∧
    (val % 2 ^ 32) &&& 0xff = a2 % 2 * 128 + a3 / 2 := by
  obtain ⟨e1, e2, e3, e4⟩ := put_be32_bytes val
  rw [e1, e2, e3, e4, hval, get_be32 a0 a1 a2 a3 h0 h1 h2 h3, Nat.shiftRight_eq_div_pow,
    Nat.and_one_is_mod]
  split
  · next hb =>
    rw [or_top_bit _ (by omega)]
    omega
  · next hb =>
    omega

theorem shift_right_block_eq (b : List Nat) (h : IsBlock b) :
    shift_right_block b = shiftBytes 0 b := by
  obtain ⟨b0, b1, b2, b3, b4, b5, b6, b7, b8, b9, b10, b11, b12, b13, b14, b15, rfl,
    h0, h1, h2, h3, h4, h5, h6, h7, h8, h9, h10, h11, h12, h13, h14, h15⟩ := isBlock_cases b h
  obtain ⟨w31, w32, w33, w34⟩ := shift_word b11 b12 b13 b14 b15 h11 h12 h13 h14 h15 _ rfl
  obtain ⟨w21, w22, w23, w24⟩ := shift_word b7 b8 b9 b10 b11 h7 h8 h9 h10 h11 _ rfl
  obtain ⟨w11, w12, w13, w14⟩ := shift_word b3 b4 b5 b6 b7 h3 h4 h5 h6 h7 _ rfl
  obtain ⟨w01, w02, w03, w04⟩ := shift_word 0 b0 b1 b2 b3 (by norm_num) h0 h1 h2 h3
    ((((b0 <<< 24) ||| (b1 <<< 16) ||| (b2 <<< 8) ||| b3) % 2 ^ 32) >>> 1) (by simp)
  simp only [shift_right_block, WPA_GET_BE32, WPA_PUT_BE32, List.getD_cons_succ,
    List.getD_cons_zero, List.set_cons_succ, List.set_cons_zero, shiftBytes]
  rw [w01, w02, w03, w04, w11, w12, w13, w14, w21, w22, w23, w24, w31, w32, w33, w34]

theorem isBlock_zero : IsBlock (List.replicate 16 0) := by
  refine ⟨by simp, ?_⟩
  intro x hx
  rw [List.mem_replicate] at hx
  omega

theorem blockToNat_zero : blockToNat (List.replicate 16 0) = 0 := by decide

theorem blockToNat_lt_of_isBlock (b : List Nat) (h : IsBlock b) : blockToNat b < 2 ^ 128 := by
  have := blockToNat_lt b h.2
  rw [h.1] at this
  exact this

theorem blockToNat_injective (a b : List Nat) (ha : IsBlock a) (hb : IsBlock b)
    (h : blockToNat a = blockToNat b) : a = b := by
  apply List.ext_getElem (by rw [ha.1, hb.1])
  intro i h1 h2
  apply Nat.eq_of_testBit_eq
  intro m
  by_cases hm : m < 8
  · have ea := testBit_blockToNat a ha.2 i m h1 hm
    have eb := testBit_blockToNat b hb.2 i m h2 hm
    rw [List.getD_eq_getElem _ _ h1] at ea
    rw [List.getD_eq_getElem _ _ h2] at eb
    rw [← ea, ← eb, ha.1, hb.1, h]
  · have hlt : ∀ x : Nat, x < 256 → x.testBit m = false := fun x hx =>
      Nat.testBit_lt_two_pow (Nat.lt_of_lt_of_le hx
        (by
          have : (256 : Nat) = 2 ^ 8 := by norm_num
          rw [this]
          exact Nat.pow_le_pow_right (by norm_num) (by omega)))
    rw [hlt _ (ha.2 _ (List.getElem_mem _)), hlt _ (hb.2 _ (List.getElem_mem _))]

theorem shift_right_block_spec (v : List Nat) (h : IsBlock v) :
    IsBlock (shift_right_block v) ∧
      blockToNat (shift_right_block v) = blockToNat v >>> 1 := by
  rw [shift_right_block_eq v h]
  obtain ⟨e1, e2⟩ := blockToNat_shiftBytes v h.2 0 (by norm_num)
  refine ⟨⟨by rw [e2, h.1], shiftBytes_byte v h.2 0 (by norm_num)⟩, ?_⟩
  rw [e1, Nat.shiftRight_eq_div_pow]
  simp

theorem xor_block_spec (a b : List Nat) (ha : IsBlock a) (hb : IsBlock b) :
    IsBlock (xor_block a b) ∧ blockToNat (xor_block a b) = blockToNat a ^^^ blockToNat b := by
  have e : xor_block a b = List.zipWith (fun p q => p ^^^ q) b a := by
    rw [xor_block_eq_zipWith a b ha.1 (by rw [hb.1]), List.take_of_length_le (by rw [hb.1])]
  rw [e]
  refine ⟨⟨by simp [ha.1, hb.1], zipWith_xor_byte b a hb.2 ha.2⟩, ?_⟩
  rw [blockToNat_zipWith_xor b a (by rw [ha.1, hb.1]) hb.2 ha.2, Nat.xor_comm]

theorem reduce_spec (v : List Nat) (h : IsBlock v) :
    IsBlock (v.set 0 (v.getD 0 0 ^^^ 0xe1)) ∧
      blockToNat (v.set 0 (v.getD 0 0 ^^^ 0xe1)) = blockToNat v ^^^ gcmR := by
  obtain ⟨hl, hb⟩ := h
  cases v with
  | nil => simp at hl
  | cons b0 rest =>
    simp only [List.set_cons_zero, List.getD_cons_zero]
    have h0 : b0 < 256 := hb b0 (List.mem_cons_self _ _)
    have hr : ∀ x ∈ rest, x < 256 := fun x hx => hb x (List.mem_cons_of_mem _ hx)
    have hlr : rest.length = 15 := by simpa using hl
    refine ⟨⟨by simp [hlr], ?_⟩, ?_⟩
    · intro x hx
      rw [List.mem_cons] at hx
      rcases hx with rfl | hx
      · exact Nat.xor_lt_two_pow (n := 8) h0 (by norm_num)
      · exact hr x hx
    · rw [blockToNat_cons, blockToNat_cons, hlr]
      have hB := blockToNat_lt rest hr
      rw [hlr] at hB
      have e256 : (256 : Nat) ^ 15 = 2 ^ 120 := by norm_num
      rw [e256] at hB ⊢
      have hg : gcmR = 0xe1 * 2 ^ 120 + 0 := by decide!
      rw [hg, xor_concat 120 b0 0xe1 _ 0 hB (by norm_num), Nat.xor_zero]

theorem and_two_pow_ne_zero (n k : Nat) : n &&& 2 ^ k ≠ 0 ↔ n.testBit k = true := by
  constructor
  · intro h
    by_contra hb
    apply h
    apply Nat.eq_of_testBit_eq
    intro i
    rw [Nat.testBit_and, Nat.zero_testBit, Nat.testBit_two_pow]
    by_cases hki : k = i
    · subst hki
      simp [Bool.not_eq_true _ |>.mp hb]
    · simp [hki]
  · intro hb h
    have := congrArg (fun t => Nat.testBit t k) h
    simp only [Nat.testBit_and, Nat.testBit_two_pow_self, Nat.zero_testBit, hb] at this
    exact absurd this (by decide)

theorem BIT_eq (k : Nat) (hk : k < 32) : BIT k = 2 ^ k := by
  unfold BIT
  rw [Nat.shiftLeft_eq, Nat.one_mul]
  exact Nat.mod_eq_of_lt (Nat.pow_lt_pow_right (by norm_num) hk)

theorem bit_test_spec (x : List Nat) (hx : IsBlock x) (i j : Nat) (hi : i < 16) (hj : j < 8) :
    (x.getD i 0 &&& BIT (7 - j) ≠ 0) ↔ (blockToNat x).testBit (127 - (8 * i + j)) = true := by
  rw [BIT_eq _ (by omega), and_two_pow_ne_zero]
  have := testBit_blockToNat x hx.2 i (7 - j) (by rw [hx.1]; exact hi) (by omega)
  rw [hx.1] at this
  have e : 8 * (16 - 1 - i) + (7 - j) = 127 - (8 * i + j) := by omega
  rw [e] at this
  rw [this]

theorem low_bit_spec (v : List Nat) (hv : IsBlock v) :
    (v.getD 15 0 &&& 0x01 ≠ 0) ↔ (blockToNat v).testBit 0 = true := by
  have := testBit_blockToNat v hv.2 15 0 (by rw [hv.1]; norm_num) (by norm_num)
  rw [hv.1] at this
  have e : 8 * (16 - 1 - 15) + 0 = 0 := by norm_num
  rw [e] at this
  rw [this]
  have h1 : (0x01 : Nat) = 2 ^ 0 := by norm_num
  rw [h1, and_two_pow_ne_zero]

/-- One turn of the loop of `gf_mult` on bytes is one turn on integers. -/
theorem gf_mult_step_spec (x : List Nat) (hx : IsBlock x) (i j : Nat) (hi : i < 16)
    (hj : j < 8) (s : List Nat × List Nat) (hz : IsBlock s.1) (hv : IsBlock s.2) :
    IsBlock (gf_mult_step x i j s).1 ∧ IsBlock (gf_mult_step x i j s).2 ∧
      (blockToNat (gf_mult_step x i j s).1, blockToNat (gf_mult_step x i j s).2) =
        mulStepNat (blockToNat x) (8 * i + j) (blockToNat s.1, blockToNat s.2) := by
  unfold gf_mult_step mulStepNat
  dsimp only
  have hb := bit_test_spec x hx i j hi hj
  have hl := low_bit_spec s.2 hv
  obtain ⟨x1, x2⟩ := xor_block_spec s.1 s.2 hz hv
  obtain ⟨s1, s2⟩ := shift_right_block_spec s.2 hv
  obtain ⟨r1, r2⟩ := reduce_spec (shift_right_block s.2) s1
  by_cases c1 : (blockToNat x).testBit (127 - (8 * i + j)) = true
  · by_cases c2 : (blockToNat s.2).testBit 0 = true
    · rw [if_pos (hb.mpr c1), if_pos (hl.mpr c2), if_pos c1, if_pos c2]
      exact ⟨x1, r1, by rw [x2, r2, s2]⟩
    · rw [if_pos (hb.mpr c1), if_neg (fun h => c2 (hl.mp h)), if_pos c1, if_neg c2]
      exact ⟨x1, s1, by rw [x2, s2]⟩
  · by_cases c2 : (blockToNat s.2).testBit 0 = true
    · rw [if_neg (fun h => c1 (hb.mp h)), if_pos (hl.mpr c2), if_neg c1, if_pos c2]
      exact ⟨hz, r1, by rw [r2, s2]⟩
    · rw [if_neg (fun h => c1 (hb.mp h)), if_neg (fun h => c2 (hl.mp h)), if_neg c1, if_neg c2]
      exact ⟨hz, s1, by rw [s2]⟩

theorem gcmPoly_monic : gcmPoly.Monic := by
  unfold gcmPoly
  monicity!

theorem gcmPoly_natDegree : gcmPoly.natDegree = 128 := by
  unfold gcmPoly
  compute_degree!

theorem field_add_self (x : AdjoinRoot gcmPoly) : x + x = 0 := by
  have h2 : (2 : AdjoinRoot gcmPoly) = 0 := by
    have : (2 : AdjoinRoot gcmPoly) = AdjoinRoot.of gcmPoly (2 : ZMod 2) :=
      (map_ofNat (AdjoinRoot.of gcmPoly) 2).symm
    rw [this]
    have : (2 : ZMod 2) = 0 := by decide
    rw [this, map_zero]
  rw [← two_mul, h2, zero_mul]

theorem root_pow_128 :
    (AdjoinRoot.root gcmPoly) ^ 128 =
      (AdjoinRoot.root gcmPoly) ^ 7 + (AdjoinRoot.root gcmPoly) ^ 2 + AdjoinRoot.root gcmPoly + 1 := by
  have h : AdjoinRoot.mk gcmPoly gcmPoly = 0 := AdjoinRoot.mk_self
  unfold gcmPoly at h
  simp only [map_add, map_pow, AdjoinRoot.mk_X, map_one] at h
  have h' := congrArg (fun t => t + ((AdjoinRoot.root gcmPoly) ^ 7 + (AdjoinRoot.root gcmPoly) ^ 2 +
    AdjoinRoot.root gcmPoly + 1)) h
  simp only [zero_add] at h'
  rw [← h']
  have := field_add_self ((AdjoinRoot.root gcmPoly) ^ 7 + (AdjoinRoot.root gcmPoly) ^ 2 +
    AdjoinRoot.root gcmPoly + 1)
  unfold gcmPoly at this ⊢
  linear_combination (-1 : AdjoinRoot gcmPoly) * this

theorem toField_xor (a b : Nat) : toField (a ^^^ b) = toField a + toField b := by
  unfold toField
  rw [← Finset.sum_add_distrib]
  apply Finset.sum_congr rfl
  intro k _
  rw [Nat.testBit_xor]
  cases a.testBit (127 - k) <;> cases b.testBit (127 - k) <;> simp [field_add_self]

theorem toField_zero : toField 0 = 0 := by
  simp [toField]

theorem toField_two_pow (k : Nat) (hk : k < 128) :
    toField (2 ^ (127 - k)) = (AdjoinRoot.root gcmPoly) ^ k := by
  unfold toField
  rw [Finset.sum_eq_single k]
  · simp [Nat.testBit_two_pow_self]
  · intro j hj hjk
    have hj : j < 128 := Finset.mem_range.mp hj
    rw [Nat.testBit_two_pow_of_ne (by omega)]
    simp
  · intro h
    exact absurd (Finset.mem_range.mpr hk) h

theorem toField_shiftRight (n : Nat) (h : n < 2 ^ 128) :
    toField (n >>> 1) + (if n.testBit 0 then (AdjoinRoot.root gcmPoly) ^ 128 else 0) =
      AdjoinRoot.root gcmPoly * toField n := by
  unfold toField
  have h128 : n.testBit 128 = false := Nat.testBit_lt_two_pow h
  rw [Finset.sum_range_succ' _ 127, Finset.sum_range_succ _ 127, mul_add, Finset.mul_sum]
  simp only [Nat.testBit_shiftRight]
  have e0 : (1 + (127 - 0)) = 128 := by norm_num
  rw [e0, h128]
  simp only [Bool.false_eq_true, if_false, add_zero, Nat.sub_self]
  refine congrArg₂ (fun p q => p + q) ?_ ?_
  · apply Finset.sum_congr rfl
    intro k hk
    have hk : k < 127 := Finset.mem_range.mp hk
    have e : 1 + (127 - (k + 1)) = 127 - k := by omega
    rw [e]
    split
    · rw [pow_succ, mul_comm]
    · rw [mul_zero]
  · split
    · rw [← pow_succ']
    · rw [mul_zero]

theorem gcmR_eq : gcmR = 2 ^ (127 - 0) ^^^ 2 ^ (127 - 1) ^^^ 2 ^ (127 - 2) ^^^ 2 ^ (127 - 7) := by
  decide!

theorem toField_gcmR : toField gcmR = (AdjoinRoot.root gcmPoly) ^ 128 := by
  rw [gcmR_eq, toField_xor, toField_xor, toField_xor, toField_two_pow 0 (by norm_num),
    toField_two_pow 1 (by norm_num), toField_two_pow 2 (by norm_num),
    toField_two_pow 7 (by norm_num), root_pow_128]
  ring

theorem gcmR_lt : gcmR < 2 ^ 128 := by decide!

theorem mulStepNat_snd (x k : Nat) (s : Nat × Nat) (hv : s.2 < 2 ^ 128) :
    (mulStepNat x k s).2 < 2 ^ 128 ∧
      toField (mulStepNat x k s).2 = AdjoinRoot.root gcmPoly * toField s.2 := by
  have hs : s.2 >>> 1 < 2 ^ 128 := by
    rw [Nat.shiftRight_eq_div_pow]; omega
  have hsh := toField_shiftRight s.2 hv
  unfold mulStepNat
  dsimp only
  split
  · next hb =>
    rw [if_pos hb] at hsh
    refine ⟨Nat.xor_lt_two_pow hs gcmR_lt, ?_⟩
    rw [toField_xor, toField_gcmR, hsh]
  · next hb =>
    rw [if_neg hb, add_zero] at hsh
    exact ⟨hs, hsh⟩

theorem mulStepNat_fst (x k : Nat) (s : Nat × Nat) :
    toField (mulStepNat x k s).1 =
      toField s.1 + (if x.testBit (127 - k) then toField s.2 else 0) := by
  unfold mulStepNat
  dsimp only
  split
  · rw [toField_xor]
  · rw [add_zero]

theorem mulStepNat_fst_lt (x k : Nat) (s : Nat × Nat) (hz : s.1 < 2 ^ 128)
    (hv : s.2 < 2 ^ 128) : (mulStepNat x k s).1 < 2 ^ 128 := by
  unfold mulStepNat
  dsimp only
  split
  · exact Nat.xor_lt_two_pow hz hv
  · exact hz

theorem gfMulNat_fold (x y : Nat) (hy : y < 2 ^ 128) (m : Nat) :
    ((List.range m).foldl (fun s k => mulStepNat x k s) (0, y)).1 < 2 ^ 128 ∧
    ((List.range m).foldl (fun s k => mulStepNat x k s) (0, y)).2 < 2 ^ 128 ∧
    toField ((List.range m).foldl (fun s k => mulStepNat x k s) (0, y)).2 =
      (AdjoinRoot.root gcmPoly) ^ m * toField y ∧
    toField ((List.range m).foldl (fun s k => mulStepNat x k s) (0, y)).1 =
      (∑ k ∈ Finset.range m,
        if x.testBit (127 - k) then (AdjoinRoot.root gcmPoly) ^ k else 0) * toField y := by
  induction m with
  | zero =>
    refine ⟨by simp, hy, ?_, ?_⟩
    · simp
    · simp [toField_zero]
  | succ m ih =>
    obtain ⟨h0, h1, h2, h3⟩ := ih
    rw [List.range_succ, List.foldl_append]
    simp only [List.foldl_cons, List.foldl_nil]
    obtain ⟨g1, g2⟩ := mulStepNat_snd x m _ h1
    refine ⟨mulStepNat_fst_lt x m _ h0 h1, g1, ?_, ?_⟩
    · rw [g2, h2, pow_succ]; ring
    · rw [mulStepNat_fst, h3, h2, Finset.sum_range_succ, add_mul]
      congr 1
      split
      · rfl
      · rw [zero_mul]

/-- On 128-bit integers, the loop of `gf_mult` multiplies in
`GF(2)[x] / (x^128 + x^7 + x^2 + x + 1)`. -/
theorem toField_gfMulNat (x y : Nat) (hy : y < 2 ^ 128) :
    toField (gfMulNat x y) = toField x * toField y := by
  unfold gfMulNat
  rw [(gfMulNat_fold x y hy 128).2.2.2]
  rfl

theorem gfMulNat_lt (x y : Nat) (hy : y < 2 ^ 128) : gfMulNat x y < 2 ^ 128 :=
  (gfMulNat_fold x y hy 128).1

theorem adjoinRoot_add_self (f : Polynomial (ZMod 2)) (x : AdjoinRoot f) : x + x = 0 := by
  have h2 : (2 : AdjoinRoot f) = 0 := by
    have : (2 : AdjoinRoot f) = AdjoinRoot.of f (2 : ZMod 2) :=
      (map_ofNat (AdjoinRoot.of f) 2).symm
    rw [this]
    have : (2 : ZMod 2) = 0 := by decide
    rw [this, map_zero]
  rw [← two_mul, h2, zero_mul]

theorem char2_sq_inj {F : Type} [Field F] (hchar : ∀ x : F, x + x = 0) (x y : F) (h : x ^ 2 = y ^ 2) : x = y := by
  have h1 : (x + y) ^ 2 = 0 := by
    have e : (x + y) ^ 2 = x ^ 2 + y ^ 2 + (x * y + x * y) := by ring
    rw [e, hchar (x * y), add_zero, h, hchar]
  have h2 : x + y = 0 := pow_eq_zero_iff (two_ne_zero) |>.mp h1
  have h3 := hchar y
  have : x + y = y + y := by rw [h2, h3]
  exact add_right_cancel this

theorem char2_pow_inj {F : Type} [Field F] (hchar : ∀ x : F, x + x = 0) (n : Nat) : ∀ x y : F, x ^ 2 ^ n = y ^ 2 ^ n → x = y := by
  induction n with
  | zero => intro x y h; simpa using h
  | succ n ih =>
    intro x y h
    rw [pow_succ, pow_mul, pow_mul] at h
    exact ih x y (char2_sq_inj hchar _ _ h)

theorem fr_add {F : Type} [Field F] (a : F) (m n : Nat) (hm : a ^ 2 ^ m = a) (hn : a ^ 2 ^ n = a) : a ^ 2 ^ (m + n) = a := by
  rw [pow_add, pow_mul, hm, hn]

theorem fr_mul {F : Type} [Field F] (a : F) (m q : Nat) (hm : a ^ 2 ^ m = a) : a ^ 2 ^ (m * q) = a := by
  induction q with
  | zero => simp
  | succ q ih => rw [Nat.mul_succ]; exact fr_add a _ _ ih hm

theorem fr_sub {F : Type} [Field F] (hchar : ∀ x : F, x + x = 0) (a : F) (m n : Nat) (hmn : a ^ 2 ^ (m + n) = a) (hm : a ^ 2 ^ m = a) :
    a ^ 2 ^ n = a := by
  apply char2_pow_inj hchar m
  rw [← pow_mul, ← pow_add, Nat.add_comm n m, hmn, hm]

theorem fr_gcd {F : Type} [Field F] (hchar : ∀ x : F, x + x = 0) (a : F) : ∀ m n : Nat, a ^ 2 ^ m = a → a ^ 2 ^ n = a → a ^ 2 ^ Nat.gcd m n = a := by
  intro m n
  induction m, n using Nat.gcd.induction with
  | H0 n => intro _ hn; simpa using hn
  | H1 m n hpos ih =>
    intro hm hn
    rw [Nat.gcd_rec]
    apply ih _ hm
    have e : m * (n / m) + n % m = n := Nat.div_add_mod n m
    apply fr_sub hchar a (m * (n / m)) (n % m)
    · rw [e]; exact hn
    · exact fr_mul a m _ hm

theorem fr_64 {F : Type} [Field F] (hchar : ∀ x : F, x + x = 0) (a : F) (d : Nat) (hd : a ^ 2 ^ d = a) (h128 : a ^ 2 ^ 128 = a) (h0 : 0 < d)
    (hlt : d < 128) : a ^ 2 ^ 64 = a := by
  have hg := fr_gcd hchar a d 128 hd h128
  have hdvd : Nat.gcd d 128 ∣ 2 ^ 7 := Nat.gcd_dvd_right d 128
  obtain ⟨j, hj, hgj⟩ := (Nat.dvd_prime_pow Nat.prime_two).mp hdvd
  have hle : Nat.gcd d 128 ≤ d := Nat.le_of_dvd h0 (Nat.gcd_dvd_left d 128)
  have hj6 : j ≤ 6 := by
    by_contra hcon
    have : j = 7 := by omega
    rw [this] at hgj
    omega
  have h64 : 64 = Nat.gcd d 128 * 2 ^ (6 - j) := by
    rw [hgj, ← pow_add]
    have : j + (6 - j) = 6 := by omega
    rw [this]
    norm_num
  rw [h64]
  exact fr_mul a _ _ hg

theorem toField_gfSqIter (n : Nat) :
    ∀ a : Nat, a < 2 ^ 128 →
      gfSqIter n a < 2 ^ 128 ∧ toField (gfSqIter n a) = toField a ^ 2 ^ n := by
  induction n with
  | zero => intro a ha; exact ⟨ha, by simp [gfSqIter]⟩
  | succ n ih =>
    intro a ha
    obtain ⟨h1, h2⟩ := ih (gfMulNat a a) (gfMulNat_lt a a ha)
    refine ⟨h1, ?_⟩
    rw [gfSqIter, h2, toField_gfMulNat a a ha, ← pow_two, ← pow_mul, ← pow_succ']

theorem frobenius_128_cert : gfSqIter 128 (2 ^ (127 - 1)) = 2 ^ (127 - 1) := by decide!

theorem frobenius_64_cert :
    gfMulNat 0x180da934bf53158251c13dbb149f5279
      (gfSqIter 64 (2 ^ (127 - 1)) ^^^ 2 ^ (127 - 1)) = 2 ^ (127 - 0) := by decide!

theorem root_pow_two_pow_128 :
    (AdjoinRoot.root gcmPoly) ^ 2 ^ 128 = AdjoinRoot.root gcmPoly := by
  have h := (toField_gfSqIter 128 (2 ^ (127 - 1)) (by norm_num)).2
  rw [frobenius_128_cert, toField_two_pow 1 (by norm_num), pow_one] at h
  exact h.symm

theorem root_pow_two_pow_64_unit :
    toField 0x180da934bf53158251c13dbb149f5279 *
      ((AdjoinRoot.root gcmPoly) ^ 2 ^ 64 + AdjoinRoot.root gcmPoly) = 1 := by
  have h64 := toField_gfSqIter 64 (2 ^ (127 - 1)) (by norm_num)
  have h := toField_gfMulNat 0x180da934bf53158251c13dbb149f5279
    (gfSqIter 64 (2 ^ (127 - 1)) ^^^ 2 ^ (127 - 1))
    (Nat.xor_lt_two_pow h64.1 (by norm_num))
  rw [frobenius_64_cert, toField_two_pow 0 (by norm_num), pow_zero, toField_xor, h64.2,
    toField_two_pow 1 (by norm_num), pow_one] at h
  exact h.symm

/-- The polynomial of GCM is irreducible over GF(2): with `x^(2^128) = x` and
`x^(2^64) + x` invertible modulo it, an irreducible factor has degree 128. -/
theorem gcmPoly_irreducible : Irreducible gcmPoly := by
  have hne : gcmPoly ≠ 0 := gcmPoly_monic.ne_zero
  have hnu : ¬ IsUnit gcmPoly := by
    intro h
    have := natDegree_eq_zero_of_isUnit h
    rw [gcmPoly_natDegree] at this
    omega
  obtain ⟨Q, hQ, hdvd⟩ := WfDvdMonoid.exists_irreducible_factor hnu hne
  haveI : Fact (Irreducible Q) := ⟨hQ⟩
  have hQ0 : Q ≠ 0 := hQ.ne_zero
  have hev : gcmPoly.eval₂ (AdjoinRoot.of Q) (AdjoinRoot.root Q) = 0 := by
    obtain ⟨c, hc⟩ := hdvd
    rw [hc, eval₂_mul, AdjoinRoot.eval₂_root, zero_mul]
  have hlift : (AdjoinRoot.lift (AdjoinRoot.of Q) (AdjoinRoot.root Q) hev)
      (AdjoinRoot.root gcmPoly) = AdjoinRoot.root Q := AdjoinRoot.lift_root hev
  have h128 : (AdjoinRoot.root Q) ^ 2 ^ 128 = AdjoinRoot.root Q := by
    have := congrArg (AdjoinRoot.lift (AdjoinRoot.of Q) (AdjoinRoot.root Q) hev)
      root_pow_two_pow_128
    rwa [map_pow, hlift] at this
  have h64 : (AdjoinRoot.root Q) ^ 2 ^ 64 ≠ AdjoinRoot.root Q := by
    intro hcon
    have := congrArg (AdjoinRoot.lift (AdjoinRoot.of Q) (AdjoinRoot.root Q) hev)
      root_pow_two_pow_64_unit
    rw [map_mul, map_add, map_pow, hlift, hcon, adjoinRoot_add_self, mul_zero, map_one] at this
    exact zero_ne_one this
  haveI : Module.Finite (ZMod 2) (AdjoinRoot Q) := (AdjoinRoot.powerBasis hQ0).finite
  haveI : Finite (AdjoinRoot Q) := Module.finite_of_finite (ZMod 2)
  haveI : Fintype (AdjoinRoot Q) := Fintype.ofFinite _
  have hcard : Fintype.card (AdjoinRoot Q) = 2 ^ Q.natDegree := by
    rw [card_eq_pow_finrank (K := ZMod 2), ZMod.card, (AdjoinRoot.powerBasis hQ0).finrank,
      AdjoinRoot.powerBasis_dim]
  have hd : (AdjoinRoot.root Q) ^ 2 ^ Q.natDegree = AdjoinRoot.root Q := by
    rw [← hcard]
    exact FiniteField.pow_card _
  have hdpos : 0 < Q.natDegree := hQ.natDegree_pos
  have hdle : Q.natDegree ≤ 128 := by
    rw [← gcmPoly_natDegree]
    exact natDegree_le_of_dvd hdvd hne
  have hdeq : Q.natDegree = 128 := by
    by_contra hcon
    exact h64 (fr_64 (adjoinRoot_add_self Q) _ _ hd h128 hdpos (by omega))
  obtain ⟨c, hc⟩ := hdvd
  have hc0 : c ≠ 0 := by
    intro h
    rw [h, mul_zero] at hc
    exact hne hc
  have hdc : c.natDegree = 0 := by
    have := congrArg natDegree hc
    rw [natDegree_mul hQ0 hc0, gcmPoly_natDegree, hdeq] at this
    omega
  have hcu : IsUnit c := by
    rw [isUnit_iff_degree_eq_zero, degree_eq_natDegree hc0, hdc]
    rfl
  have hassoc : Associated Q gcmPoly := by
    rw [hc]
    exact associated_mul_unit_right Q c hcu
  exact hassoc.irreducible hQ

theorem toField_eq_mk (n : Nat) : toField n = AdjoinRoot.mk gcmPoly (toPoly n) := by
  unfold toField toPoly
  rw [map_sum]
  apply Finset.sum_congr rfl
  intro k _
  split
  · rw [map_pow, AdjoinRoot.mk_X]
  · rw [map_zero]

theorem coeff_toPoly (n j : Nat) :
    (toPoly n).coeff j = if j < 128 ∧ n.testBit (127 - j) = true then 1 else 0 := by
  unfold toPoly
  rw [finset_sum_coeff]
  have : ∀ k ∈ Finset.range 128,
      (if n.testBit (127 - k) then (X : Polynomial (ZMod 2)) ^ k else 0).coeff j =
        if j = k then (if n.testBit (127 - j) = true then (1 : ZMod 2) else 0) else 0 := by
    intro k _
    by_cases hjk : j = k
    · subst hjk
      by_cases hb : n.testBit (127 - j) = true <;> simp [hb]
    · by_cases hb : n.testBit (127 - k) = true <;> simp [hb, coeff_X_pow, hjk]
  rw [Finset.sum_congr rfl this, Finset.sum_ite_eq]
  by_cases hj : j < 128 <;> by_cases hb : n.testBit (127 - j) = true <;> simp [hj, hb]

theorem toField_eq_zero (n : Nat) (hn : n < 2 ^ 128) (h : toField n = 0) : n = 0 := by
  rw [toField_eq_mk, AdjoinRoot.mk_eq_zero] at h
  have hf : toPoly n = 0 := by
    by_contra hf0
    have hdeg : (toPoly n).natDegree < gcmPoly.natDegree := by
      rw [gcmPoly_natDegree, natDegree_lt_iff_degree_lt hf0, degree_lt_iff_coeff_zero]
      intro m hm
      rw [coeff_toPoly, if_neg]
      intro hcon
      have := hcon.1
      omega
    exact gcmPoly_monic.not_dvd_of_natDegree_lt hf0 hdeg h
  apply Nat.eq_of_testBit_eq
  intro i
  rw [Nat.zero_testBit]
  by_cases hi : i < 128
  · have hc := coeff_toPoly n (127 - i)
    rw [hf, coeff_zero] at hc
    have e : 127 - (127 - i) = i := by omega
    rw [e] at hc
    by_contra hb
    rw [Bool.not_eq_false] at hb
    rw [if_pos ⟨by omega, hb⟩] at hc
    exact zero_ne_one hc
  · exact Nat.testBit_lt_two_pow
      (Nat.lt_of_lt_of_le hn (Nat.pow_le_pow_right (by norm_num) (by omega)))

theorem toField_injective (a b : Nat) (ha : a < 2 ^ 128) (hb : b < 2 ^ 128)
    (h : toField a = toField b) : a = b := by
  have h0 : toField (a ^^^ b) = 0 := by
    rw [toField_xor, h, field_add_self]
  have := toField_eq_zero _ (Nat.xor_lt_two_pow ha hb) h0
  exact Nat.xor_eq_zero.mp this

/-- Multiplication by a nonzero element of GF(2^128) is one to one. -/
theorem gfMulNat_right_injective (h a b : Nat) (hh : h < 2 ^ 128) (h0 : h ≠ 0)
    (ha : a < 2 ^ 128) (hb : b < 2 ^ 128) (heq : gfMulNat a h = gfMulNat b h) : a = b := by
  haveI : Fact (Irreducible gcmPoly) := ⟨gcmPoly_irreducible⟩
  have e := congrArg toField heq
  rw [toField_gfMulNat a h hh, toField_gfMulNat b h hh] at e
  have hne : toField h ≠ 0 := fun hz => h0 (toField_eq_zero h hh hz)
  exact toField_injective a b ha hb (mul_right_cancel₀ hne e)

theorem foldl_rel {α σ τ : Type} (R : σ → τ → Prop) (f : σ → α → σ) (g : τ → α → τ)
    (P : α → Prop) (hstep : ∀ s t a, P a → R s t → R (f s a) (g t a)) (l : List α) :
    (∀ a ∈ l, P a) → ∀ s t, R s t → R (l.foldl f s) (l.foldl g t) := by
  induction l with
  | nil => intro _ s t h; exact h
  | cons a l ih =>
    intro hP s t h
    rw [List.foldl_cons, List.foldl_cons]
    exact ih (fun b hb => hP b (List.mem_cons_of_mem _ hb)) _ _
      (hstep s t a (hP a (List.mem_cons_self _ _)) h)

theorem foldl_range_flat {σ : Type} (f : Nat → σ → σ) (n : Nat) :
    ∀ init : σ, (List.range (8 * n)).foldl (fun s k => f k s) init =
      (List.range n).foldl
        (fun s i => (List.range 8).foldl (fun s j => f (8 * i + j) s) s) init := by
  induction n with
  | zero => intro init; rfl
  | succ n ih =>
    intro init
    have e : 8 * (n + 1) = 8 * n + 8 := by ring
    have hr : List.range (n + 1) = List.range n ++ [n] := List.range_succ n
    rw [e, List.range_add, List.foldl_append, ih, hr, List.foldl_append, List.foldl_map]
    rfl

/-- On well-formed blocks `gf_mult` computes, byte for byte, the product in
GF(2^128) of the integers of its arguments. -/
theorem gf_mult_spec (x y : List Nat) (hx : IsBlock x) (hy : IsBlock y) :
    IsBlock (gf_mult x y) ∧
      blockToNat (gf_mult x y) = gfMulNat (blockToNat x) (blockToNat y) := by
  unfold gf_mult gfMulNat
  have e128 : 128 = 8 * 16 := by norm_num
  rw [e128, foldl_range_flat (fun k s => mulStepNat (blockToNat x) k s) 16]
  have key := foldl_rel
    (fun (s : List Nat × List Nat) (t : Nat × Nat) =>
      IsBlock s.1 ∧ IsBlock s.2 ∧ (blockToNat s.1, blockToNat s.2) = t)
    (fun s i => (List.range 8).foldl (fun s j => gf_mult_step x i j s) s)
    (fun t i => (List.range 8).foldl (fun t j => mulStepNat (blockToNat x) (8 * i + j) t) t)
    (fun i => i < 16)
    (by
      intro s t i hi hR
      exact foldl_rel
        (fun (s : List Nat × List Nat) (t : Nat × Nat) =>
          IsBlock s.1 ∧ IsBlock s.2 ∧ (blockToNat s.1, blockToNat s.2) = t)
        (fun s j => gf_mult_step x i j s)
        (fun t j => mulStepNat (blockToNat x) (8 * i + j) t)
        (fun j => j < 8)
        (by
          intro s t j hj hR
          obtain ⟨h1, h2, h3⟩ := hR
          rw [← h3]
          exact gf_mult_step_spec x hx i j hi hj s h1 h2)
        (List.range 8) (fun j hj => List.mem_range.mp hj) s t hR)
    (List.range 16) (fun i hi => List.mem_range.mp hi)
    (List.replicate 16 0, y.take 16) (0, blockToNat y)
    ⟨isBlock_zero, by rw [List.take_of_length_le (by rw [hy.1])]; exact hy,
      by rw [blockToNat_zero, List.take_of_length_le (by rw [hy.1])]⟩
  obtain ⟨k1, _, k3⟩ := key
  exact ⟨k1, congrArg Prod.fst k3⟩

/-- Multiplication by a nonzero block is one to one on blocks. -/
theorem gf_mult_right_injective (h a b : List Nat) (hh : IsBlock h)
    (h0 : h ≠ List.replicate 16 0) (ha : IsBlock a) (hb : IsBlock b)
    (heq : gf_mult a h = gf_mult b h) : a = b := by
  have e := congrArg blockToNat heq
  rw [(gf_mult_spec a h ha hh).2, (gf_mult_spec b h hb hh).2] at e
  have hne : blockToNat h ≠ 0 := by
    intro hz
    apply h0
    apply blockToNat_injective h _ hh isBlock_zero
    rw [hz, blockToNat_zero]
  exact blockToNat_injective a b ha hb
    (gfMulNat_right_injective _ _ _ (blockToNat_lt_of_isBlock h hh) hne
      (blockToNat_lt_of_isBlock a ha) (blockToNat_lt_of_isBlock b hb) e)

end GCM

namespace GCM

/-! ## Lemmas: GHASH under a nonzero hash subkey -/

theorem isBlock_take (X : List Nat) (hX : ∀ x ∈ X, x < 256) (hl : 16 ≤ X.length) :
    IsBlock (X.take 16) :=
  ⟨by rw [List.length_take]; omega, fun x hx => hX x (List.mem_of_mem_take hx)⟩

theorem xor_block_left_injective (a b c : List Nat) (ha : IsBlock a) (hb : IsBlock b)
    (hc : IsBlock c) (h : xor_block a c = xor_block b c) : a = b := by
  have e := congrArg blockToNat h
  rw [(xor_block_spec a c ha hc).2, (xor_block_spec b c hb hc).2] at e
  exact blockToNat_injective a b ha hb (Nat.xor_left_inj.mp e)

theorem xor_block_right_injective (a b c : List Nat) (ha : IsBlock a) (hb : IsBlock b)
    (hc : IsBlock c) (h : xor_block c a = xor_block c b) : a = b := by
  have e := congrArg blockToNat h
  rw [(xor_block_spec c a hc ha).2, (xor_block_spec c b hc hb).2] at e
  exact blockToNat_injective a b ha hb (Nat.xor_right_inj.mp e)

theorem isBlock_GHASH_blocks (H : List Nat) (hH : IsBlock H) (n : Nat) :
    ∀ X Y : List Nat, (∀ x ∈ X, x < 256) → 16 * n ≤ X.length → IsBlock Y →
      IsBlock (GHASH_blocks H n X Y) := by
  induction n with
  | zero => intro X Y _ _ hY; exact hY
  | succ n ih =>
    intro X Y hX hl hY
    rw [GHASH_blocks]
    apply ih
    · exact fun x hx => hX x (List.mem_of_mem_drop hx)
    · rw [List.length_drop]; omega
    · exact (gf_mult_spec _ _
        (xor_block_spec Y _ hY (isBlock_take X hX (by omega))).1 hH).1

/-- With a nonzero hash subkey, two different accumulators stay different
through the same blocks. -/
theorem GHASH_blocks_ne_of_ne (H : List Nat) (hH : IsBlock H) (h0 : H ≠ List.replicate 16 0)
    (n : Nat) :
    ∀ X Y Y' : List Nat, (∀ x ∈ X, x < 256) → 16 * n ≤ X.length → IsBlock Y → IsBlock Y' →
      Y ≠ Y' → GHASH_blocks H n X Y ≠ GHASH_blocks H n X Y' := by
  induction n with
  | zero => intro X Y Y' _ _ _ _ hne; exact hne
  | succ n ih =>
    intro X Y Y' hX hl hY hY' hne
    rw [GHASH_blocks, GHASH_blocks]
    have hb := isBlock_take X hX (by omega)
    have x1 := (xor_block_spec Y _ hY hb).1
    have x2 := (xor_block_spec Y' _ hY' hb).1
    apply ih
    · exact fun x hx => hX x (List.mem_of_mem_drop hx)
    · rw [List.length_drop]; omega
    · exact (gf_mult_spec _ _ x1 hH).1
    · exact (gf_mult_spec _ _ x2 hH).1
    · intro heq
      exact hne (xor_block_left_injective Y Y' _ hY hY' hb
        (gf_mult_right_injective H _ _ hH h0 x1 x2 heq))

/-- With a nonzero hash subkey, changing one byte of the hashed string
changes the block that GHASH yields. -/
theorem GHASH_blocks_set_ne (H : List Nat) (hH : IsBlock H) (h0 : H ≠ List.replicate 16 0)
    (n : Nat) :
    ∀ (X Y : List Nat) (j v : Nat), (∀ x ∈ X, x < 256) → X.length = 16 * n → IsBlock Y →
      j < X.length → v < 256 → v ≠ X.getD j 0 →
      GHASH_blocks H n X Y ≠ GHASH_blocks H n (X.set j v) Y := by
  induction n with
  | zero => intro X Y j v _ hl _ hj _ _; omega
  | succ n ih =>
    intro X Y j v hX hl hY hj hv hne
    have hXs : ∀ x ∈ X.set j v, x < 256 := by
      intro x hx
      rcases List.mem_or_eq_of_mem_set hx with h | h
      · exact hX x h
      · rw [h]; exact hv
    rw [GHASH_blocks, GHASH_blocks]
    have hb := isBlock_take X hX (by omega)
    have hbs := isBlock_take (X.set j v) hXs (by rw [List.length_set]; omega)
    by_cases hj16 : j < 16
    · have hd : (X.set j v).drop 16 = X.drop 16 := by
        apply List.ext_getElem (by simp)
        intro i h1 h2
        rw [List.getElem_drop, List.getElem_drop, List.getElem_set_ne (by omega)]
      rw [hd]
      apply GHASH_blocks_ne_of_ne H hH h0 n
      · exact fun x hx => hX x (List.mem_of_mem_drop hx)
      · rw [List.length_drop]; omega
      · exact (gf_mult_spec _ _ (xor_block_spec Y _ hY hb).1 hH).1
      · exact (gf_mult_spec _ _ (xor_block_spec Y _ hY hbs).1 hH).1
      · intro heq
        have e1 := gf_mult_right_injective H _ _ hH h0 (xor_block_spec Y _ hY hb).1
          (xor_block_spec Y _ hY hbs).1 heq
        have e2 := xor_block_right_injective _ _ Y hb hbs hY e1
        have e3 := congrArg (fun l => l.getD j 0) e2
        simp only [List.getD_eq_getElem?_getD, List.getElem?_take, hj16, if_true,
          List.getElem?_set_self hj, List.getElem?_eq_getElem hj, Option.getD_some] at e3
        apply hne
        rw [List.getD_eq_getElem _ _ hj]
        exact e3.symm
    · have ht : (X.set j v).take 16 = X.take 16 := by
        apply List.ext_getElem (by simp)
        intro i h1 h2
        have hi : i < 16 := by
          rw [List.length_take] at h2; omega
        rw [List.getElem_take, List.getElem_take, List.getElem_set_ne (by omega)]
      have hd : (X.set j v).drop 16 = (X.drop 16).set (j - 16) v := by
        apply List.ext_getElem (by simp)
        intro i h1 h2
        rw [List.getElem_drop]
        by_cases hij : i = j - 16
        · subst hij
          have : 16 + (j - 16) = j := by omega
          simp only [this, List.getElem_set_self]
        · rw [List.getElem_set_ne (by omega), List.getElem_set_ne (by omega),
            List.getElem_drop]
      rw [ht, hd]
      apply ih
      · exact fun x hx => hX x (List.mem_of_mem_drop hx)
      · rw [List.length_drop]; omega
      · exact (gf_mult_spec _ _ (xor_block_spec Y _ hY hb).1 hH).1
      · rw [List.length_drop]; omega
      · exact hv
      · rw [List.getD_eq_getElem _ _ (by rw [List.length_drop]; omega), List.getElem_drop]
        rw [List.getD_eq_getElem _ _ hj] at hne
        have : 16 + (j - 16) = j := by omega
        simp only [this]
        exact hne

theorem isBlock_encrypt (A : BlockCipher) (ctx : A.AES_ctx) (b : List Nat) :
    IsBlock (A.AES_ECB_encrypt ctx b) :=
  ⟨A.out_length ctx b, A.out_byte ctx b⟩

theorem keystream_byte (A : BlockCipher) (ctx : A.AES_ctx) (n : Nat) :
    ∀ cb : List Nat, ∀ y ∈ keystream A ctx n cb, y < 256 := by
  induction n with
  | zero => intro cb y hy; simp [keystream] at hy
  | succ n ih =>
    intro cb y hy
    rw [keystream, List.mem_append] at hy
    rcases hy with h | h
    · exact A.out_byte ctx cb y h
    · exact ih _ y h

theorem GCTR_byte (A : BlockCipher) (ctx : A.AES_ctx) (icb X : List Nat)
    (hX : ∀ x ∈ X, x < 256) : ∀ y ∈ GCTR A ctx icb X, y < 256 :=
  zipWith_xor_byte X _ hX (keystream_byte A ctx _ icb)

theorem pad16_byte (X : List Nat) (hX : ∀ x ∈ X, x < 256) : ∀ x ∈ pad16 X, x < 256 := by
  intro x hx
  rw [pad16, List.mem_append] at hx
  rcases hx with h | h
  · exact hX x h
  · rw [List.mem_replicate] at h
    omega

theorem be64_byte_lt (n : Nat) : ∀ x ∈ be64 n, x < 256 := by
  intro x hx
  simp only [be64, List.mem_map, List.mem_range] at hx
  obtain ⟨k, _, rfl⟩ := hx
  omega

theorem ghashInput_byte (aad crypt : List Nat) (ha : ∀ x ∈ aad, x < 256)
    (hc : ∀ x ∈ crypt, x < 256) : ∀ x ∈ ghashInput aad crypt, x < 256 := by
  intro x hx
  simp only [ghashInput, List.mem_append] at hx
  rcases hx with ((h | h) | h) | h
  · exact pad16_byte aad ha x h
  · exact pad16_byte crypt hc x h
  · exact be64_byte_lt _ x h
  · exact be64_byte_lt _ x h

theorem length_ghashInput (aad crypt : List Nat) :
    (ghashInput aad crypt).length =
      16 * ((aad.length + 15) / 16 + (crypt.length + 15) / 16 + 1) := by
  simp only [ghashInput, List.length_append, length_pad16, length_be64]
  omega

theorem aes_gcm_ghash_eq_blocks (H aad crypt : List Nat) :
    aes_gcm_ghash H aad crypt =
      GHASH_blocks H ((aad.length + 15) / 16 + (crypt.length + 15) / 16 + 1)
        (ghashInput aad crypt) (List.replicate 16 0) := by
  rw [aes_gcm_ghash_eq, GHASH]
  have : (pad16 aad ++ pad16 crypt ++ be64 (8 * aad.length) ++ be64 (8 * crypt.length)) =
      ghashInput aad crypt := rfl
  rw [this, length_ghashInput, Nat.mul_div_cancel_left _ (by norm_num : 0 < 16)]

theorem isBlock_aes_gcm_ghash (H aad crypt : List Nat) (hH : IsBlock H)
    (ha : ∀ x ∈ aad, x < 256) (hc : ∀ x ∈ crypt, x < 256) :
    IsBlock (aes_gcm_ghash H aad crypt) := by
  rw [aes_gcm_ghash_eq_blocks]
  exact isBlock_GHASH_blocks H hH _ _ _ (ghashInput_byte aad crypt ha hc)
    (by rw [length_ghashInput]) isBlock_zero

theorem pad16_set (X : List Nat) (i v : Nat) (hi : i < X.length) :
    pad16 (X.set i v) = (pad16 X).set i v := by
  unfold pad16
  rw [List.length_set, List.set_append_left _ _ hi]

theorem ghashInput_set_crypt (aad crypt : List Nat) (i v : Nat) (hi : i < crypt.length) :
    ghashInput aad (crypt.set i v) = (ghashInput aad crypt).set ((pad16 aad).length + i) v := by
  have hip : i < (pad16 crypt).length := by
    rw [length_pad16]; omega
  unfold ghashInput
  rw [pad16_set crypt i v hi, List.length_set, List.append_assoc, List.append_assoc,
    List.append_assoc, List.append_assoc,
    List.set_append_right _ _ (by omega), Nat.add_sub_cancel_left,
    List.set_append_left _ _ hip]

theorem ghashInput_set_aad (aad crypt : List Nat) (i v : Nat) (hi : i < aad.length) :
    ghashInput (aad.set i v) crypt = (ghashInput aad crypt).set i v := by
  have hip : i < (pad16 aad).length := by
    rw [length_pad16]; omega
  unfold ghashInput
  rw [pad16_set aad i v hi, List.length_set, List.append_assoc, List.append_assoc,
    List.append_assoc, List.append_assoc, List.set_append_left _ _ hip]

/-- With a nonzero hash subkey, changing one byte of the ciphertext changes `S`. -/
theorem aes_gcm_ghash_set_crypt_ne (H aad crypt : List Nat) (hH : IsBlock H)
    (h0 : H ≠ List.replicate 16 0) (ha : ∀ x ∈ aad, x < 256) (hc : ∀ x ∈ crypt, x < 256)
    (i v : Nat) (hi : i < crypt.length) (hv : v < 256) (hne : v ≠ crypt.getD i 0) :
    aes_gcm_ghash H aad crypt ≠ aes_gcm_ghash H aad (crypt.set i v) := by
  rw [aes_gcm_ghash_eq_blocks, aes_gcm_ghash_eq_blocks, List.length_set,
    ghashInput_set_crypt aad crypt i v hi]
  have hlen := length_ghashInput aad crypt
  have hpa := length_pad16 aad
  apply GHASH_blocks_set_ne H hH h0 _ _ _ _ _ (ghashInput_byte aad crypt ha hc) hlen
    isBlock_zero (by rw [hlen, hpa]; omega) hv
  have e : (ghashInput aad crypt).getD ((pad16 aad).length + i) 0 = crypt.getD i 0 := by
    unfold ghashInput
    rw [List.append_assoc, List.append_assoc]
    rw [List.getD_append_right _ _ _ _ (by omega), Nat.add_sub_cancel_left]
    rw [List.getD_append _ _ _ _ (by rw [length_pad16]; omega)]
    unfold pad16
    rw [List.getD_append _ _ _ _ hi]
  rw [e]
  exact hne

/-- With a nonzero hash subkey, changing one byte of the associated data
changes `S`. -/
theorem aes_gcm_ghash_set_aad_ne (H aad crypt : List Nat) (hH : IsBlock H)
    (h0 : H ≠ List.replicate 16 0) (ha : ∀ x ∈ aad, x < 256) (hc : ∀ x ∈ crypt, x < 256)
    (i v : Nat) (hi : i < aad.length) (hv : v < 256) (hne : v ≠ aad.getD i 0) :
    aes_gcm_ghash H aad crypt ≠ aes_gcm_ghash H (aad.set i v) crypt := by
  rw [aes_gcm_ghash_eq_blocks, aes_gcm_ghash_eq_blocks, List.length_set,
    ghashInput_set_aad aad crypt i v hi]
  have hlen := length_ghashInput aad crypt
  apply GHASH_blocks_set_ne H hH h0 _ _ _ _ _ (ghashInput_byte aad crypt ha hc) hlen
    isBlock_zero (by rw [hlen]; omega) hv
  have e : (ghashInput aad crypt).getD i 0 = aad.getD i 0 := by
    unfold ghashInput
    rw [List.append_assoc, List.append_assoc]
    rw [List.getD_append _ _ _ _ (by rw [length_pad16]; omega)]
    unfold pad16
    rw [List.getD_append _ _ _ _ hi]
  rw [e]
  exact hne

theorem flip_byte (b k : Nat) (hb : b < 256) (hk : k < 8) :
    b ^^^ 2 ^ k < 256 ∧ b ^^^ 2 ^ k ≠ b := by
  constructor
  · exact Nat.xor_lt_two_pow (n := 8) hb (Nat.pow_lt_pow_right (by norm_num) hk)
  · intro h
    have h2 : b ^^^ 2 ^ k = b ^^^ 0 := by rw [h, Nat.xor_zero]
    have h3 := Nat.xor_right_inj.mp h2
    exact absurd h3 (by positivity)

theorem weak_GCTR :
    GCTR identityCipher (sessionCtx identityCipher () exKey)
      (inc32 (aes_gcm_prepare_j0 exIv12 (hashSubkey identityCipher () exKey))) exMsg =
      weakCrypt := by decide

theorem weak_ae_data :
    (aes_gcm_ae identityCipher () exKey 32 exIv12 exMsg exAad exBuf exBuf).data.take 13 =
      weakCrypt := by
  rw [aes_gcm_ae_eq _ _ _ _ _ _ _ _ _ (by decide) (by decide)]
  dsimp only
  rw [weak_GCTR]
  decide

theorem weak_ae_tag :
    (aes_gcm_ae identityCipher () exKey 32 exIv12 exMsg exAad exBuf exBuf).tag.take 16 =
      weakTag := by
  rw [aes_gcm_ae_eq _ _ _ _ _ _ _ _ _ (by decide) (by decide)]
  dsimp only
  rw [weak_GCTR, List.take_left' (length_xor_block _ _)]
  exact weak_expectedTag

theorem weak_ad_ret :
    (aes_gcm_ad identityCipher () exKey 32 exIv12 weakCryptFlipped exAad weakTag exBuf).ret =
      0 := by
  rw [aes_gcm_ad_ret _ _ _ _ _ _ _ _ _ (by decide), weak_expectedTag_flipped, if_pos]
  decide

theorem isBlock_hashSubkey (A : BlockCipher) (ctx : A.AES_ctx) (key : List Nat) :
    IsBlock (hashSubkey A ctx key) :=
  isBlock_encrypt A _ _

theorem expectedTag_ne_of_ghash_ne (A : BlockCipher) (ctx : A.AES_ctx)
    (key iv aad C aad2 C2 : List Nat)
    (ha : ∀ x ∈ aad, x < 256) (hc : ∀ x ∈ C, x < 256)
    (ha2 : ∀ x ∈ aad2, x < 256) (hc2 : ∀ x ∈ C2, x < 256)
    (hne : aes_gcm_ghash (hashSubkey A ctx key) aad C ≠
      aes_gcm_ghash (hashSubkey A ctx key) aad2 C2) :
    expectedTag A ctx key iv aad C ≠ expectedTag A ctx key iv aad2 C2 := by
  intro h
  unfold expectedTag at h
  exact hne (xor_block_right_injective _ _ _
    (isBlock_aes_gcm_ghash _ _ _ (isBlock_hashSubkey A ctx key) ha hc)
    (isBlock_aes_gcm_ghash _ _ _ (isBlock_hashSubkey A ctx key) ha2 hc2)
    (isBlock_encrypt A _ _) h)

theorem set_byte (l : List Nat) (i v : Nat) (hl : ∀ x ∈ l, x < 256) (hv : v < 256) :
    ∀ x ∈ l.set i v, x < 256 := by
  intro x hx
  rcases List.mem_or_eq_of_mem_set hx with h | h
  · exact hl x h
  · rw [h]; exact hv

/-! ## Lemmas: the block operations, GHASH and counter mode byte by byte -/

theorem gf_mult_zero_left (y : List Nat) :
    gf_mult (List.replicate 16 0) y = List.replicate 16 0 := by
  unfold gf_mult
  refine foldl_invariant (fun s : List Nat × List Nat => s.1 = List.replicate 16 0) _ _ _ rfl ?_
  intro s i hs
  refine foldl_invariant (fun s : List Nat × List Nat => s.1 = List.replicate 16 0) _ _ _ hs ?_
  intro s j hs
  have h0 : (List.replicate 16 0).getD i 0 = 0 := by
    rw [List.getD_eq_getElem?_getD, List.getElem?_replicate]
    split <;> rfl
  simp only [gf_mult_step, h0, Nat.zero_and, ne_eq, not_true_eq_false, if_false]
  exact hs

theorem gf_mult_zero_right (x : List Nat) :
    gf_mult x (List.replicate 16 0) = List.replicate 16 0 := by
  unfold gf_mult
  refine congrArg Prod.fst
    (?_ : _ = ((List.replicate 16 0, List.replicate 16 0) : List Nat × List Nat))
  refine foldl_invariant
    (fun s : List Nat × List Nat => s = (List.replicate 16 0, List.replicate 16 0)) _ _ _ rfl ?_
  intro s i hs
  refine foldl_invariant
    (fun s : List Nat × List Nat => s = (List.replicate 16 0, List.replicate 16 0)) _ _ _ hs ?_
  intro s j hs
  subst hs
  have hx : xor_block (List.replicate 16 0) (List.replicate 16 0) = List.replicate 16 0 := by
    decide
  have hs : shift_right_block (List.replicate 16 0) = List.replicate 16 0 := by decide
  have h15 : (List.replicate 16 0).getD 15 0 &&& 0x01 = 0 := by decide
  simp only [gf_mult_step, hx, hs, h15, ne_eq, not_true_eq_false, if_false, ite_self]

/-- The block after `inc32`, byte by byte. -/
theorem inc32_eq_append (b : List Nat) (hb : IsBlock b) :
    inc32 b = b.take 12 ++
      [(blockToNat (b.drop 12) + 1) % 2 ^ 32 / 2 ^ 24 % 256,
       (blockToNat (b.drop 12) + 1) % 2 ^ 32 / 2 ^ 16 % 256,
       (blockToNat (b.drop 12) + 1) % 2 ^ 32 / 2 ^ 8 % 256,
       (blockToNat (b.drop 12) + 1) % 2 ^ 32 % 256] := by
  obtain ⟨b0, b1, b2, b3, b4, b5, b6, b7, b8, b9, b10, b11, b12, b13, b14, b15, rfl,
    h0, h1, h2, h3, h4, h5, h6, h7, h8, h9, h10, h11, h12, h13, h14, h15⟩ := isBlock_cases b hb
  have hg := get_be32 b12 b13 b14 b15 h12 h13 h14 h15
  obtain ⟨p1, p2, p3, p4⟩ :=
    put_be32_bytes ((b12 * 2 ^ 24 + b13 * 2 ^ 16 + b14 * 2 ^ 8 + b15 + 1) % 2 ^ 32)
  simp only [inc32, WPA_GET_BE32, WPA_PUT_BE32, AES_BLOCK_SIZE, List.getD_cons_succ,
    List.getD_cons_zero, hg, Nat.reduceSub, Nat.reduceAdd, List.set_cons_succ, List.set_cons_zero,
    p1, p2, p3, p4, Nat.mod_mod]
  simp only [blockToNat, List.take, List.drop, List.foldl, List.cons_append, List.nil_append]
  have e : (((0 * 256 + b12) * 256 + b13) * 256 + b14) * 256 + b15 =
      b12 * 2 ^ 24 + b13 * 2 ^ 16 + b14 * 2 ^ 8 + b15 := by omega
  rw [e]
  simp only [Nat.mod_mod] at p1 p2 p3 p4
  norm_num at p1 p2 p3 p4 ⊢
  exact ⟨p1, p2, p3, p4⟩

/-- The block after `shift_right_block`, byte by byte. -/
theorem shift_right_block_bytes (v : List Nat) (hv : IsBlock v) :
    (shift_right_block v).getD 0 0 = v.getD 0 0 / 2 ∧
      ∀ i, i < 15 →
        (shift_right_block v).getD (i + 1) 0 = v.getD i 0 % 2 * 128 + v.getD (i + 1) 0 / 2 := by
  rw [shift_right_block_eq v hv]
  obtain ⟨b0, b1, b2, b3, b4, b5, b6, b7, b8, b9, b10, b11, b12, b13, b14, b15, rfl,
    h0, h1, h2, h3, h4, h5, h6, h7, h8, h9, h10, h11, h12, h13, h14, h15⟩ := isBlock_cases v hv
  refine ⟨by simp [shiftBytes], ?_⟩
  intro i hi
  interval_cases i <;> simp [shiftBytes]

theorem GHASH_blocks_one (H X Y : List Nat) :
    GHASH_blocks H 1 X Y = gf_mult (xor_block Y (X.take 16)) H := rfl

theorem GHASH_blocks_eq_foldl (H : List Nat) (n : Nat) (X Y : List Nat) :
    GHASH_blocks H n X Y =
      ((List.range n).map (fun k => (X.drop (16 * k)).take 16)).foldl
        (fun Y c => gf_mult (xor_block Y c) H) Y := by
  induction n with
  | zero => rfl
  | succ n ih =>
    have hr : List.range (n + 1) = List.range n ++ [n] := List.range_succ n
    rw [GHASH_blocks_add H n 1 X Y, hr, List.map_append, List.foldl_append, ← ih,
      GHASH_blocks_one]
    rfl

theorem pad16_append (a b : List Nat) (ha : a.length % 16 = 0) :
    pad16 (a ++ b) = a ++ pad16 b := by
  unfold pad16
  rw [List.length_append, List.append_assoc]
  have : (a.length + b.length) % 16 = b.length % 16 := by omega
  rw [this]

theorem ghash_append (h a b y : List Nat) (ha : a.length % 16 = 0) :
    ghash h (a ++ b) y = ghash h b (ghash h a y) := by
  rw [ghash_eq, ghash_eq h b, ghash_eq h a, pad16_append a b ha,
    pad16_of_length a (a.length / 16) (by omega)]
  have hl : (a ++ pad16 b).length / 16 = a.length / 16 + (pad16 b).length / 16 := by
    rw [List.length_append, length_pad16]
    omega
  rw [hl, GHASH_blocks_append h (a.length / 16) _ a (pad16 b) y (by omega)]

theorem ghash_partial (h x y : List Nat) (hx : x.length % 16 ≠ 0) :
    ghash h x y =
      gf_mult (xor_block (ghash h (x.take (16 * (x.length / 16))) y)
        (x.drop (16 * (x.length / 16)) ++ List.replicate (16 - x.length % 16) 0)) h := by
  have hl : (x.take (16 * (x.length / 16))).length = 16 * (x.length / 16) := by
    rw [List.length_take]; omega
  have hd : (x.drop (16 * (x.length / 16))).length = x.length % 16 := by
    rw [List.length_drop]; omega
  conv_lhs => rw [← List.take_append_drop (16 * (x.length / 16)) x]
  rw [ghash_append h _ _ y (by rw [hl]; omega)]
  generalize ghash h (x.take (16 * (x.length / 16))) y = Y
  generalize x.drop (16 * (x.length / 16)) = b at hd ⊢
  rw [ghash_eq]
  have hp : pad16 b = b ++ List.replicate (16 - x.length % 16) 0 := by
    unfold pad16
    rw [hd, Nat.mod_mod]
    congr 2
    omega
  have hpl : (pad16 b).length = 16 := by
    rw [length_pad16, hd]; omega
  rw [hpl, ← hp]
  show GHASH_blocks h 1 (pad16 b) Y = _
  rw [GHASH_blocks_one, List.take_of_length_le (by omega)]

theorem counterBlock_inc32 (icb : List Nat) (k : Nat) :
    counterBlock (inc32 icb) k = inc32 (counterBlock icb k) := by
  induction k with
  | zero => rfl
  | succ k ih => simp only [counterBlock, ih]

theorem getD_keystream (A : BlockCipher) (ctx : A.AES_ctx) (n : Nat) :
    ∀ (cb : List Nat) (i : Nat), i < 16 * n →
      (keystream A ctx n cb).getD i 0 =
        (A.AES_ECB_encrypt ctx (counterBlock cb (i / 16))).getD (i % 16) 0 := by
  induction n with
  | zero => intro cb i hi; omega
  | succ n ih =>
    intro cb i hi
    simp only [keystream]
    by_cases h : i < 16
    · rw [List.getD_append _ _ _ _ (by rw [A.out_length]; exact h)]
      have e1 : i / 16 = 0 := by omega
      have e2 : i % 16 = i := by omega
      rw [e1, e2]
      rfl
    · rw [List.getD_append_right _ _ _ _ (by rw [A.out_length]; omega), A.out_length,
        ih (inc32 cb) (i - 16) (by omega), counterBlock_inc32]
      have e1 : i / 16 = (i - 16) / 16 + 1 := by omega
      have e2 : (i - 16) % 16 = i % 16 := by omega
      rw [e1, e2]
      rfl

theorem getD_zipWith_xor (a b : List Nat) (i : Nat) (ha : i < a.length) (hb : i < b.length) :
    (List.zipWith (fun p q => p ^^^ q) a b).getD i 0 = a.getD i 0 ^^^ b.getD i 0 := by
  rw [List.getD_eq_getElem _ _ (by rw [List.length_zipWith]; omega), List.getD_eq_getElem _ _ ha,
    List.getD_eq_getElem _ _ hb, List.getElem_zipWith]

theorem getD_GCTR (A : BlockCipher) (ctx : A.AES_ctx) (icb x : List Nat) (i : Nat)
    (hi : i < x.length) :
    (GCTR A ctx icb x).getD i 0 =
      x.getD i 0 ^^^ (A.AES_ECB_encrypt ctx (counterBlock icb (i / 16))).getD (i % 16) 0 := by
  unfold GCTR
  rw [getD_zipWith_xor _ _ i hi (by rw [length_keystream]; omega),
    getD_keystream A ctx _ icb i (by omega)]

theorem gf_mult_xor_left (a b h : List Nat) (ha : IsBlock a) (hb : IsBlock b) (hh : IsBlock h) :
    gf_mult (xor_block a b) h = xor_block (gf_mult a h) (gf_mult b h) := by
  obtain ⟨hab, eab⟩ := xor_block_spec a b ha hb
  obtain ⟨h1, e1⟩ := gf_mult_spec (xor_block a b) h hab hh
  obtain ⟨h2, e2⟩ := gf_mult_spec a h ha hh
  obtain ⟨h3, e3⟩ := gf_mult_spec b h hb hh
  obtain ⟨h4, e4⟩ := xor_block_spec _ _ h2 h3
  refine blockToNat_injective _ _ h1 h4 ?_
  rw [e1, e4, e2, e3, eab]
  have bh := blockToNat_lt_of_isBlock h hh
  refine toField_injective _ _ (gfMulNat_lt _ _ bh)
    (Nat.xor_lt_two_pow (gfMulNat_lt _ _ bh) (gfMulNat_lt _ _ bh)) ?_
  rw [toField_gfMulNat _ _ bh, toField_xor, toField_xor, toField_gfMulNat _ _ bh,
    toField_gfMulNat _ _ bh, add_mul]

theorem getD_zipWith_xor_same (a b : List Nat) (hl : a.length = b.length) (i : Nat) :
    (List.zipWith (fun p q => p ^^^ q) a b).getD i 0 = a.getD i 0 ^^^ b.getD i 0 := by
  by_cases hi : i < a.length
  · rw [List.getD_eq_getElem _ _ (by rw [List.length_zipWith]; omega),
      List.getD_eq_getElem _ _ hi, List.getD_eq_getElem _ _ (by omega), List.getElem_zipWith]
  · rw [List.getD_eq_default _ _ (by rw [List.length_zipWith]; omega),
      List.getD_eq_default _ _ (by omega), List.getD_eq_default _ _ (by omega)]
    rfl

theorem xor_block_xor (y1 y2 c1 c2 : List Nat) (hl : c1.length = c2.length) :
    xor_block (xor_block y1 y2) (List.zipWith (fun p q => p ^^^ q) c1 c2) =
      xor_block (xor_block y1 c1) (xor_block y2 c2) := by
  apply List.ext_getElem
  · rw [length_xor_block, length_xor_block]
  · intro i h1 h2
    have hi : i < 16 := by rw [length_xor_block] at h1; exact h1
    rw [getElem_xor_block _ _ _ hi, getElem_xor_block _ _ _ hi]
    rw [List.getD_eq_getElem _ _ (by rw [length_xor_block]; exact hi),
      List.getD_eq_getElem (xor_block y1 c1) _ (by rw [length_xor_block]; exact hi),
      List.getD_eq_getElem (xor_block y2 c2) _ (by rw [length_xor_block]; exact hi),
      getElem_xor_block _ _ _ hi, getElem_xor_block _ _ _ hi, getElem_xor_block _ _ _ hi,
      getD_zipWith_xor_same c1 c2 hl]
    generalize y1.getD i 0 = p
    generalize y2.getD i 0 = q
    generalize c1.getD i 0 = r
    generalize c2.getD i 0 = s
    rw [Nat.xor_assoc, Nat.xor_assoc, ← Nat.xor_assoc q r s, Nat.xor_comm q r, Nat.xor_assoc r q s]


theorem GHASH_blocks_xor (H : List Nat) (hH : IsBlock H) (n : Nat) :
    ∀ X1 X2 Y1 Y2 : List Nat, (∀ x ∈ X1, x < 256) → (∀ x ∈ X2, x < 256) →
      X1.length = X2.length → 16 * n ≤ X1.length → IsBlock Y1 → IsBlock Y2 →
      GHASH_blocks H n (List.zipWith (fun p q => p ^^^ q) X1 X2) (xor_block Y1 Y2) =
        xor_block (GHASH_blocks H n X1 Y1) (GHASH_blocks H n X2 Y2) := by
  induction n with
  | zero => intro X1 X2 Y1 Y2 _ _ _ _ _ _; rfl
  | succ n ih =>
    intro X1 X2 Y1 Y2 hX1 hX2 hl hn hY1 hY2
    simp only [GHASH_blocks]
    have t1 := isBlock_take X1 hX1 (by omega)
    have t2 := isBlock_take X2 hX2 (by omega)
    have b1 := (xor_block_spec Y1 _ hY1 t1).1
    have b2 := (xor_block_spec Y2 _ hY2 t2).1
    rw [List.take_zipWith, List.drop_zipWith, xor_block_xor _ _ _ _ (by rw [t1.1, t2.1]),
      gf_mult_xor_left _ _ _ b1 b2 hH]
    exact ih _ _ _ _ (fun x hx => hX1 x (List.mem_of_mem_drop hx))
      (fun x hx => hX2 x (List.mem_of_mem_drop hx))
      (by rw [List.length_drop, List.length_drop, hl])
      (by rw [List.length_drop]; omega)
      (gf_mult_spec _ _ b1 hH).1 (gf_mult_spec _ _ b2 hH).1

theorem pad16_zipWith_xor (d1 d2 : List Nat) (hl : d1.length = d2.length) :
    pad16 (List.zipWith (fun p q => p ^^^ q) d1 d2) =
      List.zipWith (fun p q => p ^^^ q) (pad16 d1) (pad16 d2) := by
  unfold pad16
  rw [List.length_zipWith, ← hl, Nat.min_self, List.zipWith_append _ _ _ _ _ hl]
  congr 1
  simp

theorem ghash_xor (H Y1 Y2 d1 d2 : List Nat) (hH : IsBlock H) (hY1 : IsBlock Y1)
    (hY2 : IsBlock Y2) (hd1 : ∀ x ∈ d1, x < 256) (hd2 : ∀ x ∈ d2, x < 256)
    (hl : d1.length = d2.length) :
    ghash H (List.zipWith (fun p q => p ^^^ q) d1 d2) (xor_block Y1 Y2) =
      xor_block (ghash H d1 Y1) (ghash H d2 Y2) := by
  have hpl : (pad16 d1).length = (pad16 d2).length := by
    rw [length_pad16, length_pad16, hl]
  rw [ghash_eq, ghash_eq, ghash_eq, pad16_zipWith_xor d1 d2 hl, List.length_zipWith, ← hpl,
    Nat.min_self]
  exact GHASH_blocks_xor H hH _ _ _ _ _ (pad16_byte d1 hd1) (pad16_byte d2 hd2) hpl
    (by rw [length_pad16]; omega) hY1 hY2

theorem aes_gcm_prepare_j0_nil (H : List Nat) :
    aes_gcm_prepare_j0 [] H = List.replicate 16 0 := by
  have hb : WPA_PUT_BE64 (WPA_PUT_BE64 (List.replicate 16 0) 0 0) 8
      (([] : List Nat).length * 8 % 2 ^ 64) = List.replicate 16 0 := by decide
  have hx : xor_block (List.replicate 16 0) (List.replicate 16 0) = List.replicate 16 0 := by
    decide
  unfold aes_gcm_prepare_j0
  rw [if_neg (by decide)]
  dsimp only
  rw [hb, ghash_nil, ghash_start, ghash_eq]
  show gf_mult (xor_block (List.replicate 16 0) (List.replicate 16 0)) H = _
  rw [hx, gf_mult_zero_left]

theorem inc32_zero : inc32 (List.replicate 16 0) = List.replicate 12 0 ++ [0, 0, 0, 1] := by
  decide

theorem blockPoly_eq_toPoly (b : List Nat) (hb : IsBlock b) :
    blockPoly b = toPoly (blockToNat b) := by
  unfold blockPoly toPoly
  refine Finset.sum_congr rfl ?_
  intro k hk
  rw [Finset.mem_range] at hk
  have h := testBit_blockToNat b hb.2 (k / 8) (7 - k % 8) (by rw [hb.1]; omega) (by omega)
  have e : 8 * (b.length - 1 - k / 8) + (7 - k % 8) = 127 - k := by rw [hb.1]; omega
  rw [e] at h
  rw [h]

theorem degree_toPoly_lt (n : Nat) : (toPoly n).degree < gcmPoly.degree := by
  rw [Polynomial.degree_eq_natDegree gcmPoly_monic.ne_zero, gcmPoly_natDegree,
    Polynomial.degree_lt_iff_coeff_zero]
  intro m hm
  rw [coeff_toPoly, if_neg]
  intro hcon
  have := hcon.1
  have hm' : 128 ≤ m := by exact_mod_cast hm
  omega

/-- On integers below 2^128, `gfMulNat` is the product of the polynomials
reduced modulo `gcmPoly`. -/
theorem toPoly_gfMulNat (x y : Nat) (hy : y < 2 ^ 128) :
    toPoly (gfMulNat x y) = (toPoly x * toPoly y) %ₘ gcmPoly := by
  have h := toField_gfMulNat x y hy
  rw [toField_eq_mk, toField_eq_mk, toField_eq_mk, ← map_mul, AdjoinRoot.mk_eq_mk] at h
  rw [← Polynomial.modByMonic_eq_of_dvd_sub gcmPoly_monic h]
  exact ((Polynomial.modByMonic_eq_self_iff gcmPoly_monic).mpr (degree_toPoly_lt _)).symm

theorem toPoly_injective (a b : Nat) (ha : a < 2 ^ 128) (hb : b < 2 ^ 128)
    (h : toPoly a = toPoly b) : a = b :=
  toField_injective a b ha hb (by rw [toField_eq_mk, toField_eq_mk, h])

/-! ## The claims -/

/-- C1: round trip.  For every block cipher, key, nonce of any length,
plaintext and associated data (each possibly empty), and caller buffers large
enough for the output, if `(C, T)` are the ciphertext and the 16-byte tag that
`aes_gcm_ae` writes, then `aes_gcm_ad` on `(C, T)` returns 0 and the plaintext
it writes is the original plaintext, byte for byte. -/
theorem aes_gcm_round_trip (A : BlockCipher) (ctx ctx2 : A.AES_ctx) (key : List Nat)
    (key_len : Nat) (iv plain aad crypt tag buf : List Nat)
    (hc : plain.length ≤ crypt.length) (ht : 16 ≤ tag.length)
    (hb : plain.length ≤ buf.length) :
    (aes_gcm_ad A ctx2 key key_len iv
        ((aes_gcm_ae A ctx key key_len iv plain aad crypt tag).data.take plain.length) aad
        ((aes_gcm_ae A ctx key key_len iv plain aad crypt tag).tag.take 16) buf).ret = 0 ∧
      (aes_gcm_ad A ctx2 key key_len iv
        ((aes_gcm_ae A ctx key key_len iv plain aad crypt tag).data.take plain.length) aad
        ((aes_gcm_ae A ctx key key_len iv plain aad crypt tag).tag.take 16) buf).data.take
          plain.length = plain := by
  rw [aes_gcm_ae_eq A ctx key key_len iv plain aad crypt tag hc ht]
  dsimp only
  rw [List.take_left' (length_GCTR _ _ _ _), List.take_left' (length_xor_block _ _)]
  constructor
  · rw [aes_gcm_ad_ret _ _ _ _ _ _ _ _ _ (by rw [length_xor_block])]
    rw [List.take_of_length_le (by rw [length_xor_block])]
    rw [expectedTag_ctx A ctx2 ctx, if_pos]
    rfl
  · rw [aes_gcm_ad_data _ _ _ _ _ _ _ _ _ (by rw [length_GCTR]; exact hb)]
    rw [hashSubkey_ctx A ctx2 ctx]
    rw [GCTR_ctx_congr A (sessionCtx A ctx2 key) (sessionCtx A ctx key)
      (fun b => A.init_key ctx2 ctx key b)]
    rw [GCTR_GCTR, length_GCTR, List.take_left' rfl]

/-- C1 at the example of `main` (a 16-byte nonce, "Hello, World!", no
associated data) under `toyCipher`. -/
theorem aes_gcm_round_trip_witness :
    exMsg.length ≤ exBuf.length ∧ 16 ≤ exBuf.length ∧
    (aes_gcm_ad toyCipher exCtx exKey 32 exIv
        ((aes_gcm_ae toyCipher exCtx exKey 32 exIv exMsg [] exBuf exBuf).data.take
          exMsg.length) []
        ((aes_gcm_ae toyCipher exCtx exKey 32 exIv exMsg [] exBuf exBuf).tag.take 16)
        exBuf).ret = 0 ∧
      (aes_gcm_ad toyCipher exCtx exKey 32 exIv
        ((aes_gcm_ae toyCipher exCtx exKey 32 exIv exMsg [] exBuf exBuf).data.take
          exMsg.length) []
        ((aes_gcm_ae toyCipher exCtx exKey 32 exIv exMsg [] exBuf exBuf).tag.take 16)
        exBuf).data.take exMsg.length = exMsg :=
  ⟨by decide, by decide,
    aes_gcm_round_trip toyCipher exCtx exCtx exKey 32 exIv exMsg [] exBuf exBuf exBuf
      (by decide) (by decide) (by decide)⟩

/-- C2, as stated, fails: under `identityCipher`, on the ciphertext
`weakCrypt` with the tag `wrongTag`, which differs from the computed tag
`weakTag`, `aes_gcm_ad` returns -1 but has overwritten the first 13 bytes of
the caller's plaintext buffer (16 bytes `0xaa` before the call) with the
decrypted message. -/
theorem aes_gcm_ad_mismatch_overwrites_plain :
    expectedTag identityCipher () exKey exIv12 exAad weakCrypt = weakTag ∧
      wrongTag ≠ weakTag ∧
      (aes_gcm_ad identityCipher () exKey 32 exIv12 weakCrypt exAad wrongTag exBuf).ret = -1 ∧
      (aes_gcm_ad identityCipher () exKey 32 exIv12 weakCrypt exAad wrongTag exBuf).data =
        exMsg ++ [0xaa, 0xaa, 0xaa] ∧
      (aes_gcm_ad identityCipher () exKey 32 exIv12 weakCrypt exAad wrongTag exBuf).data ≠
        exBuf := by
  refine ⟨weak_expectedTag, by decide, ?_, weak_ad_data wrongTag, ?_⟩
  · rw [aes_gcm_ad_ret _ _ _ _ _ _ _ _ _ (by decide), weak_expectedTag, if_neg]
    decide
  · rw [weak_ad_data]; decide

/-- C2, amended: for every input to `aes_gcm_ad` whose supplied 16-byte tag
differs from the tag computed over the received ciphertext and associated
data, the call returns -1; the first `crypt_len` bytes of the caller's
plaintext buffer then hold the decryption `GCTR_K(inc32(J0), C)` of the
received ciphertext, and only the bytes after them keep their contents. -/
theorem aes_gcm_ad_mismatch (A : BlockCipher) (ctx : A.AES_ctx) (key : List Nat)
    (key_len : Nat) (iv crypt aad tag plain : List Nat)
    (ht : tag.length = 16) (hp : crypt.length ≤ plain.length)
    (hne : tag ≠ expectedTag A ctx key iv aad crypt) :
    (aes_gcm_ad A ctx key key_len iv crypt aad tag plain).ret = -1 ∧
      (aes_gcm_ad A ctx key key_len iv crypt aad tag plain).data.take crypt.length =
        GCTR A (sessionCtx A ctx key)
          (inc32 (aes_gcm_prepare_j0 iv (hashSubkey A ctx key))) crypt ∧
      (aes_gcm_ad A ctx key key_len iv crypt aad tag plain).data.drop crypt.length =
        plain.drop crypt.length := by
  refine ⟨?_, ?_, ?_⟩
  · rw [aes_gcm_ad_ret _ _ _ _ _ _ _ _ _ (by omega), List.take_of_length_le (by omega),
      if_neg hne]
  · rw [aes_gcm_ad_data _ _ _ _ _ _ _ _ _ hp, List.take_left' (length_GCTR _ _ _ _)]
  · rw [aes_gcm_ad_data _ _ _ _ _ _ _ _ _ hp, List.drop_left' (length_GCTR _ _ _ _)]

/-- C2, amended, under `identityCipher` on the ciphertext `weakCrypt` with the
tag `wrongTag`. -/
theorem aes_gcm_ad_mismatch_witness :
    wrongTag.length = 16 ∧ weakCrypt.length ≤ exBuf.length ∧
      wrongTag ≠ expectedTag identityCipher () exKey exIv12 exAad weakCrypt ∧
      ((aes_gcm_ad identityCipher () exKey 32 exIv12 weakCrypt exAad wrongTag exBuf).ret = -1 ∧
      (aes_gcm_ad identityCipher () exKey 32 exIv12 weakCrypt exAad wrongTag exBuf).data.take
          weakCrypt.length =
        GCTR identityCipher (sessionCtx identityCipher () exKey)
          (inc32 (aes_gcm_prepare_j0 exIv12 (hashSubkey identityCipher () exKey))) weakCrypt ∧
      (aes_gcm_ad identityCipher () exKey 32 exIv12 weakCrypt exAad wrongTag exBuf).data.drop
          weakCrypt.length =
        exBuf.drop weakCrypt.length) :=
  have hne : wrongTag ≠ expectedTag identityCipher () exKey exIv12 exAad weakCrypt := by
    rw [weak_expectedTag]; decide
  ⟨by decide, by decide, hne,
    aes_gcm_ad_mismatch identityCipher () exKey 32 exIv12 weakCrypt exAad wrongTag exBuf
      (by decide) (by decide) hne⟩

/-- C3: `aes_gcm_ad` fails if and only if the tags differ.  For every key,
nonce, ciphertext, associated data and supplied 16-byte tag, it returns -1
exactly when the supplied tag is not `T' = E_K(J0) XOR S`, with `J0` and `S`
computed from the received nonce, ciphertext and associated data by the
functions that `aes_gcm_ae` uses, and returns 0 otherwise; there is no other
result. -/
theorem aes_gcm_ad_fails_iff (A : BlockCipher) (ctx : A.AES_ctx) (key : List Nat)
    (key_len : Nat) (iv crypt aad tag plain : List Nat) (ht : tag.length = 16) :
    ((aes_gcm_ad A ctx key key_len iv crypt aad tag plain).ret = -1 ↔
        tag ≠ xor_block
          (A.AES_ECB_encrypt (A.AES_init_ctx ctx key)
            (aes_gcm_prepare_j0 iv
              (A.AES_ECB_encrypt (A.AES_init_ctx ctx key) (List.replicate 16 0))))
          (aes_gcm_ghash (A.AES_ECB_encrypt (A.AES_init_ctx ctx key) (List.replicate 16 0))
            aad crypt)) ∧
      ((aes_gcm_ad A ctx key key_len iv crypt aad tag plain).ret = 0 ↔
        tag = xor_block
          (A.AES_ECB_encrypt (A.AES_init_ctx ctx key)
            (aes_gcm_prepare_j0 iv
              (A.AES_ECB_encrypt (A.AES_init_ctx ctx key) (List.replicate 16 0))))
          (aes_gcm_ghash (A.AES_ECB_encrypt (A.AES_init_ctx ctx key) (List.replicate 16 0))
            aad crypt)) ∧
      ((aes_gcm_ad A ctx key key_len iv crypt aad tag plain).ret = 0 ∨
        (aes_gcm_ad A ctx key key_len iv crypt aad tag plain).ret = -1) := by
  rw [aes_gcm_ad_ret _ _ _ _ _ _ _ _ _ (by omega), List.take_of_length_le (by omega)]
  unfold expectedTag sessionCtx hashSubkey
  split <;> simp_all

/-- C3 under `identityCipher` on the ciphertext `weakCrypt` with the tag
`weakTag`. -/
theorem aes_gcm_ad_fails_iff_witness :
    weakTag.length = 16 ∧
    (((aes_gcm_ad identityCipher () exKey 32 exIv12 weakCrypt exAad weakTag exBuf).ret = -1 ↔
        weakTag ≠ xor_block
          (identityCipher.AES_ECB_encrypt (identityCipher.AES_init_ctx () exKey)
            (aes_gcm_prepare_j0 exIv12
              (identityCipher.AES_ECB_encrypt (identityCipher.AES_init_ctx () exKey)
                (List.replicate 16 0))))
          (aes_gcm_ghash
            (identityCipher.AES_ECB_encrypt (identityCipher.AES_init_ctx () exKey)
              (List.replicate 16 0)) exAad weakCrypt)) ∧
      ((aes_gcm_ad identityCipher () exKey 32 exIv12 weakCrypt exAad weakTag exBuf).ret = 0 ↔
        weakTag = xor_block
          (identityCipher.AES_ECB_encrypt (identityCipher.AES_init_ctx () exKey)
            (aes_gcm_prepare_j0 exIv12
              (identityCipher.AES_ECB_encrypt (identityCipher.AES_init_ctx () exKey)
                (List.replicate 16 0))))
          (aes_gcm_ghash
            (identityCipher.AES_ECB_encrypt (identityCipher.AES_init_ctx () exKey)
              (List.replicate 16 0)) exAad weakCrypt)) ∧
      ((aes_gcm_ad identityCipher () exKey 32 exIv12 weakCrypt exAad weakTag exBuf).ret = 0 ∨
        (aes_gcm_ad identityCipher () exKey 32 exIv12 weakCrypt exAad weakTag exBuf).ret =
          -1)) :=
  ⟨by decide, aes_gcm_ad_fails_iff identityCipher () exKey 32 exIv12 weakCrypt exAad weakTag
    exBuf (by decide)⟩

/-- C4: tag tamper detection.  For every block cipher, key, nonce, plaintext
and associated data, with `(C, T)` written by `aes_gcm_ae`, `aes_gcm_ad` on
`(C, T2)` returns 0 for a 16-byte `T2` exactly when `T2 = T`, and returns -1
for every 16-byte `T2` that differs from `T`, in particular for `T` with any
single bit flipped. -/
theorem aes_gcm_ad_tag_tamper (A : BlockCipher) (ctx ctx2 : A.AES_ctx) (key : List Nat)
    (key_len : Nat) (iv plain aad crypt tag buf : List Nat)
    (hc : plain.length ≤ crypt.length) (ht : 16 ≤ tag.length) :
    (∀ T2 : List Nat, T2.length = 16 →
      ((aes_gcm_ad A ctx2 key key_len iv
          ((aes_gcm_ae A ctx key key_len iv plain aad crypt tag).data.take plain.length) aad
          T2 buf).ret = 0 ↔
        T2 = (aes_gcm_ae A ctx key key_len iv plain aad crypt tag).tag.take 16) ∧
      (T2 ≠ (aes_gcm_ae A ctx key key_len iv plain aad crypt tag).tag.take 16 →
        (aes_gcm_ad A ctx2 key key_len iv
          ((aes_gcm_ae A ctx key key_len iv plain aad crypt tag).data.take plain.length) aad
          T2 buf).ret = -1)) ∧
    (∀ i k : Nat, i < 16 → k < 8 →
      (aes_gcm_ad A ctx2 key key_len iv
        ((aes_gcm_ae A ctx key key_len iv plain aad crypt tag).data.take plain.length) aad
        (flipBit ((aes_gcm_ae A ctx key key_len iv plain aad crypt tag).tag.take 16) i k)
        buf).ret = -1) := by
  rw [aes_gcm_ae_eq A ctx key key_len iv plain aad crypt tag hc ht]
  dsimp only
  rw [List.take_left' (length_GCTR _ _ _ _), List.take_left' (length_xor_block _ _)]
  have key1 : ∀ T2 : List Nat, T2.length = 16 →
      (aes_gcm_ad A ctx2 key key_len iv
        (GCTR A (sessionCtx A ctx key)
          (inc32 (aes_gcm_prepare_j0 iv (hashSubkey A ctx key))) plain) aad T2 buf).ret =
      if T2 = expectedTag A ctx key iv aad (GCTR A (sessionCtx A ctx key)
          (inc32 (aes_gcm_prepare_j0 iv (hashSubkey A ctx key))) plain) then 0 else -1 := by
    intro T2 h2
    rw [aes_gcm_ad_ret _ _ _ _ _ _ _ _ _ (by omega), List.take_of_length_le (by omega),
      expectedTag_ctx A ctx2 ctx]
  constructor
  · intro T2 h2
    rw [key1 T2 h2]
    unfold expectedTag
    constructor
    · split <;> simp_all
    · intro hne
      rw [if_neg hne]
  · intro i k hi _
    rw [key1 _ (by rw [length_flipBit, length_xor_block])]
    rw [if_neg]
    exact flipBit_ne _ _ _ (by rw [length_xor_block]; exact hi)

/-- C4 at the example of `main` under `toyCipher`. -/
theorem aes_gcm_ad_tag_tamper_witness :
    exMsg.length ≤ exBuf.length ∧ 16 ≤ exBuf.length ∧
    ((∀ T2 : List Nat, T2.length = 16 →
      ((aes_gcm_ad toyCipher exCtx exKey 32 exIv
          ((aes_gcm_ae toyCipher exCtx exKey 32 exIv exMsg [] exBuf exBuf).data.take
            exMsg.length) [] T2 exBuf).ret = 0 ↔
        T2 = (aes_gcm_ae toyCipher exCtx exKey 32 exIv exMsg [] exBuf exBuf).tag.take 16) ∧
      (T2 ≠ (aes_gcm_ae toyCipher exCtx exKey 32 exIv exMsg [] exBuf exBuf).tag.take 16 →
        (aes_gcm_ad toyCipher exCtx exKey 32 exIv
          ((aes_gcm_ae toyCipher exCtx exKey 32 exIv exMsg [] exBuf exBuf).data.take
            exMsg.length) [] T2 exBuf).ret = -1)) ∧
    (∀ i k : Nat, i < 16 → k < 8 →
      (aes_gcm_ad toyCipher exCtx exKey 32 exIv
        ((aes_gcm_ae toyCipher exCtx exKey 32 exIv exMsg [] exBuf exBuf).data.take
          exMsg.length) []
        (flipBit ((aes_gcm_ae toyCipher exCtx exKey 32 exIv exMsg [] exBuf exBuf).tag.take 16)
          i k)
        exBuf).ret = -1)) :=
  ⟨by decide, by decide,
    aes_gcm_ad_tag_tamper toyCipher exCtx exCtx exKey 32 exIv exMsg [] exBuf exBuf exBuf
      (by decide) (by decide)⟩

/-- C5, as stated, fails: under `identityCipher`, whose hash subkey is
`0^128`, `aes_gcm_ae` on the message of `main` with a 96-bit nonce and the
associated data `exAad` writes `(weakCrypt, weakTag)`, and `aes_gcm_ad`
returns 0 on the ciphertext with one bit flipped, the same associated data and
the same tag. -/
theorem aes_gcm_ad_accepts_flipped_crypt :
    identityCipher.AES_ECB_encrypt (identityCipher.AES_init_ctx () exKey)
        (List.replicate 16 0) = List.replicate 16 0 ∧
      (aes_gcm_ae identityCipher () exKey 32 exIv12 exMsg exAad exBuf exBuf).data.take 13 =
        weakCrypt ∧
      (aes_gcm_ae identityCipher () exKey 32 exIv12 exMsg exAad exBuf exBuf).tag.take 16 =
        weakTag ∧
      flipBit weakCrypt 0 0 = weakCryptFlipped ∧
      weakCryptFlipped ≠ weakCrypt ∧
      (aes_gcm_ad identityCipher () exKey 32 exIv12 (flipBit weakCrypt 0 0) exAad weakTag
        exBuf).ret = 0 := by
  have hf : flipBit weakCrypt 0 0 = weakCryptFlipped := by decide
  rw [hf]
  exact ⟨by decide, weak_ae_data, weak_ae_tag, rfl, by decide, weak_ad_ret⟩

/-- C5, amended: ciphertext and associated-data tamper detection for a
nonzero hash subkey.  For every block cipher, key, nonce, plaintext and
associated data (byte strings) for which the hash subkey `H = E_K(0^128)` is
not the zero block, with `(C, T)` written by `aes_gcm_ae`, `aes_gcm_ad`
returns -1 on `C` with any single bit flipped (same associated data and tag),
and on the associated data with any single bit flipped (same `C` and tag). -/
theorem aes_gcm_ad_data_tamper (A : BlockCipher) (ctx ctx2 : A.AES_ctx) (key : List Nat)
    (key_len : Nat) (iv plain aad crypt tag buf : List Nat)
    (hc : plain.length ≤ crypt.length) (ht : 16 ≤ tag.length)
    (hP : ∀ x ∈ plain, x < 256) (hA : ∀ x ∈ aad, x < 256)
    (hH : A.AES_ECB_encrypt (A.AES_init_ctx ctx key) (List.replicate 16 0) ≠
      List.replicate 16 0) :
    (∀ i k : Nat, i < plain.length → k < 8 →
      (aes_gcm_ad A ctx2 key key_len iv
        (flipBit ((aes_gcm_ae A ctx key key_len iv plain aad crypt tag).data.take plain.length)
          i k)
        aad ((aes_gcm_ae A ctx key key_len iv plain aad crypt tag).tag.take 16) buf).ret = -1) ∧
    (∀ i k : Nat, i < aad.length → k < 8 →
      (aes_gcm_ad A ctx2 key key_len iv
        ((aes_gcm_ae A ctx key key_len iv plain aad crypt tag).data.take plain.length)
        (flipBit aad i k)
        ((aes_gcm_ae A ctx key key_len iv plain aad crypt tag).tag.take 16) buf).ret = -1) := by
  rw [aes_gcm_ae_eq A ctx key key_len iv plain aad crypt tag hc ht]
  dsimp only
  rw [List.take_left' (length_GCTR _ _ _ _), List.take_left' (length_xor_block _ _)]
  have hCb := GCTR_byte A (sessionCtx A ctx key)
    (inc32 (aes_gcm_prepare_j0 iv (hashSubkey A ctx key))) plain hP
  have hCl := length_GCTR A (sessionCtx A ctx key)
    (inc32 (aes_gcm_prepare_j0 iv (hashSubkey A ctx key))) plain
  generalize GCTR A (sessionCtx A ctx key)
    (inc32 (aes_gcm_prepare_j0 iv (hashSubkey A ctx key))) plain = C at hCb hCl ⊢
  have hT : ∀ aad2 C2 : List Nat, (∀ x ∈ aad2, x < 256) → (∀ x ∈ C2, x < 256) →
      aes_gcm_ghash (hashSubkey A ctx key) aad C ≠
        aes_gcm_ghash (hashSubkey A ctx key) aad2 C2 →
      (aes_gcm_ad A ctx2 key key_len iv C2 aad2
        (xor_block
          (A.AES_ECB_encrypt (sessionCtx A ctx key)
            (aes_gcm_prepare_j0 iv (hashSubkey A ctx key)))
          (aes_gcm_ghash (hashSubkey A ctx key) aad C)) buf).ret = -1 := by
    intro aad2 C2 ha2 hc2 hne
    rw [aes_gcm_ad_ret _ _ _ _ _ _ _ _ _ (by rw [length_xor_block]),
      List.take_of_length_le (by rw [length_xor_block]), expectedTag_ctx A ctx2 ctx, if_neg]
    exact expectedTag_ne_of_ghash_ne A ctx key iv aad C aad2 C2 hA hCb ha2 hc2 hne
  have hHb : IsBlock (hashSubkey A ctx key) := isBlock_hashSubkey A ctx key
  constructor
  · intro i k hi hk
    have hi' : i < C.length := by rw [hCl]; exact hi
    have hbyte : C.getD i 0 < 256 := by
      rw [List.getD_eq_getElem _ _ hi']
      exact hCb _ (List.getElem_mem _)
    obtain ⟨f1, f2⟩ := flip_byte (C.getD i 0) k hbyte hk
    apply hT aad (flipBit C i k) hA (set_byte C i _ hCb f1)
    exact aes_gcm_ghash_set_crypt_ne _ aad C hHb hH hA hCb i _ hi' f1 f2
  · intro i k hi hk
    have hbyte : aad.getD i 0 < 256 := by
      rw [List.getD_eq_getElem _ _ hi]
      exact hA _ (List.getElem_mem _)
    obtain ⟨f1, f2⟩ := flip_byte (aad.getD i 0) k hbyte hk
    apply hT (flipBit aad i k) C (set_byte aad i _ hA f1) hCb
    exact aes_gcm_ghash_set_aad_ne _ aad C hHb hH hA hCb i _ hi f1 f2

/-- C5, amended, at the example of `main` under `toyCipher`, with the 13
bytes of `exMsg` as associated data too. -/
theorem aes_gcm_ad_data_tamper_witness :
    exMsg.length ≤ exBuf.length ∧ 16 ≤ exBuf.length ∧ (∀ x ∈ exMsg, x < 256) ∧
    toyCipher.AES_ECB_encrypt (toyCipher.AES_init_ctx exCtx exKey) (List.replicate 16 0) ≠
      List.replicate 16 0 ∧
    ((∀ i k : Nat, i < exMsg.length → k < 8 →
      (aes_gcm_ad toyCipher exCtx exKey 32 exIv
        (flipBit ((aes_gcm_ae toyCipher exCtx exKey 32 exIv exMsg exMsg exBuf exBuf).data.take
          exMsg.length) i k)
        exMsg ((aes_gcm_ae toyCipher exCtx exKey 32 exIv exMsg exMsg exBuf exBuf).tag.take 16)
        exBuf).ret = -1) ∧
    (∀ i k : Nat, i < exMsg.length → k < 8 →
      (aes_gcm_ad toyCipher exCtx exKey 32 exIv
        ((aes_gcm_ae toyCipher exCtx exKey 32 exIv exMsg exMsg exBuf exBuf).data.take
          exMsg.length)
        (flipBit exMsg i k)
        ((aes_gcm_ae toyCipher exCtx exKey 32 exIv exMsg exMsg exBuf exBuf).tag.take 16)
        exBuf).ret = -1)) :=
  ⟨by decide, by decide, by decide, by decide,
    aes_gcm_ad_data_tamper toyCipher exCtx exCtx exKey 32 exIv exMsg exMsg exBuf exBuf exBuf
      (by decide) (by decide) (by decide) (by decide) (by decide)⟩

/-- C6: `aes_gcm_ae` is GCM-AE of the specification.  For every block cipher,
key, nonce, plaintext `P` and associated data `A`, and caller buffers large
enough for the output, with `H = E_K(0^128)` and `J0` derived from the nonce
and `H`, the call returns 0, writes the ciphertext `C = GCTR_K(inc32(J0), P)`
and writes the tag `E_K(J0) XOR S`, where `S` is GHASH under `H`, from the
zero block, of `A || pad || C || pad || [8 len A]_64 || [8 len C]_64`. -/
theorem aes_gcm_ae_reference (A : BlockCipher) (ctx : A.AES_ctx) (key : List Nat)
    (key_len : Nat) (iv plain aad crypt tag : List Nat)
    (hc : plain.length ≤ crypt.length) (ht : 16 ≤ tag.length)
    (hP : plain.length < 2 ^ 61) (hA : aad.length < 2 ^ 61) :
    (aes_gcm_ae A ctx key key_len iv plain aad crypt tag).ret = 0 ∧
    (aes_gcm_ae A ctx key key_len iv plain aad crypt tag).data.take plain.length =
      GCTR A (A.AES_init_ctx ctx key)
        (inc32 (aes_gcm_prepare_j0 iv
          (A.AES_ECB_encrypt (A.AES_init_ctx ctx key) (List.replicate 16 0)))) plain ∧
    (aes_gcm_ae A ctx key key_len iv plain aad crypt tag).tag.take 16 =
      xor_block
        (A.AES_ECB_encrypt (A.AES_init_ctx ctx key)
          (aes_gcm_prepare_j0 iv
            (A.AES_ECB_encrypt (A.AES_init_ctx ctx key) (List.replicate 16 0))))
        (GHASH (A.AES_ECB_encrypt (A.AES_init_ctx ctx key) (List.replicate 16 0))
          (pad16 aad ++
            pad16 ((aes_gcm_ae A ctx key key_len iv plain aad crypt tag).data.take
              plain.length) ++
            be64 (8 * aad.length) ++ be64 (8 * plain.length))) := by
  rw [aes_gcm_ae_eq A ctx key key_len iv plain aad crypt tag hc ht]
  dsimp only
  rw [List.take_left' (length_GCTR _ _ _ _), List.take_left' (length_xor_block _ _)]
  rw [aes_gcm_ghash_eq, length_GCTR]
  exact ⟨rfl, rfl, rfl⟩

/-- C6 at the example of `main` under `toyCipher`. -/
theorem aes_gcm_ae_reference_witness :
    exMsg.length ≤ exBuf.length ∧ 16 ≤ exBuf.length ∧ exMsg.length < 2 ^ 61 ∧
    ([] : List Nat).length < 2 ^ 61 ∧
    ((aes_gcm_ae toyCipher exCtx exKey 32 exIv exMsg [] exBuf exBuf).ret = 0 ∧
    (aes_gcm_ae toyCipher exCtx exKey 32 exIv exMsg [] exBuf exBuf).data.take exMsg.length =
      GCTR toyCipher (toyCipher.AES_init_ctx exCtx exKey)
        (inc32 (aes_gcm_prepare_j0 exIv
          (toyCipher.AES_ECB_encrypt (toyCipher.AES_init_ctx exCtx exKey)
            (List.replicate 16 0)))) exMsg ∧
    (aes_gcm_ae toyCipher exCtx exKey 32 exIv exMsg [] exBuf exBuf).tag.take 16 =
      xor_block
        (toyCipher.AES_ECB_encrypt (toyCipher.AES_init_ctx exCtx exKey)
          (aes_gcm_prepare_j0 exIv
            (toyCipher.AES_ECB_encrypt (toyCipher.AES_init_ctx exCtx exKey)
              (List.replicate 16 0))))
        (GHASH (toyCipher.AES_ECB_encrypt (toyCipher.AES_init_ctx exCtx exKey)
            (List.replicate 16 0))
          (pad16 [] ++
            pad16 ((aes_gcm_ae toyCipher exCtx exKey 32 exIv exMsg [] exBuf exBuf).data.take
              exMsg.length) ++
            be64 (8 * ([] : List Nat).length) ++ be64 (8 * exMsg.length)))) :=
  ⟨by decide, by decide, by decide, by decide,
    aes_gcm_ae_reference toyCipher exCtx exKey 32 exIv exMsg [] exBuf exBuf
      (by decide) (by decide) (by decide) (by decide)⟩

/-- C7: known-answer test, GCM test case 2.  For every block cipher whose key
schedule for the all-zero 16-byte key maps `0^128` to
`66e94bd4ef8a2c3b884cfa59ca342b2e`, `0^96 || 00000001` to
`58e2fccefa7e3061367f1d57a4e7455a` and `0^96 || 00000002` to
`0388dace60b6a392f328c2b971b2fe78`, `aes_gcm_ae` with a nonce of 12 zero
bytes, a plaintext of 16 zero bytes and no associated data returns 0 and
writes the ciphertext `0388dace60b6a392f328c2b971b2fe78` and the tag
`ab6e47d42cec13bdf53a67b21257bddf`; the GHASH value `S` inside is
`f38cbb1ad69223dcc3457ae5b6b0f885`. -/
theorem aes_gcm_ae_test_case_2 (A : BlockCipher) (ctx : A.AES_ctx) (crypt tag : List Nat)
    (hc : 16 ≤ crypt.length) (ht : 16 ≤ tag.length)
    (h0 : A.AES_ECB_encrypt (A.AES_init_ctx ctx (List.replicate 16 0)) (List.replicate 16 0) =
      [0x66, 0xe9, 0x4b, 0xd4, 0xef, 0x8a, 0x2c, 0x3b,
        0x88, 0x4c, 0xfa, 0x59, 0xca, 0x34, 0x2b, 0x2e])
    (h1 : A.AES_ECB_encrypt (A.AES_init_ctx ctx (List.replicate 16 0))
        [0, 0, 0, 0, 0, 0, 0, 0, 0, 0, 0, 0, 0, 0, 0, 1] =
      [0x58, 0xe2, 0xfc, 0xce, 0xfa, 0x7e, 0x30, 0x61,
        0x36, 0x7f, 0x1d, 0x57, 0xa4, 0xe7, 0x45, 0x5a])
    (h2 : A.AES_ECB_encrypt (A.AES_init_ctx ctx (List.replicate 16 0))
        [0, 0, 0, 0, 0, 0, 0, 0, 0, 0, 0, 0, 0, 0, 0, 2] =
      [0x03, 0x88, 0xda, 0xce, 0x60, 0xb6, 0xa3, 0x92,
        0xf3, 0x28, 0xc2, 0xb9, 0x71, 0xb2, 0xfe, 0x78]) :
    (aes_gcm_ae A ctx (List.replicate 16 0) 16 (List.replicate 12 0) (List.replicate 16 0) []
        crypt tag).ret = 0 ∧
      (aes_gcm_ae A ctx (List.replicate 16 0) 16 (List.replicate 12 0) (List.replicate 16 0) []
        crypt tag).data.take 16 =
        [0x03, 0x88, 0xda, 0xce, 0x60, 0xb6, 0xa3, 0x92,
          0xf3, 0x28, 0xc2, 0xb9, 0x71, 0xb2, 0xfe, 0x78] ∧
      (aes_gcm_ae A ctx (List.replicate 16 0) 16 (List.replicate 12 0) (List.replicate 16 0) []
        crypt tag).tag.take 16 =
        [0xab, 0x6e, 0x47, 0xd4, 0x2c, 0xec, 0x13, 0xbd,
          0xf5, 0x3a, 0x67, 0xb2, 0x12, 0x57, 0xbd, 0xdf] ∧
      aes_gcm_ghash
          (A.AES_ECB_encrypt (A.AES_init_ctx ctx (List.replicate 16 0)) (List.replicate 16 0)) []
          ((aes_gcm_ae A ctx (List.replicate 16 0) 16 (List.replicate 12 0)
            (List.replicate 16 0) [] crypt tag).data.take 16) =
        [0xf3, 0x8c, 0xbb, 0x1a, 0xd6, 0x92, 0x23, 0xdc,
          0xc3, 0x45, 0x7a, 0xe5, 0xb6, 0xb0, 0xf8, 0x85] := by
  have hJ : ∀ H : List Nat, aes_gcm_prepare_j0 (List.replicate 12 0) H =
      [0, 0, 0, 0, 0, 0, 0, 0, 0, 0, 0, 0, 0, 0, 0, 1] := by
    intro H
    rw [aes_gcm_prepare_j0_96 _ H (by simp)]
    rfl
  have hinc : inc32 [0, 0, 0, 0, 0, 0, 0, 0, 0, 0, 0, 0, 0, 0, 0, 1] =
      [0, 0, 0, 0, 0, 0, 0, 0, 0, 0, 0, 0, 0, 0, 0, 2] := by decide
  have hC : GCTR A (A.AES_init_ctx ctx (List.replicate 16 0))
      [0, 0, 0, 0, 0, 0, 0, 0, 0, 0, 0, 0, 0, 0, 0, 2] (List.replicate 16 0) = katC := by
    rw [GCTR_short _ _ _ _ (by decide) (by decide), h2]
    decide
  rw [aes_gcm_ae_eq A ctx _ 16 _ _ [] crypt tag (by simpa using hc) ht]
  dsimp only
  unfold hashSubkey sessionCtx
  have hl : (GCTR A (A.AES_init_ctx ctx (List.replicate 16 0))
      [0, 0, 0, 0, 0, 0, 0, 0, 0, 0, 0, 0, 0, 0, 0, 2] (List.replicate 16 0)).length = 16 := by
    rw [length_GCTR]; simp
  rw [hJ, hinc, h1, List.take_left' hl, List.take_left' (length_xor_block _ _), hC, h0]
  have hS := kat_ghash
  unfold katH katC katS at hS
  unfold katC
  rw [hS]
  exact ⟨rfl, rfl, by decide, rfl⟩

/-- C7 for the table cipher `katCipher`, with output buffers of 16 bytes. -/
theorem aes_gcm_ae_test_case_2_witness :
    16 ≤ exBuf.length ∧
    katCipher.AES_ECB_encrypt (katCipher.AES_init_ctx () (List.replicate 16 0))
        (List.replicate 16 0) =
      [0x66, 0xe9, 0x4b, 0xd4, 0xef, 0x8a, 0x2c, 0x3b,
        0x88, 0x4c, 0xfa, 0x59, 0xca, 0x34, 0x2b, 0x2e] ∧
    katCipher.AES_ECB_encrypt (katCipher.AES_init_ctx () (List.replicate 16 0))
        [0, 0, 0, 0, 0, 0, 0, 0, 0, 0, 0, 0, 0, 0, 0, 1] =
      [0x58, 0xe2, 0xfc, 0xce, 0xfa, 0x7e, 0x30, 0x61,
        0x36, 0x7f, 0x1d, 0x57, 0xa4, 0xe7, 0x45, 0x5a] ∧
    katCipher.AES_ECB_encrypt (katCipher.AES_init_ctx () (List.replicate 16 0))
        [0, 0, 0, 0, 0, 0, 0, 0, 0, 0, 0, 0, 0, 0, 0, 2] =
      [0x03, 0x88, 0xda, 0xce, 0x60, 0xb6, 0xa3, 0x92,
        0xf3, 0x28, 0xc2, 0xb9, 0x71, 0xb2, 0xfe, 0x78] ∧
    ((aes_gcm_ae katCipher () (List.replicate 16 0) 16 (List.replicate 12 0)
        (List.replicate 16 0) [] exBuf exBuf).ret = 0 ∧
      (aes_gcm_ae katCipher () (List.replicate 16 0) 16 (List.replicate 12 0)
        (List.replicate 16 0) [] exBuf exBuf).data.take 16 =
        [0x03, 0x88, 0xda, 0xce, 0x60, 0xb6, 0xa3, 0x92,
          0xf3, 0x28, 0xc2, 0xb9, 0x71, 0xb2, 0xfe, 0x78] ∧
      (aes_gcm_ae katCipher () (List.replicate 16 0) 16 (List.replicate 12 0)
        (List.replicate 16 0) [] exBuf exBuf).tag.take 16 =
        [0xab, 0x6e, 0x47, 0xd4, 0x2c, 0xec, 0x13, 0xbd,
          0xf5, 0x3a, 0x67, 0xb2, 0x12, 0x57, 0xbd, 0xdf] ∧
      aes_gcm_ghash
          (katCipher.AES_ECB_encrypt (katCipher.AES_init_ctx () (List.replicate 16 0))
            (List.replicate 16 0)) []
          ((aes_gcm_ae katCipher () (List.replicate 16 0) 16 (List.replicate 12 0)
            (List.replicate 16 0) [] exBuf exBuf).data.take 16) =
        [0xf3, 0x8c, 0xbb, 0x1a, 0xd6, 0x92, 0x23, 0xdc,
          0xc3, 0x45, 0x7a, 0xe5, 0xb6, 0xb0, 0xf8, 0x85]) :=
  ⟨by decide, by decide, by decide, by decide,
    aes_gcm_ae_test_case_2 katCipher () exBuf exBuf (by decide) (by decide)
      (by decide) (by decide) (by decide)⟩

/-- C8: GMAC is GCM-AE with an empty plaintext.  For every key, nonce and
associated data, `aes_gmac` writes the tag that `aes_gcm_ae` writes for a
plaintext of length 0, both return 0, no ciphertext byte is written, and the
tag is `E_K(J0) XOR GHASH_H(A || pad || [8 len A]_64 || 0^64)`. -/
theorem aes_gmac_eq_ae_empty (A : BlockCipher) (ctx : A.AES_ctx) (key : List Nat)
    (key_len : Nat) (iv aad crypt tag : List Nat) (ht : 16 ≤ tag.length) :
    (aes_gmac A ctx key key_len iv aad tag).tag =
        (aes_gcm_ae A ctx key key_len iv [] aad crypt tag).tag ∧
      (aes_gmac A ctx key key_len iv aad tag).ret = 0 ∧
      (aes_gcm_ae A ctx key key_len iv [] aad crypt tag).ret = 0 ∧
      (aes_gmac A ctx key key_len iv aad tag).data = [] ∧
      (aes_gcm_ae A ctx key key_len iv [] aad crypt tag).data = crypt ∧
      (aes_gmac A ctx key key_len iv aad tag).tag.take 16 =
        xor_block
          (A.AES_ECB_encrypt (A.AES_init_ctx ctx key)
            (aes_gcm_prepare_j0 iv
              (A.AES_ECB_encrypt (A.AES_init_ctx ctx key) (List.replicate 16 0))))
          (GHASH (A.AES_ECB_encrypt (A.AES_init_ctx ctx key) (List.replicate 16 0))
            (pad16 aad ++ be64 (8 * aad.length) ++ List.replicate 8 0)) ∧
      (aes_gmac A ctx key key_len iv aad tag).tag.drop 16 = tag.drop 16 := by
  unfold aes_gmac
  rw [aes_gcm_ae_eq A ctx key key_len iv [] aad crypt tag (by simp) ht,
    aes_gcm_ae_eq A ctx key key_len iv [] aad [] tag (by simp) ht]
  dsimp only
  rw [GCTR_nil, List.take_left' (length_xor_block _ _), List.drop_left' (length_xor_block _ _),
    aes_gcm_ghash_eq]
  have hp : pad16 ([] : List Nat) = [] := by decide
  have hz : be64 (8 * ([] : List Nat).length) = List.replicate 8 0 := by decide
  rw [hp, hz, List.append_nil]
  exact ⟨rfl, rfl, rfl, rfl, rfl, rfl, rfl⟩

/-- C8 at the key and nonce of the example of `main` under `toyCipher`, with
the 13 bytes of `exMsg` as associated data. -/
theorem aes_gmac_eq_ae_empty_witness :
    16 ≤ exBuf.length ∧
    ((aes_gmac toyCipher exCtx exKey 32 exIv exMsg exBuf).tag =
        (aes_gcm_ae toyCipher exCtx exKey 32 exIv [] exMsg exBuf exBuf).tag ∧
      (aes_gmac toyCipher exCtx exKey 32 exIv exMsg exBuf).ret = 0 ∧
      (aes_gcm_ae toyCipher exCtx exKey 32 exIv [] exMsg exBuf exBuf).ret = 0 ∧
      (aes_gmac toyCipher exCtx exKey 32 exIv exMsg exBuf).data = [] ∧
      (aes_gcm_ae toyCipher exCtx exKey 32 exIv [] exMsg exBuf exBuf).data = exBuf ∧
      (aes_gmac toyCipher exCtx exKey 32 exIv exMsg exBuf).tag.take 16 =
        xor_block
          (toyCipher.AES_ECB_encrypt (toyCipher.AES_init_ctx exCtx exKey)
            (aes_gcm_prepare_j0 exIv
              (toyCipher.AES_ECB_encrypt (toyCipher.AES_init_ctx exCtx exKey)
                (List.replicate 16 0))))
          (GHASH (toyCipher.AES_ECB_encrypt (toyCipher.AES_init_ctx exCtx exKey)
              (List.replicate 16 0))
            (pad16 exMsg ++ be64 (8 * exMsg.length) ++ List.replicate 8 0)) ∧
      (aes_gmac toyCipher exCtx exKey 32 exIv exMsg exBuf).tag.drop 16 = exBuf.drop 16) :=
  ⟨by decide, aes_gmac_eq_ae_empty toyCipher exCtx exKey 32 exIv exMsg exBuf exBuf (by decide)⟩

/-- C9: derivation of `J0`.  For every hash subkey `H` and nonce, when the
nonce has 12 bytes `aes_gcm_prepare_j0` yields the nonce followed by the bytes
`00 00 00 01`, whatever `H` is; for every other length, 0 and 16 included, it
yields GHASH under `H`, from the zero block, of
`iv || pad || 0^64 || [8 len iv]_64`. -/
theorem aes_gcm_prepare_j0_eq (iv H : List Nat) :
    aes_gcm_prepare_j0 iv H =
      if iv.length = 12 then iv ++ [0x00, 0x00, 0x00, 0x01]
      else GHASH H (pad16 iv ++ List.replicate 8 0 ++ be64 (8 * iv.length)) := by
  by_cases h : iv.length = 12
  · rw [if_pos h]
    exact aes_gcm_prepare_j0_96 iv H h
  · unfold aes_gcm_prepare_j0
    rw [if_neg h, if_neg h]
    dsimp only
    rw [len_buf_eq, be64_mod, Nat.mul_comm iv.length 8]
    have hz : be64 0 = List.replicate 8 0 := by decide
    rw [hz]
    have hL : (List.replicate 8 0 ++ be64 (8 * iv.length)).length = 16 * 1 := by
      simp [length_be64]
    rw [ghash_eq H (List.replicate 8 0 ++ be64 (8 * iv.length)),
      pad16_of_length _ 1 hL, hL, Nat.mul_div_cancel_left _ (by norm_num : 0 < 16)]
    rw [ghash_eq H iv, length_pad16_div]
    unfold GHASH ghash_start
    have hlen : (pad16 iv ++ List.replicate 8 0 ++ be64 (8 * iv.length)).length / 16 =
        (iv.length + 15) / 16 + 1 := by
      simp only [List.length_append, length_pad16, length_be64, List.length_replicate]
      omega
    rw [hlen, List.append_assoc,
      GHASH_blocks_append H _ _ (pad16 iv) _ _ (length_pad16 iv)]

/-- C10: no state is kept between calls.  With the process-wide cipher
context `ctx` as explicit state, for every two values that `ctx` holds before
the call, `aes_gcm_ae`, `aes_gcm_ad` and `aes_gmac` on the same arguments
return the same value and leave the same bytes in the data buffer
(ciphertext or plaintext) and in the tag buffer: each call sets up the key
schedule from its key argument before the first encryption. -/
theorem gcm_calls_ignore_prior_ctx (A : BlockCipher) (ctx1 ctx2 : A.AES_ctx) (key : List Nat)
    (key_len : Nat) (iv inp aad out tag : List Nat) :
    ((aes_gcm_ae A ctx1 key key_len iv inp aad out tag).ret =
        (aes_gcm_ae A ctx2 key key_len iv inp aad out tag).ret ∧
      (aes_gcm_ae A ctx1 key key_len iv inp aad out tag).data =
        (aes_gcm_ae A ctx2 key key_len iv inp aad out tag).data ∧
      (aes_gcm_ae A ctx1 key key_len iv inp aad out tag).tag =
        (aes_gcm_ae A ctx2 key key_len iv inp aad out tag).tag) ∧
    ((aes_gcm_ad A ctx1 key key_len iv inp aad tag out).ret =
        (aes_gcm_ad A ctx2 key key_len iv inp aad tag out).ret ∧
      (aes_gcm_ad A ctx1 key key_len iv inp aad tag out).data =
        (aes_gcm_ad A ctx2 key key_len iv inp aad tag out).data ∧
      (aes_gcm_ad A ctx1 key key_len iv inp aad tag out).tag =
        (aes_gcm_ad A ctx2 key key_len iv inp aad tag out).tag) ∧
    ((aes_gmac A ctx1 key key_len iv aad tag).ret =
        (aes_gmac A ctx2 key key_len iv aad tag).ret ∧
      (aes_gmac A ctx1 key key_len iv aad tag).data =
        (aes_gmac A ctx2 key key_len iv aad tag).data ∧
      (aes_gmac A ctx1 key key_len iv aad tag).tag =
        (aes_gmac A ctx2 key key_len iv aad tag).tag) :=
  ⟨aes_gcm_ae_ctx A ctx1 ctx2 key key_len iv inp aad out tag,
    aes_gcm_ad_ctx A ctx1 ctx2 key key_len iv inp aad tag out,
    aes_gcm_ae_ctx A ctx1 ctx2 key key_len iv [] aad [] tag⟩

/-- C11: `gf_mult` is multiplication in GF(2^128).  Reading a block as the
polynomial over GF(2) in which the most significant bit of byte 0 is the
coefficient of `x^0` and the least significant bit of byte 15 the coefficient
of `x^127` (`blockPoly`), for all blocks `x` and `y` the output of
`gf_mult(x, y)` is a block, it stands for the product of the two polynomials
reduced modulo `x^128 + x^7 + x^2 + x + 1`, and it is the only block that
does. -/
theorem gf_mult_is_field_mult (x y : List Nat) (hx : IsBlock x) (hy : IsBlock y) :
    gcmPoly = Polynomial.X ^ 128 + Polynomial.X ^ 7 + Polynomial.X ^ 2 + Polynomial.X + 1 ∧
      IsBlock (gf_mult x y) ∧
      blockPoly (gf_mult x y) = (blockPoly x * blockPoly y) %ₘ gcmPoly ∧
      ∀ z, IsBlock z → blockPoly z = (blockPoly x * blockPoly y) %ₘ gcmPoly →
        z = gf_mult x y := by
  obtain ⟨h1, e1⟩ := gf_mult_spec x y hx hy
  have hp : blockPoly (gf_mult x y) = (blockPoly x * blockPoly y) %ₘ gcmPoly := by
    rw [blockPoly_eq_toPoly _ h1, blockPoly_eq_toPoly _ hx, blockPoly_eq_toPoly _ hy, e1,
      toPoly_gfMulNat _ _ (blockToNat_lt_of_isBlock y hy)]
  refine ⟨rfl, h1, hp, ?_⟩
  intro z hz hzp
  rw [← hp, blockPoly_eq_toPoly _ hz, blockPoly_eq_toPoly _ h1] at hzp
  exact blockToNat_injective _ _ hz h1
    (toPoly_injective _ _ (blockToNat_lt_of_isBlock z hz) (blockToNat_lt_of_isBlock _ h1) hzp)

/-- C11 at the hash subkey and the ciphertext block of GCM test case 2. -/
theorem gf_mult_is_field_mult_witness :
    IsBlock katH ∧ IsBlock katC ∧ IsBlock (gf_mult katC katH) ∧
      blockPoly (gf_mult katC katH) = (blockPoly katC * blockPoly katH) %ₘ gcmPoly :=
  ⟨⟨by decide, by decide⟩, ⟨by decide, by decide⟩,
    (gf_mult_is_field_mult katC katH ⟨by decide, by decide⟩ ⟨by decide, by decide⟩).2.1,
    (gf_mult_is_field_mult katC katH ⟨by decide, by decide⟩ ⟨by decide, by decide⟩).2.2.1⟩

/-- C12: `ghash` is the padded block fold.  For every `h`, accumulator `y`
and data `x`, `ghash(h, x, y)` is the left fold, over the consecutive 16-byte
chunks of `x` zero-padded on the right to the next multiple of 16 bytes, of
the step `Y := gf_mult(Y XOR chunk, h)`; a final partial chunk of 1..15 bytes
is absorbed once, as its zero-padded block, after the full chunks; empty data
leaves `y` unchanged; and `ghash(h, a || b, y) = ghash(h, b, ghash(h, a, y))`
whenever the length of `a` is a multiple of 16. -/
theorem ghash_is_padded_fold (h x y : List Nat) :
    ghash h x y = (chunks16 (pad16 x)).foldl (fun Y c => gf_mult (xor_block Y c) h) y ∧
      (x.length % 16 ≠ 0 →
        ghash h x y =
          gf_mult (xor_block (ghash h (x.take (16 * (x.length / 16))) y)
            (x.drop (16 * (x.length / 16)) ++ List.replicate (16 - x.length % 16) 0)) h) ∧
      ghash h [] y = y ∧
      ∀ a b : List Nat, a.length % 16 = 0 →
        ghash h (a ++ b) y = ghash h b (ghash h a y) :=
  ⟨by rw [ghash_eq, GHASH_blocks_eq_foldl]; rfl, ghash_partial h x y, ghash_nil h y,
    fun a b ha => ghash_append h a b y ha⟩

/-- C12 at twenty bytes of data, one full chunk and a partial chunk of four
bytes, and at the same data split after the full chunk. -/
theorem ghash_is_padded_fold_witness :
    exData.length % 16 ≠ 0 ∧ exIv.length % 16 = 0 ∧
      ghash katH exData katS =
        gf_mult (xor_block (ghash katH (exData.take (16 * (exData.length / 16))) katS)
          (exData.drop (16 * (exData.length / 16)) ++
            List.replicate (16 - exData.length % 16) 0)) katH ∧
      ghash katH (exIv ++ exAad) katS = ghash katH exAad (ghash katH exIv katS) :=
  ⟨by decide, by decide, (ghash_is_padded_fold katH exData katS).2.1 (by decide),
    (ghash_is_padded_fold katH exData katS).2.2.2 exIv exAad (by decide)⟩

/-- C13: `aes_gctr` is XOR with the counter keystream.  For every block
cipher, initial counter block `icb` and input `x`, and an output buffer `y`
with room for the output: byte `i < len(x)` of the buffer after the call is
`x[i] XOR E_K(CB_k)[i mod 16]` with `k = i / 16`, `CB_0 = icb` and
`CB_(k+1) = inc32(CB_k)`; exactly `len(x)` bytes are written, the bytes of the
buffer from `len(x)` on are left as they were; and zero-length input writes
nothing. -/
theorem aes_gctr_is_keystream_xor (A : BlockCipher) (ctx : A.AES_ctx) (icb x y : List Nat)
    (hi : icb.length = 16) (hx : x.length ≤ y.length) :
    (aes_gctr A ctx icb x y).length = y.length ∧
      (∀ i, i < x.length →
        (aes_gctr A ctx icb x y).getD i 0 =
          x.getD i 0 ^^^
            (A.AES_ECB_encrypt ctx (counterBlock icb (i / 16))).getD (i % 16) 0) ∧
      (aes_gctr A ctx icb x y).drop x.length = y.drop x.length ∧
      aes_gctr A ctx icb [] y = y := by
  rw [aes_gctr_eq A ctx icb x y hx, List.take_of_length_le (l := icb) (by omega)]
  have hl := length_GCTR A ctx icb x
  refine ⟨?_, ?_, ?_, ?_⟩
  · rw [List.length_append, hl, List.length_drop]
    omega
  · intro i hi2
    rw [List.getD_append _ _ _ _ (by rw [hl]; exact hi2)]
    exact getD_GCTR A ctx icb x i hi2
  · rw [List.drop_left' hl]
  · rfl

/-- C13 at the message of `main`, the 16 bytes of `exIv` as counter block,
under `toyCipher`. -/
theorem aes_gctr_is_keystream_xor_witness :
    exIv.length = 16 ∧ exMsg.length ≤ exBuf.length ∧
      (aes_gctr toyCipher exCtx exIv exMsg exBuf).length = exBuf.length ∧
      (∀ i, i < exMsg.length →
        (aes_gctr toyCipher exCtx exIv exMsg exBuf).getD i 0 =
          exMsg.getD i 0 ^^^
            (toyCipher.AES_ECB_encrypt exCtx (counterBlock exIv (i / 16))).getD (i % 16) 0) ∧
      (aes_gctr toyCipher exCtx exIv exMsg exBuf).drop exMsg.length =
        exBuf.drop exMsg.length ∧
      aes_gctr toyCipher exCtx exIv [] exBuf = exBuf :=
  ⟨by decide, by decide,
    aes_gctr_is_keystream_xor toyCipher exCtx exIv exMsg exBuf (by decide) (by decide)⟩

/-- C14: `inc32` adds one modulo 2^32 to the big-endian integer in bytes
12..15 of a block and leaves bytes 0..11 unchanged; a block whose last four
bytes are `FF FF FF FF` becomes the same block with last four bytes
`00 00 00 00`. -/
theorem inc32_adds_one (b : List Nat) (hb : IsBlock b) :
    IsBlock (inc32 b) ∧ (inc32 b).take 12 = b.take 12 ∧
      blockToNat ((inc32 b).drop 12) = (blockToNat (b.drop 12) + 1) % 2 ^ 32 ∧
      (b.drop 12 = [0xff, 0xff, 0xff, 0xff] → inc32 b = b.take 12 ++ [0, 0, 0, 0]) := by
  have hl : (b.take 12).length = 12 := by rw [List.length_take, hb.1]; rfl
  rw [inc32_eq_append b hb]
  generalize hn : (blockToNat (b.drop 12) + 1) % 2 ^ 32 = n
  refine ⟨⟨?_, ?_⟩, List.take_left' hl, ?_, ?_⟩
  · rw [List.length_append, hl]
    rfl
  · intro v hv
    rw [List.mem_append] at hv
    rcases hv with hv | hv
    · exact hb.2 v (List.mem_of_mem_take hv)
    · simp only [List.mem_cons, List.mem_singleton, List.not_mem_nil, or_false] at hv
      omega
  · rw [List.drop_left' hl]
    simp only [blockToNat, List.foldl]
    omega
  · intro h
    rw [h] at hn
    have h0 : n = 0 := by rw [← hn]; decide
    rw [h0]
    rfl

/-- C14 at a block whose last four bytes are `FF FF FF FF`. -/
theorem inc32_adds_one_witness :
    IsBlock exWrap ∧ exWrap.drop 12 = [0xff, 0xff, 0xff, 0xff] ∧
      inc32 exWrap = exWrap.take 12 ++ [0, 0, 0, 0] ∧
      blockToNat ((inc32 exWrap).drop 12) = (blockToNat (exWrap.drop 12) + 1) % 2 ^ 32 :=
  ⟨⟨by decide, by decide⟩, by decide,
    (inc32_adds_one exWrap ⟨by decide, by decide⟩).2.2.2 (by decide),
    (inc32_adds_one exWrap ⟨by decide, by decide⟩).2.2.1⟩

/-- C15: zero annihilates in `gf_mult`.  For every block `B`,
`gf_mult(B, 0^128)` is the all-zero block and `gf_mult(0^128, B)` is the
all-zero block. -/
theorem gf_mult_zero_annihilates (B : List Nat) :
    gf_mult B (List.replicate 16 0) = List.replicate 16 0 ∧
      gf_mult (List.replicate 16 0) B = List.replicate 16 0 :=
  ⟨gf_mult_zero_right B, gf_mult_zero_left B⟩

/-- C16: `shift_right_block` is a 128-bit logical right shift by one.  For
every block `v`, read as one big-endian unsigned 128-bit integer `N`, the
block after `shift_right_block` stands for `floor(N / 2)`; byte `i + 1` of it
is the low bit of byte `i` of `v`, as its high bit, over the upper seven bits
of byte `i + 1` of `v`, for every `i < 15`, across the 32-bit word boundaries
too; and byte 0 of it is byte 0 of `v` shifted, with top bit 0. -/
theorem shift_right_block_halves (v : List Nat) (hv : IsBlock v) :
    IsBlock (shift_right_block v) ∧
      blockToNat (shift_right_block v) = blockToNat v / 2 ∧
      (∀ i, i < 15 →
        (shift_right_block v).getD (i + 1) 0 =
          v.getD i 0 % 2 * 128 + v.getD (i + 1) 0 / 2) ∧
      (shift_right_block v).getD 0 0 = v.getD 0 0 / 2 ∧
      (shift_right_block v).getD 0 0 < 128 := by
  obtain ⟨h1, h2⟩ := shift_right_block_spec v hv
  obtain ⟨h3, h4⟩ := shift_right_block_bytes v hv
  refine ⟨h1, ?_, h4, h3, ?_⟩
  · rw [h2, Nat.shiftRight_eq_div_pow, Nat.pow_one]
  · rw [h3]
    have hb : v.getD 0 0 < 256 := by
      rw [List.getD_eq_getElem _ _ (by rw [hv.1]; decide)]
      exact hv.2 _ (List.getElem_mem _)
    omega

/-- C16 at a block with the low bit set in bytes 3, 7, 11 and 15 and the top
bit set in byte 0. -/
theorem shift_right_block_halves_witness :
    IsBlock exShift ∧
      shift_right_block exShift =
        [0x40, 0x00, 0x00, 0x00, 0x80, 0x00, 0x00, 0x00, 0x80, 0x00, 0x00, 0x00, 0x80, 0x00,
          0x00, 0x00] ∧
      blockToNat (shift_right_block exShift) = blockToNat exShift / 2 :=
  ⟨⟨by decide, by decide⟩, by decide,
    (shift_right_block_halves exShift ⟨by decide, by decide⟩).2.1⟩

/-- C17: the `key_len` argument has no effect.  For every key, nonce, data,
associated data, buffers, and any two values of `key_len`, `aes_gcm_ae`,
`aes_gcm_ad` and `aes_gmac` leave behind the same global `ctx`, return value,
data buffer and tag buffer; and `aes_gcm_init_hash_subkey` hands the block
cipher the key alone. -/
theorem key_len_has_no_effect (A : BlockCipher) (ctx : A.AES_ctx) (key : List Nat)
    (k1 k2 : Nat) (iv data aad buf tag : List Nat) :
    aes_gcm_ae A ctx key k1 iv data aad buf tag =
        aes_gcm_ae A ctx key k2 iv data aad buf tag ∧
      aes_gcm_ad A ctx key k1 iv data aad tag buf =
        aes_gcm_ad A ctx key k2 iv data aad tag buf ∧
      aes_gmac A ctx key k1 iv aad tag = aes_gmac A ctx key k2 iv aad tag ∧
      (aes_gcm_init_hash_subkey A ctx key k1).1 = A.AES_init_ctx ctx key :=
  ⟨rfl, rfl, rfl, rfl⟩

/-- C18: `gf_mult` is commutative: for all blocks `x` and `y`,
`gf_mult(x, y) = gf_mult(y, x)`. -/
theorem gf_mult_commutative (x y : List Nat) (hx : IsBlock x) (hy : IsBlock y) :
    gf_mult x y = gf_mult y x := by
  obtain ⟨h1, e1⟩ := gf_mult_spec x y hx hy
  obtain ⟨h2, e2⟩ := gf_mult_spec y x hy hx
  refine blockToNat_injective _ _ h1 h2 ?_
  rw [e1, e2]
  have bx := blockToNat_lt_of_isBlock x hx
  have by1 := blockToNat_lt_of_isBlock y hy
  refine toField_injective _ _ (gfMulNat_lt _ _ by1) (gfMulNat_lt _ _ bx) ?_
  rw [toField_gfMulNat _ _ by1, toField_gfMulNat _ _ bx, mul_comm]

/-- C18 at the hash subkey and the ciphertext block of GCM test case 2. -/
theorem gf_mult_commutative_witness :
    IsBlock katH ∧ IsBlock katC ∧ gf_mult katH katC = gf_mult katC katH :=
  ⟨⟨by decide, by decide⟩, ⟨by decide, by decide⟩,
    gf_mult_commutative katH katC ⟨by decide, by decide⟩ ⟨by decide, by decide⟩⟩

/-- C19: GHASH is linear over XOR.  For every block `H`, all blocks `Y1`,
`Y2` and all byte strings `d1`, `d2` of equal length,
`ghash(H, d1 XOR d2, Y1 XOR Y2) = ghash(H, d1, Y1) XOR ghash(H, d2, Y2)`; and
`gf_mult(A XOR B, H) = gf_mult(A, H) XOR gf_mult(B, H)` for all blocks `A`,
`B`. -/
theorem ghash_linear_over_xor (H Y1 Y2 d1 d2 : List Nat) (hH : IsBlock H)
    (hY1 : IsBlock Y1) (hY2 : IsBlock Y2) (hd1 : ∀ v ∈ d1, v < 256)
    (hd2 : ∀ v ∈ d2, v < 256) (hl : d1.length = d2.length) :
    ghash H (List.zipWith (fun p q => p ^^^ q) d1 d2) (xor_block Y1 Y2) =
        xor_block (ghash H d1 Y1) (ghash H d2 Y2) ∧
      ∀ A B : List Nat, IsBlock A → IsBlock B →
        gf_mult (xor_block A B) H = xor_block (gf_mult A H) (gf_mult B H) :=
  ⟨ghash_xor H Y1 Y2 d1 d2 hH hY1 hY2 hd1 hd2 hl,
    fun A B hA hB => gf_mult_xor_left A B H hA hB hH⟩

/-- C19 at two strings of twenty bytes under the hash subkey of GCM test case
2. -/
theorem ghash_linear_over_xor_witness :
    IsBlock katH ∧ IsBlock katS ∧ IsBlock katT ∧ (∀ v ∈ exData, v < 256) ∧
      (∀ v ∈ exData2, v < 256) ∧ exData.length = exData2.length ∧
      ghash katH (List.zipWith (fun p q => p ^^^ q) exData exData2) (xor_block katS katT) =
        xor_block (ghash katH exData katS) (ghash katH exData2 katT) ∧
      gf_mult (xor_block katC katEJ0) katH =
        xor_block (gf_mult katC katH) (gf_mult katEJ0 katH) :=
  ⟨⟨by decide, by decide⟩, ⟨by decide, by decide⟩, ⟨by decide, by decide⟩, by decide,
    by decide, by decide,
    (ghash_linear_over_xor katH katS katT exData exData2 ⟨by decide, by decide⟩
      ⟨by decide, by decide⟩ ⟨by decide, by decide⟩ (by decide) (by decide) (by decide)).1,
    (ghash_linear_over_xor katH katS katT exData exData2 ⟨by decide, by decide⟩
      ⟨by decide, by decide⟩ ⟨by decide, by decide⟩ (by decide) (by decide) (by decide)).2
      katC katEJ0 ⟨by decide, by decide⟩ ⟨by decide, by decide⟩⟩

/-- C20: an empty nonce gives a key-independent `J0`.  For every `H`,
`aes_gcm_prepare_j0` with an empty nonce yields the all-zero block, which is
`gf_mult(0^128, H)`; hence, for every key, `aes_gcm_ae` with an empty nonce
writes as ciphertext the counter-mode encryption of the plaintext starting at
the counter block `0^96 || 00000001`, and as tag the GHASH value masked with
`E_K(0^128)`, which is the hash subkey. -/
theorem aes_gcm_ae_empty_nonce (A : BlockCipher) (ctx : A.AES_ctx) (key : List Nat)
    (key_len : Nat) (plain aad crypt tag : List Nat)
    (hc : plain.length ≤ crypt.length) (ht : 16 ≤ tag.length) :
    (∀ H : List Nat, aes_gcm_prepare_j0 [] H = List.replicate 16 0 ∧
      aes_gcm_prepare_j0 [] H = gf_mult (List.replicate 16 0) H) ∧
      (aes_gcm_ae A ctx key key_len [] plain aad crypt tag).data =
        GCTR A (A.AES_init_ctx ctx key) (List.replicate 12 0 ++ [0, 0, 0, 1]) plain ++
          crypt.drop plain.length ∧
      (aes_gcm_ae A ctx key key_len [] plain aad crypt tag).tag =
        xor_block (A.AES_ECB_encrypt (A.AES_init_ctx ctx key) (List.replicate 16 0))
          (aes_gcm_ghash (A.AES_ECB_encrypt (A.AES_init_ctx ctx key) (List.replicate 16 0)) aad
            (GCTR A (A.AES_init_ctx ctx key) (List.replicate 12 0 ++ [0, 0, 0, 1]) plain)) ++
          tag.drop 16 ∧
      (aes_gcm_init_hash_subkey A ctx key key_len).2 =
        A.AES_ECB_encrypt (A.AES_init_ctx ctx key) (List.replicate 16 0) := by
  refine ⟨fun H => ⟨aes_gcm_prepare_j0_nil H, ?_⟩, ?_, ?_, ?_⟩
  · rw [aes_gcm_prepare_j0_nil, gf_mult_zero_left]
  · rw [aes_gcm_ae_eq A ctx key key_len [] plain aad crypt tag hc ht]
    dsimp only
    rw [aes_gcm_prepare_j0_nil, inc32_zero]
    rfl
  · rw [aes_gcm_ae_eq A ctx key key_len [] plain aad crypt tag hc ht]
    dsimp only
    rw [aes_gcm_prepare_j0_nil, inc32_zero]
    rfl
  · rw [aes_gcm_init_hash_subkey_eq]
    rfl

/-- C20 at the message of `main` under `toyCipher`, with an empty nonce. -/
theorem aes_gcm_ae_empty_nonce_witness :
    exMsg.length ≤ exBuf.length ∧ 16 ≤ exBuf.length ∧
      aes_gcm_prepare_j0 [] katH = List.replicate 16 0 ∧
      (aes_gcm_ae toyCipher exCtx exKey 32 [] exMsg [] exBuf exBuf).data =
        GCTR toyCipher (toyCipher.AES_init_ctx exCtx exKey)
          (List.replicate 12 0 ++ [0, 0, 0, 1]) exMsg ++ exBuf.drop exMsg.length :=
  ⟨by decide, by decide,
    ((aes_gcm_ae_empty_nonce toyCipher exCtx exKey 32 exMsg [] exBuf exBuf (by decide)
      (by decide)).1 katH).1,
    (aes_gcm_ae_empty_nonce toyCipher exCtx exKey 32 exMsg [] exBuf exBuf (by decide)
      (by decide)).2.1⟩

end GCM
